import Mathlib

/-!
# NanoDB: a shallow embedding of `NanoDB.h` / `NanoDB.cpp`

The row buffer (`NanoRecord`) and the table engine (`NanoTable`) are translated
function by function.

Modelling conventions

* A byte is a `Fin 256`; a file and a row buffer are lists of bytes.
* `int32_t` values are integers; a store keeps the value modulo `2^32`, a load
  returns the signed reading of four bytes.  The byte order is little-endian,
  the byte order of the targets the library is written for.
* A `float` is represented by its 32-bit pattern: the code only copies floats
  with `memcpy` in the functions embedded here.
* An Arduino `String` is the list of its bytes (`Str`); a `String` built from a
  `char` buffer holds the bytes before the first zero byte.
* The file system collaborator is reduced to the one file the table owns:
  `Disk = Option (List Byte)`, `none` when the file does not exist.  Opening
  for reading or updating succeeds exactly when the file exists, opening for
  writing or appending always succeeds.
* `size_t` offsets are unbounded naturals.
* A function whose C++ behaviour is undefined on some input (it writes past a
  fixed array, or reads a variable a short read left uninitialised) returns
  `Run.ub` there.  A `while` loop is run with fuel and returns `Run.fuel` when
  the fuel is used up before the loop has finished.
-/

namespace NanoDB

/-! ## Bytes, strings and machine integers -/

abbrev Byte := Fin 256

/-- Arduino `String`, as the list of its bytes. -/
abbrev Str := List Byte

/-- Capacity of the column array of a table (`#define NANO_MAX_COLS 16`). -/
def NANO_MAX_COLS : Nat := 16

/-- Size of the `char` scratch buffers (`#define NANO_MAX_STR_LEN 128`). -/
def NANO_MAX_STR_LEN : Nat := 128

/-- Type tag `'I'`. -/
def TAG_I : Byte := 73
/-- Type tag `'F'`. -/
def TAG_F : Byte := 70
/-- Type tag `'B'`. -/
def TAG_B : Byte := 66
/-- Type tag `'S'`. -/
def TAG_S : Byte := 83

/-- The column name `"id"`. -/
def ID_NAME : Str := [105, 100]

/-- Outcome of running a piece of the program. -/
inductive Run (α : Type) where
  | ok : α → Run α
  | ub : Run α
  | fuel : Run α
deriving DecidableEq, Repr

/-- Sequencing of two program pieces. -/
def Run.bind {α β : Type} (x : Run α) (k : α → Run β) : Run β :=
  match x with
  | .ok a => k a
  | .ub => .ub
  | .fuel => .fuel

/-- Narrowing conversion to `uint8_t`. -/
def byteOf (n : Nat) : Byte := ⟨n % 256, Nat.mod_lt _ (by decide)⟩

/-- The two bytes of a `uint16_t`, low byte first. -/
def le16 (n : Nat) : List Byte := [byteOf n, byteOf (n / 256)]

/-- The four bytes of a 32-bit pattern, low byte first. -/
def le32 (n : Nat) : List Byte :=
  [byteOf n, byteOf (n / 256), byteOf (n / 65536), byteOf (n / 16777216)]

/-- The number a little-endian byte sequence stands for. -/
def leNat : List Byte → Nat
  | [] => 0
  | b :: bs => b.val + 256 * leNat bs

/-- The 32-bit pattern of an `int32_t`. -/
def bitsOfInt32 (v : Int) : Nat := (v % 4294967296).toNat

/-- The signed reading of a 32-bit pattern. -/
def toInt32 (n : Nat) : Int :=
  if n % 4294967296 < 2147483648 then ((n % 4294967296 : Nat) : Int)
  else ((n % 4294967296 : Nat) : Int) - 4294967296

/-- Result of `int32_t` arithmetic, reduced to the 32-bit range. -/
def wrap32 (v : Int) : Int := toInt32 (bitsOfInt32 v)

/-- The bytes before the first zero byte. -/
def upToNul : List Byte → Str
  | [] => []
  | b :: bs => if b = 0 then [] else b :: upToNul bs

/-- A `String` built from a `char` array (also `strlen`): the bytes before the
first zero byte; when the array holds no zero byte the scan runs past it. -/
def cString (buf : List Byte) : Run Str :=
  if (0 : Byte) ∈ buf then .ok (upToNul buf) else .ub

/-- A zeroed scratch array of `NANO_MAX_STR_LEN` bytes into which `src` is
copied (`memset` then `memcpy`, or `File::read`); a longer `src` overruns it. -/
def scratch (src : List Byte) : Run (List Byte) :=
  if src.length ≤ NANO_MAX_STR_LEN then
    .ok (src ++ List.replicate (NANO_MAX_STR_LEN - src.length) 0)
  else .ub

/-- Read of `n` bytes at offset `off` of a memory block; undefined past its end. -/
def peek (d : List Byte) (off n : Nat) : Run (List Byte) :=
  if off + n ≤ d.length then .ok ((d.drop off).take n) else .ub

/-- Write of `bs` at offset `off` of a memory block; undefined past its end. -/
def poke (d : List Byte) (off : Nat) (bs : List Byte) : Run (List Byte) :=
  if off + bs.length ≤ d.length then
    .ok (d.take off ++ bs ++ d.drop (off + bs.length))
  else .ub

/-- The bytes `File::read` delivers for a request of `n` bytes after
`seek(off)`: fewer than `n` when the file ends first. -/
def readAt (f : List Byte) (off n : Nat) : List Byte := (f.drop off).take n

/-- The file after `seek(off)` and a write of `bs`: bytes in place are
overwritten, a write reaching the end extends the file. -/
def writeAt (f : List Byte) (off : Nat) (bs : List Byte) : List Byte :=
  f.take off ++ bs ++ f.drop (off + bs.length)

/-! ## Schema -/

/-- Column description (`struct ColumnDef`). -/
structure ColumnDef where
  name : Str
  type : Byte
  size : Nat
deriving DecidableEq, Repr

/-! ## NanoRecord -/

/-- Row buffer.  The pointer `_cols` and the count `_colCount` are one list
(`none` for the null pointer); `_data` is `none` for the null pointer. -/
structure NanoRecord where
  _cols : Option (List ColumnDef)
  _rowSize : Nat
  _data : Option (List Byte)
deriving DecidableEq, Repr

namespace NanoRecord

/-- The record a constructor call leaves. -/
def new : NanoRecord := { _cols := none, _rowSize := 0, _data := none }

/-- Member `_colCount`. -/
def _colCount (r : NanoRecord) : Nat :=
  match r._cols with
  | none => 0
  | some cs => cs.length

/-- Accessor `columns()`: true when the pointer is not null. -/
def columns (r : NanoRecord) : Bool := r._cols.isSome

/-- Method `attach(cols, colCount, rowSize)`. -/
def attach (cols : List ColumnDef) (rowSize : Nat) : NanoRecord :=
  { _cols := some cols, _rowSize := rowSize, _data := some (List.replicate rowSize 0) }

/-- Method `detach()`. -/
def detach (_r : NanoRecord) : NanoRecord :=
  { _cols := none, _rowSize := 0, _data := none }

/-- One step of the `switch` in `offsetOf`. -/
def offsetStep (c : ColumnDef) : Nat :=
  if c.type = TAG_I then 4
  else if c.type = TAG_F then 4
  else if c.type = TAG_B then 1
  else if c.type = TAG_S then c.size
  else 0

/-- The loop of `offsetOf` over the columns before `idx`. -/
def offsetLoop : List ColumnDef → Nat → Nat → Nat
  | [], _, off => off
  | _ :: _, 0, off => off
  | c :: cs, idx + 1, off => offsetLoop cs idx (off + offsetStep c)

/-- Method `offsetOf(idx)`. -/
def offsetOf (r : NanoRecord) (idx : Nat) : Nat :=
  offsetLoop (r._cols.getD []) idx 0

/-- Method `colIndexByName(name)`; `none` stands for `-1`. -/
def colIndexByName (r : NanoRecord) (name : Str) : Option Nat :=
  match r._cols with
  | none => none
  | some cs =>
    let i := cs.findIdx (fun c => c.name = name)
    if i < cs.length then some i else none

/-- Method `getInt(idx)`. -/
def getInt (r : NanoRecord) (idx : Nat) : Run Int :=
  match r._data with
  | none => .ok 0
  | some d =>
    if idx ≥ r._colCount then .ok 0
    else (peek d (r.offsetOf idx) 4).bind fun bs => .ok (toInt32 (leNat bs))

/-- Method `getFloat(idx)`; the result is the bit pattern of the float. -/
def getFloat (r : NanoRecord) (idx : Nat) : Run Nat :=
  match r._data with
  | none => .ok 0
  | some d =>
    if idx ≥ r._colCount then .ok 0
    else (peek d (r.offsetOf idx) 4).bind fun bs => .ok (leNat bs)

/-- Method `getBool(idx)`. -/
def getBool (r : NanoRecord) (idx : Nat) : Run Bool :=
  match r._data with
  | none => .ok false
  | some d =>
    if idx ≥ r._colCount then .ok false
    else (peek d (r.offsetOf idx) 1).bind fun bs => .ok (decide (leNat bs ≠ 0))

/-- The scratch array of `getString` and `getCString` after the `memcpy` of
`_cols[idx].size` bytes of the row buffer. -/
def stringScratch (r : NanoRecord) (d : List Byte) (idx : Nat) : Run (List Byte) :=
  match (r._cols.getD [])[idx]? with
  | none => .ub
  | some c => (peek d (r.offsetOf idx) c.size).bind scratch

/-- Method `getString(idx)`. -/
def getString (r : NanoRecord) (idx : Nat) : Run Str :=
  match r._data with
  | none => .ok []
  | some d =>
    if idx ≥ r._colCount then .ok []
    else (r.stringScratch d idx).bind cString

/-- Method `getCString(idx)`, read as a C string by its caller. -/
def getCString (r : NanoRecord) (idx : Nat) : Run Str :=
  match r._data with
  | none => .ok []
  | some d =>
    if idx ≥ r._colCount then .ok []
    else (r.stringScratch d idx).bind cString

/-- Method `setInt(idx, v)`. -/
def setInt (r : NanoRecord) (idx : Nat) (v : Int) : Run NanoRecord :=
  match r._data with
  | none => .ok r
  | some d =>
    if idx ≥ r._colCount then .ok r
    else (poke d (r.offsetOf idx) (le32 (bitsOfInt32 v))).bind fun d1 =>
      .ok { r with _data := some d1 }

/-- Method `setFloat(idx, v)`, `v` the bit pattern of the float. -/
def setFloat (r : NanoRecord) (idx : Nat) (v : Nat) : Run NanoRecord :=
  match r._data with
  | none => .ok r
  | some d =>
    if idx ≥ r._colCount then .ok r
    else (poke d (r.offsetOf idx) (le32 (v % 4294967296))).bind fun d1 =>
      .ok { r with _data := some d1 }

/-- Method `setBool(idx, v)`. -/
def setBool (r : NanoRecord) (idx : Nat) (v : Bool) : Run NanoRecord :=
  match r._data with
  | none => .ok r
  | some d =>
    if idx ≥ r._colCount then .ok r
    else (poke d (r.offsetOf idx) [if v then 1 else 0]).bind fun d1 =>
      .ok { r with _data := some d1 }

/-- Method `setString(idx, s)`: `memset` of the field, then `memcpy` of the
first `copylen` bytes of `s`. -/
def setString (r : NanoRecord) (idx : Nat) (s : Str) : Run NanoRecord :=
  match r._data with
  | none => .ok r
  | some d =>
    if idx ≥ r._colCount then .ok r
    else
      match (r._cols.getD [])[idx]? with
      | none => .ub
      | some c =>
        let maxlen := c.size
        let copylen := min maxlen s.length
        (poke d (r.offsetOf idx) (List.replicate maxlen 0)).bind fun d1 =>
          (poke d1 (r.offsetOf idx) (s.take copylen)).bind fun d2 =>
            .ok { r with _data := some d2 }

/-- Method `getInt(colName)`. -/
def getIntByName (r : NanoRecord) (colName : Str) : Run Int :=
  match r.colIndexByName colName with
  | some i => r.getInt i
  | none => .ok 0

/-- Method `getFloat(colName)`. -/
def getFloatByName (r : NanoRecord) (colName : Str) : Run Nat :=
  match r.colIndexByName colName with
  | some i => r.getFloat i
  | none => .ok 0

/-- Method `getBool(colName)`. -/
def getBoolByName (r : NanoRecord) (colName : Str) : Run Bool :=
  match r.colIndexByName colName with
  | some i => r.getBool i
  | none => .ok false

/-- Method `getString(colName)`. -/
def getStringByName (r : NanoRecord) (colName : Str) : Run Str :=
  match r.colIndexByName colName with
  | some i => r.getString i
  | none => .ok []

/-- Method `getCString(colName)`. -/
def getCStringByName (r : NanoRecord) (colName : Str) : Run Str :=
  match r.colIndexByName colName with
  | some i => r.getCString i
  | none => .ok []

/-- Operator `operator[](colName)`: the index `_idx` of the `FieldProxy` it
returns. -/
def proxyIndex (r : NanoRecord) (colName : Str) : Nat :=
  match r.colIndexByName colName with
  | some i => i
  | none => 0

/-- Conversion `operator int32_t` of the proxy `rec[colName]`. -/
def proxyInt (r : NanoRecord) (colName : Str) : Run Int := r.getInt (r.proxyIndex colName)

/-- Conversion `operator float` of the proxy `rec[colName]`. -/
def proxyFloat (r : NanoRecord) (colName : Str) : Run Nat := r.getFloat (r.proxyIndex colName)

/-- Conversion `operator bool` of the proxy `rec[colName]`. -/
def proxyBool (r : NanoRecord) (colName : Str) : Run Bool := r.getBool (r.proxyIndex colName)

/-- Conversion `operator String` of the proxy `rec[colName]`. -/
def proxyString (r : NanoRecord) (colName : Str) : Run Str := r.getString (r.proxyIndex colName)

end NanoRecord

/-! ## NanoTable -/

/-- The file of the table on the file system: `none` when it does not exist. -/
abbrev Disk := Option (List Byte)

/-- Table object.  The array `_cols` and the count `_colCount` are one list. -/
structure NanoTable where
  _cols : List ColumnDef
  _recordSize : Nat
deriving DecidableEq, Repr

namespace NanoTable

/-- The table a constructor call leaves: no column, record size 0. -/
def new : NanoTable := { _cols := [], _recordSize := 0 }

/-- Member `_colCount`. -/
def _colCount (t : NanoTable) : Nat := t._cols.length

/-- Method `_exists()`. -/
def _exists (disk : Disk) : Bool := disk.isSome

/-- Method `_typeSize(c)`. -/
def _typeSize (c : ColumnDef) : Nat :=
  if c.type = TAG_I then 4
  else if c.type = TAG_F then 4
  else if c.type = TAG_B then 1
  else if c.type = TAG_S then c.size
  else 0

/-- Method `_headerSizeBytes()`. -/
def _headerSizeBytes (t : NanoTable) : Nat :=
  t._cols.foldl (fun s c => s + 1 + c.name.length + 1 + 2) 1

/-- The bytes `_writeHeader` writes for one column. -/
def columnBytes (c : ColumnDef) : List Byte :=
  let nl := min 255 c.name.length
  [byteOf nl] ++ c.name.take nl ++ [c.type] ++ le16 c.size

/-- The bytes `_writeHeader` writes for the columns, in order. -/
def columnsBytes : List ColumnDef → List Byte
  | [] => []
  | c :: cs => columnBytes c ++ columnsBytes cs

/-- The loop of `_loadHeader` over `n` columns, reading from the bytes that
follow the read position.  A short read leaves the variable it was to fill
uninitialised. -/
def loadCols : Nat → List Byte → Run (List ColumnDef)
  | 0, _ => .ok []
  | n + 1, f =>
    match f with
    | [] => .ub
    | nl :: f1 =>
      if f1.length < nl.val + 3 then .ub
      else
        let nb := f1.take nl.val
        let t := (f1.drop nl.val).headD 0
        let s := leNat ((f1.drop (nl.val + 1)).take 2)
        (loadCols n (f1.drop (nl.val + 3))).bind fun rest =>
          .ok ({ name := upToNul nb, type := t, size := s } :: rest)

/-- The loop of `_loadHeader` that adds up `_recordSize`, a `uint16_t`. -/
def recordSizeOf (cols : List ColumnDef) : Nat :=
  cols.foldl (fun acc c => (acc + _typeSize c) % 65536) 0

/-- Method `_loadHeader()`.  More than `NANO_MAX_COLS` columns overrun the
array `_cols`. -/
def _loadHeader (t : NanoTable) (disk : Disk) : Run (Bool × NanoTable) :=
  match disk with
  | none => .ok (false, t)
  | some f =>
    match f with
    | [] => .ok (false, t)
    | cc :: f1 =>
      if cc.val > NANO_MAX_COLS then .ub
      else
        (loadCols cc.val f1).bind fun cols =>
          .ok (true, { _cols := cols, _recordSize := recordSizeOf cols })

/-- Method `_writeHeader(cols, colCount)`; the file is opened with mode `w`. -/
def _writeHeader (t : NanoTable) (cols : List ColumnDef) :
    Run (Bool × NanoTable × Disk) :=
  let disk1 : Disk := some (byteOf cols.length :: columnsBytes cols)
  (_loadHeader t disk1).bind fun r => .ok (r.1, r.2, disk1)

/-- Method `begin(cols, colCount)`; a null `cols` is `none`, `colCount` is the
length of the list. -/
def begin (t : NanoTable) (disk : Disk) (cols : Option (List ColumnDef)) :
    Run (Bool × NanoTable × Disk) :=
  if _exists disk then
    (_loadHeader t disk).bind fun r => .ok (r.1, r.2, disk)
  else
    match cols with
    | none => .ok (false, t, disk)
    | some cs =>
      if cs.length = 0 then .ok (false, t, disk)
      else _writeHeader t cs

/-- The search `for (i...) if (_cols[i].name=="id" && _cols[i].type=='I')`;
`none` stands for `idIdx = -1`. -/
def idIndex (cols : List ColumnDef) : Option Nat :=
  let i := cols.findIdx (fun c => decide (c.name = ID_NAME ∧ c.type = TAG_I))
  if i < cols.length then some i else none

/-- The search `for (i...) if (_cols[i].name==col)`. -/
def colIndex (cols : List ColumnDef) (col : Str) : Option Nat :=
  let i := cols.findIdx (fun c => decide (c.name = col))
  if i < cols.length then some i else none

/-- The loop `for (j<idx) off += _typeSize(_cols[j])`. -/
def colOffset (cols : List ColumnDef) (idx : Nat) : Nat :=
  ((cols.take idx).map _typeSize).sum

/-- The statement `if (_colCount==0) _loadHeader();`, result ignored. -/
def lazyLoad (t : NanoTable) (disk : Disk) : Run NanoTable :=
  if t._colCount = 0 then (_loadHeader t disk).bind fun r => .ok r.2
  else .ok t

/-- The guard `_colCount==0 && !_loadHeader()`, with the table it leaves; the
flag is true when the guard holds. -/
def headerMissing (t : NanoTable) (disk : Disk) : Run (Bool × NanoTable) :=
  if t._colCount = 0 then (_loadHeader t disk).bind fun r => .ok (!r.1, r.2)
  else .ok (false, t)

/-- The `while` loop of `records()`. -/
def recordsLoop (t : NanoTable) (f : List Byte) : Nat → Nat → Nat → Run Nat
  | 0, _, _ => .fuel
  | fuel + 1, pos, cnt =>
    if pos + t._recordSize ≤ f.length then
      match idIndex t._cols with
      | none => recordsLoop t f fuel (pos + t._recordSize) ((cnt + 1) % 4294967296)
      | some idIdx =>
        let bs := readAt f (pos + colOffset t._cols idIdx) 4
        if bs.length = 4 ∧ toInt32 (leNat bs) ≠ 0 then
          recordsLoop t f fuel (pos + t._recordSize) ((cnt + 1) % 4294967296)
        else recordsLoop t f fuel (pos + t._recordSize) cnt
    else .ok cnt

/-- Method `records()`. -/
def records (fuel : Nat) (t : NanoTable) (disk : Disk) : Run (Nat × NanoTable) :=
  match disk with
  | none => .ok (0, t)
  | some f =>
    (lazyLoad t disk).bind fun t1 =>
      (recordsLoop t1 f fuel t1._headerSizeBytes 0).bind fun cnt => .ok (cnt, t1)

/-- Method `size()`. -/
def size (disk : Disk) : Nat :=
  match disk with
  | none => 0
  | some f => f.length

/-- Method `newRecord(rec)`. -/
def newRecord (t : NanoTable) (disk : Disk) (rec : NanoRecord) :
    Run (Bool × NanoTable × NanoRecord) :=
  (headerMissing t disk).bind fun r =>
    if r.1 then .ok (false, r.2, rec)
    else .ok (true, r.2, NanoRecord.attach r.2._cols r.2._recordSize)

/-- The `while` loop of `_nextId()`. -/
def nextIdLoop (t : NanoTable) (f : List Byte) (idIdx : Nat) : Nat → Nat → Int → Run Int
  | 0, _, _ => .fuel
  | fuel + 1, pos, maxId =>
    if pos + t._recordSize ≤ f.length then
      let bs := readAt f (pos + colOffset t._cols idIdx) 4
      if bs.length ≠ 4 then .ok maxId
      else
        let v := toInt32 (leNat bs)
        nextIdLoop t f idIdx fuel (pos + t._recordSize) (if v > maxId then v else maxId)
    else .ok maxId

/-- Method `_nextId()`. -/
def _nextId (fuel : Nat) (t : NanoTable) (disk : Disk) : Run (Int × NanoTable) :=
  (lazyLoad t disk).bind fun t1 =>
    match idIndex t1._cols with
    | none => .ok (1, t1)
    | some idIdx =>
      match disk with
      | none => .ok (1, t1)
      | some f =>
        (nextIdLoop t1 f idIdx fuel t1._headerSizeBytes 0).bind fun maxId =>
          .ok (wrap32 (maxId + 1), t1)

/-- The bytes one iteration of the loop of `_writeRecordAt` writes for column
`i` of the table, whose definition is `c`. -/
def fieldBytes (rec : NanoRecord) (c : ColumnDef) (i : Nat) : Run (List Byte) :=
  if c.type = TAG_I then
    (rec.getInt i).bind fun v => .ok (le32 (bitsOfInt32 v))
  else if c.type = TAG_F then
    (rec.getFloat i).bind fun v => .ok (le32 (v % 4294967296))
  else if c.type = TAG_B then
    (rec.getBool i).bind fun b => .ok [if b then 1 else 0]
  else if c.type = TAG_S then
    (rec.getCString i).bind fun s =>
      let toWrite := min c.size s.length
      .ok (s.take toWrite ++ List.replicate (c.size - toWrite) 0)
  else .ok []

/-- The loop of `_writeRecordAt` over the columns from index `i` on: all the
bytes it writes, in order. -/
def writeLoop (rec : NanoRecord) : List ColumnDef → Nat → Run (List Byte)
  | [], _ => .ok []
  | c :: cs, i =>
    (fieldBytes rec c i).bind fun bs =>
      (writeLoop rec cs (i + 1)).bind fun rest => .ok (bs ++ rest)

/-- Method `_writeRecordAt(f, offset, rec)` on an open file of content `f`. -/
def _writeRecordAt (t : NanoTable) (f : List Byte) (offset : Nat) (rec : NanoRecord) :
    Run (Bool × List Byte) :=
  if !rec.columns then .ok (false, f)
  else (writeLoop rec t._cols 0).bind fun bs => .ok (true, writeAt f offset bs)

/-- Method `save(rec)`; the file is opened with mode `a`. -/
def save (fuel : Nat) (t : NanoTable) (disk : Disk) (rec : NanoRecord) :
    Run (Bool × NanoTable × Disk × NanoRecord) :=
  (headerMissing t disk).bind fun r =>
    if r.1 then .ok (false, r.2, disk, rec)
    else
      let t1 := r.2
      let rec1 := if !rec.columns then NanoRecord.attach t1._cols t1._recordSize else rec
      (match idIndex t1._cols with
        | none => (.ok (rec1, t1) : Run (NanoRecord × NanoTable))
        | some idIdx =>
          (rec1.getInt idIdx).bind fun cur =>
            if cur = 0 then
              (_nextId fuel t1 disk).bind fun n =>
                (rec1.setInt idIdx n.1).bind fun rec2 => .ok (rec2, n.2)
            else .ok (rec1, t1)).bind fun q =>
        let f := disk.getD []
        (_writeRecordAt q.2 f f.length q.1).bind fun w =>
          .ok (w.1, q.2, some w.2, q.1)

/-- The loop of `_readRecordAt` over the columns from index `i` on, the file
position being `pos`. -/
def readLoop (f : List Byte) : List ColumnDef → Nat → Nat → NanoRecord → Run (Bool × NanoRecord)
  | [], _, _, out => .ok (true, out)
  | c :: cs, i, pos, out =>
    if c.type = TAG_I then
      let bs := readAt f pos 4
      if bs.length ≠ 4 then .ok (false, out)
      else (out.setInt i (toInt32 (leNat bs))).bind fun out1 => readLoop f cs (i + 1) (pos + 4) out1
    else if c.type = TAG_F then
      let bs := readAt f pos 4
      if bs.length ≠ 4 then .ok (false, out)
      else (out.setFloat i (leNat bs)).bind fun out1 => readLoop f cs (i + 1) (pos + 4) out1
    else if c.type = TAG_B then
      let bs := readAt f pos 1
      if bs.length ≠ 1 then .ok (false, out)
      else (out.setBool i (decide (leNat bs ≠ 0))).bind fun out1 =>
        readLoop f cs (i + 1) (pos + 1) out1
    else if c.type = TAG_S then
      let len := c.size
      if len > 0 then
        let bs := readAt f pos len
        (scratch bs).bind fun buf =>
          if bs.length ≠ len then .ok (false, out)
          else (cString buf).bind fun s =>
            (out.setString i s).bind fun out1 => readLoop f cs (i + 1) (pos + len) out1
      else (out.setString i []).bind fun out1 => readLoop f cs (i + 1) pos out1
    else .ok (false, out)

/-- Method `_readRecordAt(f, offset, outRec)` on an open file of content `f`. -/
def _readRecordAt (t : NanoTable) (disk : Disk) (f : List Byte) (offset : Nat)
    (outRec : NanoRecord) : Run (Bool × NanoTable × NanoRecord) :=
  (headerMissing t disk).bind fun r =>
    if r.1 then .ok (false, r.2, outRec)
    else
      let t1 := r.2
      let out1 := if !outRec.columns then NanoRecord.attach t1._cols t1._recordSize else outRec
      if offset + t1._recordSize > f.length then .ok (false, t1, out1)
      else (readLoop f t1._cols 0 offset out1).bind fun q => .ok (q.1, t1, q.2)

/-- The `while` loop of `_findOffsetById` (and of `_findOffsetByColInt`, whose
loop is the same with the index of the named column); `none` stands for
`SIZE_MAX`. -/
def findIntLoop (t : NanoTable) (f : List Byte) (idx : Nat) (val : Int) :
    Nat → Nat → Run (Option Nat)
  | 0, _ => .fuel
  | fuel + 1, pos =>
    if pos + t._recordSize ≤ f.length then
      let bs := readAt f (pos + colOffset t._cols idx) 4
      if bs.length ≠ 4 then .ok none
      else if toInt32 (leNat bs) = val then .ok (some pos)
      else findIntLoop t f idx val fuel (pos + t._recordSize)
    else .ok none

/-- Method `_findOffsetById(idValue)`. -/
def _findOffsetById (fuel : Nat) (t : NanoTable) (disk : Disk) (idValue : Int) :
    Run (Option Nat × NanoTable) :=
  (lazyLoad t disk).bind fun t1 =>
    match idIndex t1._cols with
    | none => .ok (none, t1)
    | some idIdx =>
      match disk with
      | none => .ok (none, t1)
      | some f =>
        (findIntLoop t1 f idIdx idValue fuel t1._headerSizeBytes).bind fun o => .ok (o, t1)

/-- The `while` loop of `_findOffsetByColString`; `c` is the definition of the
column of index `idx`. -/
def findStringLoop (t : NanoTable) (f : List Byte) (idx : Nat) (c : ColumnDef) (val : Str) :
    Nat → Nat → Run (Option Nat)
  | 0, _ => .fuel
  | fuel + 1, pos =>
    if pos + t._recordSize ≤ f.length then
      let bs := readAt f (pos + colOffset t._cols idx) c.size
      (scratch bs).bind fun buf =>
        if bs.length ≠ c.size then .ok none
        else (cString buf).bind fun s =>
          if s = val then .ok (some pos)
          else findStringLoop t f idx c val fuel (pos + t._recordSize)
    else .ok none

/-- Method `_findOffsetByColString(col, val)`. -/
def _findOffsetByColString (fuel : Nat) (t : NanoTable) (disk : Disk) (col val : Str) :
    Run (Option Nat × NanoTable) :=
  (lazyLoad t disk).bind fun t1 =>
    match colIndex t1._cols col with
    | none => .ok (none, t1)
    | some idx =>
      match t1._cols[idx]? with
      | none => .ok (none, t1)
      | some c =>
        if c.type ≠ TAG_S then .ok (none, t1)
        else
          match disk with
          | none => .ok (none, t1)
          | some f =>
            (findStringLoop t1 f idx c val fuel t1._headerSizeBytes).bind fun o => .ok (o, t1)

/-- Method `_findOffsetByColInt(col, val)`. -/
def _findOffsetByColInt (fuel : Nat) (t : NanoTable) (disk : Disk) (col : Str) (val : Int) :
    Run (Option Nat × NanoTable) :=
  (lazyLoad t disk).bind fun t1 =>
    match colIndex t1._cols col with
    | none => .ok (none, t1)
    | some idx =>
      match t1._cols[idx]? with
      | none => .ok (none, t1)
      | some c =>
        if c.type ≠ TAG_I then .ok (none, t1)
        else
          match disk with
          | none => .ok (none, t1)
          | some f =>
            (findIntLoop t1 f idx val fuel t1._headerSizeBytes).bind fun o => .ok (o, t1)

/-- The tail shared by `read` and the `find` overloads: open the file for
reading and call `_readRecordAt` at the offset found. -/
def readFound (t : NanoTable) (disk : Disk) (off : Option Nat) (outRec : NanoRecord) :
    Run (Bool × NanoTable × NanoRecord) :=
  match off with
  | none => .ok (false, t, outRec)
  | some o =>
    match disk with
    | none => .ok (false, t, outRec)
    | some f => _readRecordAt t disk f o outRec

/-- Method `read(idValue, outRec)`. -/
def read (fuel : Nat) (t : NanoTable) (disk : Disk) (idValue : Int) (outRec : NanoRecord) :
    Run (Bool × NanoTable × NanoRecord) :=
  (_findOffsetById fuel t disk idValue).bind fun r => readFound r.2 disk r.1 outRec

/-- Method `update(rec)`; the file is opened with mode `r+`. -/
def update (fuel : Nat) (t : NanoTable) (disk : Disk) (rec : NanoRecord) :
    Run (Bool × NanoTable × Disk) :=
  (headerMissing t disk).bind fun r =>
    if r.1 then .ok (false, r.2, disk)
    else
      let t1 := r.2
      match idIndex t1._cols with
      | none => .ok (false, t1, disk)
      | some idIdx =>
        (rec.getInt idIdx).bind fun idv =>
          if idv = 0 then .ok (false, t1, disk)
          else
            (_findOffsetById fuel t1 disk idv).bind fun o =>
              match o.1 with
              | none => .ok (false, o.2, disk)
              | some off =>
                match disk with
                | none => .ok (false, o.2, disk)
                | some f =>
                  (_writeRecordAt o.2 f off rec).bind fun w => .ok (w.1, o.2, some w.2)

/-- Method `find(outRec, idValue)`. -/
def findById (fuel : Nat) (t : NanoTable) (disk : Disk) (outRec : NanoRecord) (idValue : Int) :
    Run (Bool × NanoTable × NanoRecord) :=
  read fuel t disk idValue outRec

/-- Method `drop(idValue)`; the file is opened with mode `r+`. -/
def drop (fuel : Nat) (t : NanoTable) (disk : Disk) (idValue : Int) :
    Run (Bool × NanoTable × Disk) :=
  (_findOffsetById fuel t disk idValue).bind fun r =>
    match r.1 with
    | none => .ok (false, r.2, disk)
    | some off =>
      match idIndex r.2._cols with
      | none => .ok (false, r.2, disk)
      | some idIdx =>
        match disk with
        | none => .ok (false, r.2, disk)
        | some f =>
          .ok (true, r.2, some (writeAt f (off + colOffset r.2._cols idIdx) (le32 0)))

/-- A caller that saves the records of a list one after the other, each on the
table and the file the previous call left; it returns the flag of each call
with the record as the call left it, then the table and the file. -/
def saveAll (fuel : Nat) :
    NanoTable → Disk → List NanoRecord → Run (List (Bool × NanoRecord) × NanoTable × Disk)
  | t, disk, [] => .ok ([], t, disk)
  | t, disk, r :: rs =>
    (save fuel t disk r).bind fun s =>
      (saveAll fuel s.2.1 s.2.2.1 rs).bind fun q => .ok ((s.1, s.2.2.2) :: q.1, q.2.1, q.2.2)

/-- A call on a table: `save(rec)`, `update(rec)` or `drop(idValue)`. -/
inductive Call where
  | save : NanoRecord → Call
  | update : NanoRecord → Call
  | drop : Int → Call

/-- The call is a `save`. -/
def Call.isSave : Call → Bool
  | .save _ => true
  | _ => false

/-- A caller that makes one call: the flag it returns, then the table and the
file it leaves. -/
def runCall (fuel : Nat) (t : NanoTable) (disk : Disk) : Call → Run (Bool × NanoTable × Disk)
  | .save r => (save fuel t disk r).bind fun s => .ok (s.1, s.2.1, s.2.2.1)
  | .update r => update fuel t disk r
  | .drop v => drop fuel t disk v

/-- A caller that makes the calls of a list one after the other, each on the
table and the file the previous call left; it returns the number of `save`
calls that returned true, then the table and the file. -/
def runCalls (fuel : Nat) : NanoTable → Disk → List Call → Run (Nat × NanoTable × Disk)
  | t, disk, [] => .ok (0, t, disk)
  | t, disk, c :: cs =>
    (runCall fuel t disk c).bind fun s =>
      (runCalls fuel s.2.1 s.2.2 cs).bind fun q =>
        .ok ((if c.isSave && s.1 then 1 else 0) + q.1, q.2.1, q.2.2)

end NanoTable

end NanoDB

/-! ## Notions used to state the properties -/

namespace NanoDB

open NanoTable

/-- Sum of the byte widths of the columns, without the `uint16_t` reduction. -/
def rowBytes (cols : List ColumnDef) : Nat := (cols.map _typeSize).sum

/-- Offset of row slot `k`: `header_size + k * row_size`. -/
def slotPos (t : NanoTable) (k : Nat) : Nat := t._headerSizeBytes + k * t._recordSize

/-- Row slot `k` lies completely inside the file. -/
def SlotIn (t : NanoTable) (f : List Byte) (k : Nat) : Prop :=
  slotPos t k + t._recordSize ≤ f.length

instance (t : NanoTable) (f : List Byte) (k : Nat) : Decidable (SlotIn t f k) :=
  inferInstanceAs (Decidable (slotPos t k + t._recordSize ≤ f.length))

/-- The `int32_t` held by column `idx` of row slot `k`. -/
def intAt (t : NanoTable) (f : List Byte) (idx k : Nat) : Int :=
  toInt32 (leNat (readAt f (slotPos t k + colOffset t._cols idx) 4))

/-- Number of row slots lying completely inside the file. -/
def slotCount (t : NanoTable) (f : List Byte) : Nat :=
  (f.length - t._headerSizeBytes) / t._recordSize

/-- Among the `m` row slots from slot `k` on, the number of those whose column
`idx` holds a value other than 0. -/
def liveCount (t : NanoTable) (f : List Byte) (idx : Nat) : Nat → Nat → Nat
  | _, 0 => 0
  | k, m + 1 => (if intAt t f idx k ≠ 0 then 1 else 0) + liveCount t f idx (k + 1) m

/-- The running maximum of `acc` and the values column `idx` holds in the `m`
row slots from slot `k` on. -/
def maxFrom (t : NanoTable) (f : List Byte) (idx : Nat) : Nat → Nat → Int → Int
  | _, 0, acc => acc
  | k, m + 1, acc =>
    maxFrom t f idx (k + 1) m (if intAt t f idx k > acc then intAt t f idx k else acc)

/-- The record is attached to the schema of the table, with a row buffer of the
row size of the table. -/
def Attached (t : NanoTable) (r : NanoRecord) : Prop :=
  r._cols = some t._cols ∧ r._data.map List.length = some t._recordSize

instance (t : NanoTable) (r : NanoRecord) : Decidable (Attached t r) :=
  inferInstanceAs (Decidable (_ ∧ _))

/-- Every column has one of the four type tags. -/
def KnownTypes (cols : List ColumnDef) : Prop :=
  ∀ c ∈ cols, c.type = TAG_I ∨ c.type = TAG_F ∨ c.type = TAG_B ∨ c.type = TAG_S

instance (cols : List ColumnDef) : Decidable (KnownTypes cols) :=
  inferInstanceAs (Decidable (∀ c ∈ cols, _))

/-- Every string column is narrower than the scratch buffers. -/
def ShortStrings (cols : List ColumnDef) : Prop :=
  ∀ c ∈ cols, c.type = TAG_S → c.size < NANO_MAX_STR_LEN

instance (cols : List ColumnDef) : Decidable (ShortStrings cols) :=
  inferInstanceAs (Decidable (∀ c ∈ cols, _))

/-- The bytes a field holds after it went through `_writeRecordAt` or
`_readRecordAt`, from the bytes `x` it held before. -/
def normField (c : ColumnDef) (x : List Byte) : List Byte :=
  if c.type = TAG_I then x
  else if c.type = TAG_F then x
  else if c.type = TAG_B then [if leNat x ≠ 0 then 1 else 0]
  else if c.type = TAG_S then
    upToNul x ++ List.replicate (c.size - (upToNul x).length) 0
  else []

/-- All the fields of a row after `normField`, column by column. -/
def normRow : List ColumnDef → List Byte → List Byte
  | [], _ => []
  | c :: cs, d => normField c (d.take (_typeSize c)) ++ normRow cs (d.drop (_typeSize c))

/-- The bytes of column `j`, of definition `c`, in row slot `k`. -/
def fieldAt (t : NanoTable) (f : List Byte) (j : Nat) (c : ColumnDef) (k : Nat) : List Byte :=
  readAt f (slotPos t k + colOffset t._cols j) (_typeSize c)

/-- The typed getter for the type of column `j`, of definition `c`, returns a
value on `r1`, and returns the same value on `r2`. -/
def FieldEq (r1 r2 : NanoRecord) (j : Nat) (c : ColumnDef) : Prop :=
  (c.type = TAG_I → ∃ v, r1.getInt j = .ok v ∧ r2.getInt j = .ok v) ∧
  (c.type = TAG_F → ∃ v, r1.getFloat j = .ok v ∧ r2.getFloat j = .ok v) ∧
  (c.type = TAG_B → ∃ v, r1.getBool j = .ok v ∧ r2.getBool j = .ok v) ∧
  (c.type = TAG_S → ∃ v, r1.getString j = .ok v ∧ r2.getString j = .ok v)

/-- The column as a header holds it: the name cut to 255 bytes and at its first
zero byte, the width as a `uint16_t`. -/
def storedCol (c : ColumnDef) : ColumnDef :=
  { name := upToNul (c.name.take 255), type := c.type, size := c.size % 65536 }

/-- A schema the header holds as it is: 1 to `NANO_MAX_COLS` columns, every name
of at most 255 bytes none of which is zero, every width a `uint16_t`. -/
def Storable (cols : List ColumnDef) : Prop :=
  1 ≤ cols.length ∧ cols.length ≤ NANO_MAX_COLS ∧
    ∀ c ∈ cols, c.name.length ≤ 255 ∧ (0 : Byte) ∉ c.name ∧ c.size < 65536

instance (cols : List ColumnDef) : Decidable (Storable cols) :=
  inferInstanceAs (Decidable (_ ∧ _ ∧ ∀ c ∈ cols, _))

/-- The typed getter for the type of column `j`, of definition `c`, returns on
`r` the value the field bytes `x` stand for. -/
def Decodes (r : NanoRecord) (j : Nat) (c : ColumnDef) (x : List Byte) : Prop :=
  (c.type = TAG_I → r.getInt j = .ok (toInt32 (leNat x))) ∧
  (c.type = TAG_F → r.getFloat j = .ok (leNat x)) ∧
  (c.type = TAG_B → r.getBool j = .ok (decide (leNat x ≠ 0))) ∧
  (c.type = TAG_S → r.getString j = .ok (upToNul x))

/-- The field bytes `x` are the serialisation of the value the typed getter for
the type of column `j`, of definition `c`, returns on `r`: the 4 bytes of an
`int32_t` or of a float, one byte 0 or 1 for a `bool`, the bytes of a string (at
most `c.size` of them) then zero bytes up to `c.size` bytes; no byte for a column
of another type tag. -/
def Encodes (r : NanoRecord) (j : Nat) (c : ColumnDef) (x : List Byte) : Prop :=
  (c.type = TAG_I → ∃ v, r.getInt j = .ok v ∧ x = le32 (bitsOfInt32 v)) ∧
  (c.type = TAG_F → ∃ v, r.getFloat j = .ok v ∧ x = le32 v) ∧
  (c.type = TAG_B → ∃ b, r.getBool j = .ok b ∧ x = [if b then 1 else 0]) ∧
  (c.type = TAG_S → ∃ s, r.getString j = .ok s ∧ s.length ≤ c.size ∧
    x = s ++ List.replicate (c.size - s.length) 0) ∧
  (c.type ≠ TAG_I → c.type ≠ TAG_F → c.type ≠ TAG_B → c.type ≠ TAG_S → x = [])

/-- The record a call passes is detached or is a record of the table. -/
def CallFits (t : NanoTable) : Call → Prop
  | .save r => r._cols = none ∨ Attached t r
  | .update r => r._cols = none ∨ Attached t r
  | .drop _ => True

/-- The record `r1` is the record `r` with another row buffer of the same
length, which holds the same bytes as the buffer of `r` outside the field of
column `i`, of definition `c`. -/
def SameOutsideField (cols : List ColumnDef) (i : Nat) (c : ColumnDef) (r r1 : NanoRecord) :
    Prop :=
  r1._cols = r._cols ∧ r1._rowSize = r._rowSize ∧
    ∃ d d1, r._data = some d ∧ r1._data = some d1 ∧ d1.length = d.length ∧
      ∀ p, p < colOffset cols i ∨ colOffset cols i + _typeSize c ≤ p → d1[p]? = d[p]?

/-- On every column `j` other than `i`, every typed getter whose read stays
inside the field of the column (4 bytes for `getInt` and `getFloat`, 1 byte for
`getBool`, the declared size for `getString` and `getCString`) returns on `r1`
what it returns on `r`. -/
def GettersKept (cols : List ColumnDef) (i : Nat) (r r1 : NanoRecord) : Prop :=
  ∀ j cj, j ≠ i → cols[j]? = some cj →
    (4 ≤ _typeSize cj → r1.getInt j = r.getInt j ∧ r1.getFloat j = r.getFloat j) ∧
    (1 ≤ _typeSize cj → r1.getBool j = r.getBool j) ∧
    (cj.size ≤ _typeSize cj →
      r1.getString j = r.getString j ∧ r1.getCString j = r.getCString j)

end NanoDB

/-! ## Sample data -/

namespace NanoDB

/-- Sample schema: `id : Int32`, `v : Int32`. -/
def exCols : List ColumnDef :=
  [{ name := ID_NAME, type := TAG_I, size := 0 }, { name := [118], type := TAG_I, size := 0 }]

/-- A table opened on the sample schema. -/
def exTable : NanoTable := { _cols := exCols, _recordSize := 8 }

/-- The header of the sample schema, as `_writeHeader` writes it. -/
def exHeader : List Byte := [2, 2, 105, 100, 73, 0, 0, 1, 118, 73, 0, 0]

/-- A row of the sample schema. -/
def exRow (id v : Nat) : List Byte := le32 id ++ le32 v

/-- A record attached to the sample schema holding the given row. -/
def exRec (id v : Nat) : NanoRecord :=
  { _cols := some exCols, _rowSize := 8, _data := some (exRow id v) }

/-- Sample schema with a name of 256 bytes. -/
def longNameCols : List ColumnDef :=
  [{ name := List.replicate 256 97, type := TAG_I, size := 0 }]

/-- Sample schema of two string columns of 40000 bytes each. -/
def wideCols : List ColumnDef :=
  [{ name := [97], type := TAG_S, size := 40000 }, { name := [98], type := TAG_S, size := 40000 }]

/-- Sample schema of one string column of width 0. -/
def emptyCols : List ColumnDef := [{ name := [97], type := TAG_S, size := 0 }]

/-- A file of the sample schema with two rows. -/
def exFile : List Byte := exHeader ++ exRow 3 5 ++ exRow 3 6

/-- A run of calls on the sample table: two saves with an update and a drop
between them. -/
def exCalls : List NanoTable.Call :=
  [NanoTable.Call.save (exRec 0 5), NanoTable.Call.update (exRec 1 7), NanoTable.Call.drop 1,
    NanoTable.Call.save (exRec 0 9)]

/-- Sample schema with a column of each type: `id : Int32`, `x : Float32`,
`b : Bool`, `s : FixedString(4)`. -/
def mixCols : List ColumnDef :=
  [{ name := ID_NAME, type := TAG_I, size := 0 }, { name := [120], type := TAG_F, size := 0 },
    { name := [98], type := TAG_B, size := 0 }, { name := [115], type := TAG_S, size := 4 }]

/-- A table opened on the schema `mixCols`. -/
def mixTable : NanoTable := { _cols := mixCols, _recordSize := 13 }

/-- A record attached to `mixCols`: id 7, the float 1.0, true, the string `hi`. -/
def mixRec : NanoRecord :=
  { _cols := some mixCols, _rowSize := 13,
    _data := some (le32 7 ++ le32 1065353216 ++ [1] ++ [104, 105, 0, 0]) }

/-- A file of the schema `mixCols` with one row, the one `mixRec` holds. -/
def mixFile : List Byte :=
  byteOf mixCols.length :: NanoTable.columnsBytes mixCols ++
    (le32 7 ++ le32 1065353216 ++ [1] ++ [104, 105, 0, 0])

/-- Sample schema: `b : Bool`, `n : Int32`. -/
def flagCols : List ColumnDef :=
  [{ name := [98], type := TAG_B, size := 0 }, { name := [110], type := TAG_I, size := 0 }]

/-- A record attached to `flagCols` whose row buffer holds zero bytes. -/
def flagRec : NanoRecord :=
  { _cols := some flagCols, _rowSize := 5, _data := some [0, 0, 0, 0, 0] }

/-- The string column, of index 3, of the schema `mixCols`. -/
def mixStr : ColumnDef := { name := [115], type := TAG_S, size := 4 }

/-- Sample schema with a column of a type tag other than the four the library
writes: `id : Int32`, `v : Int32`, `x` of tag `X`. -/
def oddCols : List ColumnDef :=
  [{ name := ID_NAME, type := TAG_I, size := 0 }, { name := [118], type := TAG_I, size := 0 },
    { name := [120], type := 88, size := 0 }]

/-- The table `begin` leaves on the schema `oddCols`. -/
def oddTable : NanoTable := { _cols := oddCols, _recordSize := 8 }

/-- The header of the schema `oddCols`, as `_writeHeader` writes it. -/
def oddHeader : List Byte := [3, 2, 105, 100, 73, 0, 0, 1, 118, 73, 0, 0, 1, 120, 88, 0, 0]

/-- Sample schema whose widths add up to 65539: `id : Int32`,
`s : FixedString(65535)`. -/
def wrapCols : List ColumnDef :=
  [{ name := ID_NAME, type := TAG_I, size := 0 }, { name := [115], type := TAG_S, size := 65535 }]

/-- The table `begin` leaves on the schema `wrapCols`: the row size is 3. -/
def wrapTable : NanoTable := { _cols := wrapCols, _recordSize := 3 }

/-- The header of the schema `wrapCols`, as `_writeHeader` writes it. -/
def wrapHeader : List Byte := [2, 2, 105, 100, 73, 0, 0, 1, 115, 83, 255, 255]

end NanoDB

/-! ## Properties -/

set_option maxRecDepth 100000

namespace NanoDB

theorem byteOf_val (b : Byte) : byteOf b.val = b := by
  apply Fin.ext; simp [byteOf, Nat.mod_eq_of_lt b.isLt]

theorem leNat_lt (bs : List Byte) : leNat bs < 256 ^ bs.length := by
  induction bs with
  | nil => simp [leNat]
  | cons b bs ih =>
    have hb := b.isLt
    simp only [leNat, List.length_cons, pow_succ]
    omega

theorem leNat_le32 (n : Nat) (h : n < 4294967296) : leNat (le32 n) = n := by
  simp only [le32, leNat, byteOf]
  omega

theorem le32_leNat (bs : List Byte) (h : bs.length = 4) : le32 (leNat bs) = bs := by
  match bs, h with
  | [a, b, c, d], _ =>
    have ha := a.isLt; have hb := b.isLt; have hc := c.isLt; have hd := d.isLt
    simp only [le32, leNat, byteOf, List.cons.injEq, and_true]
    refine ⟨?_, ?_, ?_, ?_⟩ <;> apply Fin.ext <;> simp only <;> omega

theorem bitsOfInt32_lt (v : Int) : bitsOfInt32 v < 4294967296 := by
  unfold bitsOfInt32; omega

theorem toInt32_bitsOfInt32 (v : Int) (h1 : -2147483648 ≤ v) (h2 : v < 2147483648) :
    toInt32 (bitsOfInt32 v) = v := by
  unfold toInt32 bitsOfInt32; split <;> omega

theorem bitsOfInt32_toInt32 (n : Nat) (h : n < 4294967296) : bitsOfInt32 (toInt32 n) = n := by
  unfold toInt32 bitsOfInt32; split <;> omega

theorem toInt32_range (n : Nat) : -2147483648 ≤ toInt32 n ∧ toInt32 n < 2147483648 := by
  unfold toInt32; split <;> omega

theorem le32_length (n : Nat) : (le32 n).length = 4 := rfl

/-- Storing the value loaded from four bytes gives the four bytes back. -/
theorem le32_bits_toInt32_leNat (bs : List Byte) (h : bs.length = 4) :
    le32 (bitsOfInt32 (toInt32 (leNat bs))) = bs := by
  have := leNat_lt bs
  rw [h] at this
  rw [bitsOfInt32_toInt32 _ (by omega), le32_leNat bs h]

theorem leNat_le32_bits (v : Int) : toInt32 (leNat (le32 (bitsOfInt32 v))) = wrap32 v := by
  rw [leNat_le32 _ (bitsOfInt32_lt v)]; rfl

end NanoDB

namespace NanoDB
open NanoTable NanoRecord

@[simp] theorem Run.bind_ok {α β : Type} (a : α) (k : α → Run β) : (Run.ok a).bind k = k a := rfl

theorem peek_mid (a b c : List Byte) : peek (a ++ b ++ c) a.length b.length = .ok b := by
  simp [peek]

theorem poke_mid (a b c b1 : List Byte) (h : b1.length = b.length) :
    poke (a ++ b ++ c) a.length b1 = .ok (a ++ b1 ++ c) := by
  simp [poke, h]

theorem offsetStep_eq (c : ColumnDef) : offsetStep c = _typeSize c := rfl

theorem rowBytes_nil : rowBytes [] = 0 := rfl
theorem rowBytes_cons (c : ColumnDef) (cs : List ColumnDef) :
    rowBytes (c :: cs) = _typeSize c + rowBytes cs := by simp [rowBytes]
theorem rowBytes_append (a b : List ColumnDef) : rowBytes (a ++ b) = rowBytes a + rowBytes b := by
  simp [rowBytes]

theorem offsetLoop_append (pre post : List ColumnDef) (off : Nat) :
    offsetLoop (pre ++ post) pre.length off = off + rowBytes pre := by
  induction pre generalizing off with
  | nil => cases post <;> simp [offsetLoop, rowBytes]
  | cons c cs ih =>
    show offsetLoop (cs ++ post) cs.length (off + offsetStep c) = _
    rw [ih, rowBytes_cons, offsetStep_eq]
    omega

theorem colOffset_append (pre post : List ColumnDef) :
    colOffset (pre ++ post) pre.length = rowBytes pre := by
  simp [colOffset, rowBytes]

theorem getElem?_mid {α : Type} (pre post : List α) (c : α) :
    (pre ++ c :: post)[pre.length]? = some c := by
  rw [List.getElem?_append_right (Nat.le_refl _)]
  simp

/-- A list splits around its `i`-th entry. -/
theorem split_at {α : Type} (l : List α) (i : Nat) (c : α) (h : l[i]? = some c) :
    ∃ pre post, l = pre ++ c :: post ∧ pre.length = i := by
  refine ⟨l.take i, l.drop (i + 1), ?_, ?_⟩
  · have hi : i < l.length := by
      rcases Nat.lt_or_ge i l.length with h1 | h1
      · exact h1
      · rw [List.getElem?_eq_none h1] at h; cases h
    have : l[i] = c := by
      rw [List.getElem?_eq_getElem hi] at h; exact Option.some.inj h
    rw [← this]
    simp
  · have hi : i < l.length := by
      rcases Nat.lt_or_ge i l.length with h1 | h1
      · exact h1
      · rw [List.getElem?_eq_none h1] at h; cases h
    simp; omega

/-- A buffer as wide as the row splits into the bytes before a column, the
bytes of the column and the bytes after it. -/
theorem split_row (pre : List ColumnDef) (c : ColumnDef) (post : List ColumnDef)
    (d : List Byte) (h : d.length = rowBytes (pre ++ c :: post)) :
    ∃ a x b, d = a ++ x ++ b ∧ a.length = rowBytes pre ∧ x.length = _typeSize c ∧
      b.length = rowBytes post := by
  rw [rowBytes_append, rowBytes_cons] at h
  refine ⟨d.take (rowBytes pre), (d.drop (rowBytes pre)).take (_typeSize c),
    d.drop (rowBytes pre + _typeSize c), ?_, ?_, ?_, ?_⟩
  · rw [List.append_assoc, ← List.drop_drop, List.take_append_drop, List.take_append_drop]
  · simp; omega
  · simp; omega
  · simp; omega

end NanoDB

namespace NanoDB
open NanoTable NanoRecord

theorem upToNul_pad (x : List Byte) (n : Nat) :
    upToNul (x ++ List.replicate n 0) = upToNul x := by
  induction x with
  | nil => cases n <;> simp [List.replicate, upToNul]
  | cons b bs ih =>
    by_cases hb : b = 0
    · simp [upToNul, hb]
    · simp [upToNul, hb, ih]

theorem cString_scratch (x : List Byte) (h : x.length < NANO_MAX_STR_LEN) :
    (scratch x).bind cString = .ok (upToNul x) := by
  have h1 : x.length ≤ NANO_MAX_STR_LEN := Nat.le_of_lt h
  have h2 : (0 : Byte) ∈ x ++ List.replicate (NANO_MAX_STR_LEN - x.length) 0 := by
    apply List.mem_append_right
    rw [List.mem_replicate]
    exact ⟨by omega, rfl⟩
  simp only [scratch, h1, if_true, Run.bind_ok, cString, h2, upToNul_pad]

theorem upToNul_length_le (x : List Byte) : (upToNul x).length ≤ x.length := by
  induction x with
  | nil => simp [upToNul]
  | cons b bs ih =>
    by_cases hb : b = 0
    · simp [upToNul, hb]
    · simp [upToNul, hb]; omega

theorem upToNul_nonzero (x : List Byte) : ∀ b ∈ upToNul x, b ≠ 0 := by
  induction x with
  | nil => simp [upToNul]
  | cons b bs ih =>
    by_cases hb : b = 0
    · simp [upToNul, hb]
    · intro y hy
      simp only [upToNul, hb, if_false, List.mem_cons] at hy
      rcases hy with rfl | hy
      · exact hb
      · exact ih y hy

theorem upToNul_all (x : List Byte) (h : ∀ b ∈ x, b ≠ 0) : upToNul x = x := by
  induction x with
  | nil => rfl
  | cons b bs ih =>
    have hb : b ≠ 0 := h b (List.mem_cons_self _ _)
    have := ih (fun y hy => h y (List.mem_cons_of_mem _ hy))
    simp [upToNul, hb, this]

theorem upToNul_idem (x : List Byte) : upToNul (upToNul x) = upToNul x :=
  upToNul_all _ (upToNul_nonzero x)

section split
variable (r : NanoRecord) (pre post : List ColumnDef) (c : ColumnDef) (a x b : List Byte)

theorem colCount_split (hc : r._cols = some (pre ++ c :: post)) :
    ¬ (pre.length ≥ r._colCount) := by
  simp [NanoRecord._colCount, hc]

theorem offsetOf_split (hc : r._cols = some (pre ++ c :: post)) :
    r.offsetOf pre.length = rowBytes pre := by
  simp [NanoRecord.offsetOf, hc, offsetLoop_append]

theorem getInt_split (hc : r._cols = some (pre ++ c :: post)) (hd : r._data = some (a ++ x ++ b))
    (ha : a.length = rowBytes pre) (hx : x.length = 4) :
    r.getInt pre.length = .ok (toInt32 (leNat x)) := by
  have h1 := colCount_split r pre post c hc
  have h2 := offsetOf_split r pre post c hc
  have h3 := peek_mid a x b
  rw [hx, ha] at h3
  simp only [getInt, hd, h1, if_false, h2, h3, Run.bind_ok]

theorem getFloat_split (hc : r._cols = some (pre ++ c :: post))
    (hd : r._data = some (a ++ x ++ b))
    (ha : a.length = rowBytes pre) (hx : x.length = 4) :
    r.getFloat pre.length = .ok (leNat x) := by
  have h1 := colCount_split r pre post c hc
  have h2 := offsetOf_split r pre post c hc
  have h3 := peek_mid a x b
  rw [hx, ha] at h3
  simp only [getFloat, hd, h1, if_false, h2, h3, Run.bind_ok]

theorem getBool_split (hc : r._cols = some (pre ++ c :: post))
    (hd : r._data = some (a ++ x ++ b))
    (ha : a.length = rowBytes pre) (hx : x.length = 1) :
    r.getBool pre.length = .ok (decide (leNat x ≠ 0)) := by
  have h1 := colCount_split r pre post c hc
  have h2 := offsetOf_split r pre post c hc
  have h3 := peek_mid a x b
  rw [hx, ha] at h3
  simp only [getBool, hd, h1, if_false, h2, h3, Run.bind_ok]

theorem stringScratch_split (hc : r._cols = some (pre ++ c :: post))
    (ha : a.length = rowBytes pre) (hx : x.length = c.size) :
    r.stringScratch (a ++ x ++ b) pre.length = scratch x := by
  have h2 := offsetOf_split r pre post c hc
  have h3 := peek_mid a x b
  rw [hx, ha] at h3
  have hg : (pre ++ c :: post)[pre.length]? = some c := getElem?_mid pre post c
  simp only [stringScratch, hc, Option.getD_some, hg, h2, h3, Run.bind_ok]

theorem getString_split (hc : r._cols = some (pre ++ c :: post))
    (hd : r._data = some (a ++ x ++ b))
    (ha : a.length = rowBytes pre) (hx : x.length = c.size) (hs : c.size < NANO_MAX_STR_LEN) :
    r.getString pre.length = .ok (upToNul x) := by
  have h1 := colCount_split r pre post c hc
  simp only [getString, hd, h1, if_false, stringScratch_split r pre post c a x b hc ha hx]
  exact cString_scratch x (by omega)

theorem getCString_split (hc : r._cols = some (pre ++ c :: post))
    (hd : r._data = some (a ++ x ++ b))
    (ha : a.length = rowBytes pre) (hx : x.length = c.size) (hs : c.size < NANO_MAX_STR_LEN) :
    r.getCString pre.length = .ok (upToNul x) := by
  have h1 := colCount_split r pre post c hc
  simp only [getCString, hd, h1, if_false, stringScratch_split r pre post c a x b hc ha hx]
  exact cString_scratch x (by omega)

theorem setInt_split (hc : r._cols = some (pre ++ c :: post))
    (hd : r._data = some (a ++ x ++ b))
    (ha : a.length = rowBytes pre) (hx : x.length = 4) (v : Int) :
    r.setInt pre.length v = .ok { r with _data := some (a ++ le32 (bitsOfInt32 v) ++ b) } := by
  have h1 := colCount_split r pre post c hc
  have h2 := offsetOf_split r pre post c hc
  have h3 := poke_mid a x b (le32 (bitsOfInt32 v)) (by rw [hx]; rfl)
  rw [ha] at h3
  simp only [setInt, hd, h1, if_false, h2, h3, Run.bind_ok]

theorem setFloat_split (hc : r._cols = some (pre ++ c :: post))
    (hd : r._data = some (a ++ x ++ b))
    (ha : a.length = rowBytes pre) (hx : x.length = 4) (v : Nat) :
    r.setFloat pre.length v = .ok { r with _data := some (a ++ le32 (v % 4294967296) ++ b) } := by
  have h1 := colCount_split r pre post c hc
  have h2 := offsetOf_split r pre post c hc
  have h3 := poke_mid a x b (le32 (v % 4294967296)) (by rw [hx]; rfl)
  rw [ha] at h3
  simp only [setFloat, hd, h1, if_false, h2, h3, Run.bind_ok]

theorem setBool_split (hc : r._cols = some (pre ++ c :: post))
    (hd : r._data = some (a ++ x ++ b))
    (ha : a.length = rowBytes pre) (hx : x.length = 1) (v : Bool) :
    r.setBool pre.length v = .ok { r with _data := some (a ++ [if v then 1 else 0] ++ b) } := by
  have h1 := colCount_split r pre post c hc
  have h2 := offsetOf_split r pre post c hc
  have h3 := poke_mid a x b [if v then 1 else 0] (by rw [hx]; rfl)
  rw [ha] at h3
  simp only [setBool, hd, h1, if_false, h2, h3, Run.bind_ok]

theorem setString_split (hc : r._cols = some (pre ++ c :: post))
    (hd : r._data = some (a ++ x ++ b))
    (ha : a.length = rowBytes pre) (hx : x.length = c.size) (s : Str) :
    r.setString pre.length s =
      .ok { r with _data := some (a ++ (s.take c.size ++
        List.replicate (c.size - min c.size s.length) 0) ++ b) } := by
  have h1 := colCount_split r pre post c hc
  have h2 := offsetOf_split r pre post c hc
  have h3 := poke_mid a x b (List.replicate c.size 0) (by simp [hx])
  rw [ha] at h3
  have hsplit : List.replicate c.size (0 : Byte) =
      List.replicate (min c.size s.length) 0 ++ List.replicate (c.size - min c.size s.length) 0 := by
    rw [List.append_replicate_replicate]; congr 1; omega
  have h4 : poke (a ++ List.replicate c.size 0 ++ b) (rowBytes pre) (s.take (min c.size s.length)) =
      .ok (a ++ (s.take c.size ++ List.replicate (c.size - min c.size s.length) 0) ++ b) := by
    have h5 := poke_mid a (List.replicate (min c.size s.length) 0)
      (List.replicate (c.size - min c.size s.length) 0 ++ b) (s.take (min c.size s.length))
      (by simp)
    rw [ha] at h5
    have e1 : a ++ List.replicate c.size 0 ++ b = a ++ List.replicate (min c.size s.length) 0 ++
        (List.replicate (c.size - min c.size s.length) 0 ++ b) := by
      rw [List.append_assoc, List.append_assoc, ← List.append_assoc (List.replicate _ _), ← hsplit]
    rw [e1, h5]
    have e2 : s.take (min c.size s.length) = s.take c.size := by
      rcases Nat.le_total c.size s.length with h | h
      · rw [Nat.min_eq_left h]
      · rw [Nat.min_eq_right h, List.take_of_length_le (Nat.le_refl _), List.take_of_length_le h]
    rw [e2]; simp
  have hg : (pre ++ c :: post)[pre.length]? = some c := getElem?_mid pre post c
  simp only [setString, hd, h1, if_false, hc, Option.getD_some, hg, h2, h3, Run.bind_ok, h4]

end split

end NanoDB

namespace NanoDB
open NanoTable NanoRecord

/-! ### Files: reads and writes at an offset -/

theorem readAt_getElem? (f : List Byte) (off n i : Nat) :
    (readAt f off n)[i]? = if i < n then f[off + i]? else none := by
  simp [readAt, List.getElem?_take, List.getElem?_drop]

theorem readAt_length (f : List Byte) (off n : Nat) (h : off + n ≤ f.length) :
    (readAt f off n).length = n := by
  simp [readAt]; omega

theorem readAt_length_le (f : List Byte) (off n : Nat) : (readAt f off n).length ≤ n := by
  simp [readAt]

theorem readAt_length_eq (f : List Byte) (off n : Nat) (h : (readAt f off n).length = n)
    (hn : 0 < n) : off + n ≤ f.length := by
  simp [readAt] at h; omega

theorem readAt_add (f : List Byte) (off n m : Nat) :
    readAt f off (n + m) = readAt f off n ++ readAt f (off + n) m := by
  simp [readAt, List.take_add]

theorem readAt_take (f : List Byte) (off n m : Nat) :
    (readAt f off (n + m)).take n = readAt f off n := by
  simp [readAt, List.take_take]

theorem readAt_drop (f : List Byte) (off n m : Nat) (h : off + n ≤ f.length) :
    (readAt f off (n + m)).drop n = readAt f (off + n) m := by
  rw [readAt_add, List.drop_left' (readAt_length f off n h)]

theorem writeAt_length (f : List Byte) (off : Nat) (bs : List Byte)
    (h : off + bs.length ≤ f.length) : (writeAt f off bs).length = f.length := by
  simp [writeAt]; omega

theorem writeAt_getElem? (f : List Byte) (off : Nat) (bs : List Byte)
    (h : off + bs.length ≤ f.length) (i : Nat) :
    (writeAt f off bs)[i]? =
      if i < off then f[i]? else if i < off + bs.length then bs[i - off]? else f[i]? := by
  unfold writeAt
  rw [List.append_assoc, List.getElem?_append]
  have h1 : (List.take off f).length = off := by simp; omega
  rw [h1]
  by_cases hi : i < off
  · simp [hi, List.getElem?_take]
  · simp only [hi, if_false]
    rw [List.getElem?_append]
    by_cases h2 : i < off + bs.length
    · have h3 : i - off < bs.length := by omega
      simp [h2, h3]
    · have h3 : ¬ (i - off < bs.length) := by omega
      simp only [h2, h3, if_false, List.getElem?_drop]
      congr 1; omega

theorem writeAt_end (f bs : List Byte) : writeAt f f.length bs = f ++ bs := by
  unfold writeAt
  rw [List.take_of_length_le (Nat.le_refl _), List.drop_of_length_le (by omega)]
  simp

theorem readAt_writeAt_same (f : List Byte) (off : Nat) (bs : List Byte)
    (h : off + bs.length ≤ f.length) : readAt (writeAt f off bs) off bs.length = bs := by
  apply List.ext_getElem?
  intro i
  rw [readAt_getElem?, writeAt_getElem? f off bs h]
  by_cases hi : i < bs.length
  · have h1 : ¬ (off + i < off) := by omega
    have h2 : off + i < off + bs.length := by omega
    simp only [hi, h1, h2, if_true, if_false]
    congr 1; omega
  · simp only [hi, if_false]
    rw [List.getElem?_eq_none (by omega)]

theorem readAt_writeAt_other (f : List Byte) (off : Nat) (bs : List Byte)
    (h : off + bs.length ≤ f.length) (off2 n : Nat)
    (hd : off2 + n ≤ off ∨ off + bs.length ≤ off2) :
    readAt (writeAt f off bs) off2 n = readAt f off2 n := by
  apply List.ext_getElem?
  intro i
  rw [readAt_getElem?, readAt_getElem?, writeAt_getElem? f off bs h]
  by_cases hi : i < n
  · simp only [hi, if_true]
    rcases hd with hd | hd
    · have : off2 + i < off := by omega
      simp [this]
    · have h1 : ¬ (off2 + i < off) := by omega
      have h2 : ¬ (off2 + i < off + bs.length) := by omega
      simp [h1, h2]
  · simp [hi]

theorem readAt_append_left (f g : List Byte) (off n : Nat) (h : off + n ≤ f.length) :
    readAt (f ++ g) off n = readAt f off n := by
  apply List.ext_getElem?
  intro i
  rw [readAt_getElem?, readAt_getElem?]
  by_cases hi : i < n
  · simp only [hi, if_true]
    rw [List.getElem?_append_left (by omega)]
  · simp [hi]

/-! ### Normalised rows -/

theorem tag_FI : ¬ (TAG_F = TAG_I) := by decide
theorem tag_BI : ¬ (TAG_B = TAG_I) := by decide
theorem tag_BF : ¬ (TAG_B = TAG_F) := by decide
theorem tag_SI : ¬ (TAG_S = TAG_I) := by decide
theorem tag_SF : ¬ (TAG_S = TAG_F) := by decide
theorem tag_SB : ¬ (TAG_S = TAG_B) := by decide

theorem typeSize_I (c : ColumnDef) (h : c.type = TAG_I) : _typeSize c = 4 := by
  simp [_typeSize, h]

theorem typeSize_F (c : ColumnDef) (h : c.type = TAG_F) : _typeSize c = 4 := by
  simp [_typeSize, h]

theorem typeSize_B (c : ColumnDef) (h : c.type = TAG_B) : _typeSize c = 1 := by
  simp [_typeSize, h, tag_BI, tag_BF]

theorem typeSize_S (c : ColumnDef) (h : c.type = TAG_S) : _typeSize c = c.size := by
  simp [_typeSize, h, tag_SI, tag_SF, tag_SB]

theorem typeSize_other (c : ColumnDef) (h1 : c.type ≠ TAG_I) (h2 : c.type ≠ TAG_F)
    (h3 : c.type ≠ TAG_B) (h4 : c.type ≠ TAG_S) : _typeSize c = 0 := by
  simp [_typeSize, h1, h2, h3, h4]

theorem normField_I (c : ColumnDef) (x : List Byte) (h : c.type = TAG_I) : normField c x = x := by
  simp [normField, h]

theorem normField_F (c : ColumnDef) (x : List Byte) (h : c.type = TAG_F) : normField c x = x := by
  simp [normField, h]

theorem normField_B (c : ColumnDef) (x : List Byte) (h : c.type = TAG_B) :
    normField c x = [if leNat x ≠ 0 then 1 else 0] := by
  simp only [normField, h, tag_BI, tag_BF, if_false, if_true]

theorem normField_S (c : ColumnDef) (x : List Byte) (h : c.type = TAG_S) :
    normField c x = upToNul x ++ List.replicate (c.size - (upToNul x).length) 0 := by
  simp only [normField, h, tag_SI, tag_SF, tag_SB, if_false, if_true]

theorem normField_other (c : ColumnDef) (x : List Byte) (h1 : c.type ≠ TAG_I)
    (h2 : c.type ≠ TAG_F) (h3 : c.type ≠ TAG_B) (h4 : c.type ≠ TAG_S) : normField c x = [] := by
  simp [normField, h1, h2, h3, h4]

theorem normField_length (c : ColumnDef) (x : List Byte) (hx : x.length = _typeSize c) :
    (normField c x).length = _typeSize c := by
  by_cases h1 : c.type = TAG_I
  · rw [normField_I c x h1, hx]
  by_cases h2 : c.type = TAG_F
  · rw [normField_F c x h2, hx]
  by_cases h3 : c.type = TAG_B
  · rw [normField_B c x h3, typeSize_B c h3]; rfl
  by_cases h4 : c.type = TAG_S
  · have := upToNul_length_le x
    rw [typeSize_S c h4] at hx ⊢
    rw [normField_S c x h4]
    simp; omega
  · rw [normField_other c x h1 h2 h3 h4, typeSize_other c h1 h2 h3 h4]; rfl

theorem normRow_length (cs : List ColumnDef) (d : List Byte) (hd : d.length = rowBytes cs) :
    (normRow cs d).length = rowBytes cs := by
  induction cs generalizing d with
  | nil => simp [normRow, rowBytes]
  | cons c cs ih =>
    rw [rowBytes_cons] at hd
    simp only [normRow, List.length_append, rowBytes_cons]
    rw [normField_length c _ (by simp; omega), ih _ (by simp; omega)]

theorem normRow_append (cs1 cs2 : List ColumnDef) (d1 d2 : List Byte)
    (h : d1.length = rowBytes cs1) :
    normRow (cs1 ++ cs2) (d1 ++ d2) = normRow cs1 d1 ++ normRow cs2 d2 := by
  induction cs1 generalizing d1 with
  | nil =>
    have : d1 = [] := List.length_eq_zero.mp (by simpa [rowBytes] using h)
    simp [normRow, this]
  | cons c cs ih =>
    rw [rowBytes_cons] at h
    have h1 : _typeSize c ≤ d1.length := by omega
    show normField c ((d1 ++ d2).take (_typeSize c)) ++
        normRow (cs ++ cs2) ((d1 ++ d2).drop (_typeSize c)) =
      normField c (d1.take (_typeSize c)) ++ normRow cs (d1.drop (_typeSize c)) ++ normRow cs2 d2
    rw [List.take_append_of_le_length h1, List.drop_append_of_le_length h1,
      ih _ (by simp; omega), List.append_assoc]

end NanoDB

namespace NanoDB
open NanoTable NanoRecord

/-! ### Serialising a record -/

theorem leNat_lt_of_length (x : List Byte) (h : x.length = 4) : leNat x < 4294967296 := by
  have := leNat_lt x
  rw [h] at this
  omega

theorem fieldBytes_split (r : NanoRecord) (pre post : List ColumnDef) (c : ColumnDef)
    (a x b : List Byte) (hc : r._cols = some (pre ++ c :: post))
    (hd : r._data = some (a ++ x ++ b)) (ha : a.length = rowBytes pre)
    (hx : x.length = _typeSize c) (hs : c.type = TAG_S → c.size < NANO_MAX_STR_LEN) :
    fieldBytes r c pre.length = .ok (normField c x) := by
  by_cases h1 : c.type = TAG_I
  · rw [typeSize_I c h1] at hx
    rw [normField_I c x h1]
    simp only [fieldBytes, h1, if_true, getInt_split r pre post c a x b hc hd ha hx, Run.bind_ok,
      le32_bits_toInt32_leNat x hx]
  by_cases h2 : c.type = TAG_F
  · rw [typeSize_F c h2] at hx
    rw [normField_F c x h2]
    simp only [fieldBytes, h1, h2, tag_FI, if_true, if_false,
      getFloat_split r pre post c a x b hc hd ha hx, Run.bind_ok,
      Nat.mod_eq_of_lt (leNat_lt_of_length x hx), le32_leNat x hx]
  by_cases h3 : c.type = TAG_B
  · rw [typeSize_B c h3] at hx
    rw [normField_B c x h3]
    simp only [fieldBytes, h1, h2, h3, tag_BI, tag_BF, if_true, if_false,
      getBool_split r pre post c a x b hc hd ha hx, Run.bind_ok, decide_eq_true_eq]
  by_cases h4 : c.type = TAG_S
  · rw [typeSize_S c h4] at hx
    rw [normField_S c x h4]
    have hl := upToNul_length_le x
    have hm : min c.size (upToNul x).length = (upToNul x).length := by
      apply Nat.min_eq_right; omega
    simp only [fieldBytes, h1, h2, h3, h4, tag_SI, tag_SF, tag_SB, if_true, if_false,
      getCString_split r pre post c a x b hc hd ha hx (hs h4), Run.bind_ok, hm,
      List.take_of_length_le (Nat.le_refl _)]
  · rw [normField_other c x h1 h2 h3 h4]
    simp only [fieldBytes, h1, h2, h3, h4, if_false]

theorem writeLoop_eq (r : NanoRecord) (cs : List ColumnDef) :
    ∀ (pre : List ColumnDef) (a d : List Byte), r._cols = some (pre ++ cs) →
      r._data = some (a ++ d) → a.length = rowBytes pre → d.length = rowBytes cs →
      ShortStrings cs → writeLoop r cs pre.length = .ok (normRow cs d) := by
  induction cs with
  | nil => intro pre a d _ _ _ _ _; rfl
  | cons c cs ih =>
    intro pre a d hc hd ha hlen hs
    rw [rowBytes_cons] at hlen
    have hd1 : r._data = some (a ++ d.take (_typeSize c) ++ d.drop (_typeSize c)) := by
      rw [List.append_assoc, List.take_append_drop]; exact hd
    have hf := fieldBytes_split r pre cs c a (d.take (_typeSize c)) (d.drop (_typeSize c)) hc hd1 ha
      (by simp; omega) (fun h => hs c (List.mem_cons_self _ _) h)
    have hc2 : r._cols = some ((pre ++ [c]) ++ cs) := by simpa using hc
    have ih1 := ih (pre ++ [c]) (a ++ d.take (_typeSize c)) (d.drop (_typeSize c)) hc2 hd1
      (by rw [rowBytes_append, rowBytes_cons, rowBytes_nil]; simp; omega) (by simp; omega)
      (fun c1 h1 => hs c1 (List.mem_cons_of_mem _ h1))
    have hl : (pre ++ [c]).length = pre.length + 1 := by simp
    rw [hl] at ih1
    simp only [writeLoop, hf, Run.bind_ok, ih1, normRow]

theorem fieldBytes_length (r : NanoRecord) (c : ColumnDef) (i : Nat) (bs : List Byte)
    (h : fieldBytes r c i = .ok bs) : bs.length = _typeSize c := by
  unfold fieldBytes at h
  by_cases h1 : c.type = TAG_I
  · simp only [h1, if_true] at h
    cases hg : r.getInt i with
    | ok v => rw [hg] at h; cases h; rw [typeSize_I c h1]; rfl
    | ub => rw [hg] at h; cases h
    | fuel => rw [hg] at h; cases h
  by_cases h2 : c.type = TAG_F
  · simp only [h1, h2, tag_FI, if_true, if_false] at h
    cases hg : r.getFloat i with
    | ok v => rw [hg] at h; cases h; rw [typeSize_F c h2]; rfl
    | ub => rw [hg] at h; cases h
    | fuel => rw [hg] at h; cases h
  by_cases h3 : c.type = TAG_B
  · simp only [h1, h2, h3, tag_BI, tag_BF, if_true, if_false] at h
    cases hg : r.getBool i with
    | ok v => rw [hg] at h; cases h; rw [typeSize_B c h3]; rfl
    | ub => rw [hg] at h; cases h
    | fuel => rw [hg] at h; cases h
  by_cases h4 : c.type = TAG_S
  · simp only [h1, h2, h3, h4, tag_SI, tag_SF, tag_SB, if_true, if_false] at h
    cases hg : r.getCString i with
    | ok v =>
      rw [hg] at h; cases h; rw [typeSize_S c h4]
      simp
    | ub => rw [hg] at h; cases h
    | fuel => rw [hg] at h; cases h
  · simp only [h1, h2, h3, h4, if_false] at h
    cases h; rw [typeSize_other c h1 h2 h3 h4]; rfl

theorem writeLoop_length (r : NanoRecord) (cs : List ColumnDef) :
    ∀ (i : Nat) (bs : List Byte), writeLoop r cs i = .ok bs → bs.length = rowBytes cs := by
  induction cs with
  | nil => intro i bs h; cases h; rfl
  | cons c cs ih =>
    intro i bs h
    unfold writeLoop at h
    cases hf : fieldBytes r c i with
    | ok b1 =>
      rw [hf] at h
      cases hw : writeLoop r cs (i + 1) with
      | ok b2 =>
        simp only [hw, Run.bind_ok] at h
        cases h
        rw [List.length_append, fieldBytes_length r c i b1 hf, ih _ _ hw, rowBytes_cons]
      | ub => simp only [hw, Run.bind_ok] at h; cases h
      | fuel => simp only [hw, Run.bind_ok] at h; cases h
    | ub => rw [hf] at h; cases h
    | fuel => rw [hf] at h; cases h

end NanoDB

namespace NanoDB
open NanoTable NanoRecord

/-! ### Deserialising a row -/

theorem readLoop_eq (f : List Byte) (cs : List ColumnDef) :
    ∀ (pre : List ColumnDef) (a d : List Byte) (pos : Nat) (out : NanoRecord),
      out._cols = some (pre ++ cs) → out._data = some (a ++ d) → a.length = rowBytes pre →
      d.length = rowBytes cs → KnownTypes cs → ShortStrings cs → pos + rowBytes cs ≤ f.length →
      readLoop f cs pre.length pos out =
        .ok (true, { out with _data := some (a ++ normRow cs (readAt f pos (rowBytes cs))) }) := by
  induction cs with
  | nil =>
    intro pre a d pos out _ hd _ hlen _ _ _
    have : d = [] := List.length_eq_zero.mp (by simpa [rowBytes] using hlen)
    subst this
    simp only [readLoop, normRow, ← hd]
  | cons c cs ih =>
    intro pre a d pos out hc hd ha hlen hk hs hpos
    rw [rowBytes_cons] at hlen hpos ⊢
    have hd1 : out._data = some (a ++ d.take (_typeSize c) ++ d.drop (_typeSize c)) := by
      rw [List.append_assoc, List.take_append_drop]; exact hd
    have hx : (d.take (_typeSize c)).length = _typeSize c := by simp; omega
    have hc2 : ∀ o : NanoRecord, o._cols = out._cols → o._cols = some ((pre ++ [c]) ++ cs) := by
      intro o ho; rw [ho]; simpa using hc
    have hl : (pre ++ [c]).length = pre.length + 1 := by simp
    have hk' : KnownTypes cs := fun c1 h1 => hk c1 (List.mem_cons_of_mem _ h1)
    have hs' : ShortStrings cs := fun c1 h1 => hs c1 (List.mem_cons_of_mem _ h1)
    have hrow : ∀ w, w = _typeSize c →
        normRow (c :: cs) (readAt f pos (_typeSize c + rowBytes cs)) =
          normField c (readAt f pos w) ++ normRow cs (readAt f (pos + w) (rowBytes cs)) := by
      intro w hw; subst hw
      simp only [normRow]
      rw [readAt_take, readAt_drop _ _ _ _ (by omega)]
    -- the step shared by the four cases
    have step : ∀ (out1 : NanoRecord) (y : List Byte) (w : Nat), w = _typeSize c →
        out1 = { out with _data := some (a ++ y ++ d.drop (_typeSize c)) } →
        y = normField c (readAt f pos w) →
        readLoop f cs (pre.length + 1) (pos + w) out1 =
          .ok (true, NanoRecord.mk out._cols out._rowSize
            (some (a ++ normRow (c :: cs) (readAt f pos (_typeSize c + rowBytes cs))))) := by
      intro out1 y w hw ho hy
      have hylen : y.length = _typeSize c := by
        rw [hy]; apply normField_length; rw [readAt_length _ _ _ (by omega)]; exact hw
      have := ih (pre ++ [c]) (a ++ y) (d.drop (_typeSize c)) (pos + w) out1
        (hc2 out1 (by rw [ho])) (by rw [ho]) (by
          rw [rowBytes_append, rowBytes_cons, rowBytes_nil]; simp; omega)
        (by simp; omega) hk' hs' (by omega)
      rw [hl] at this
      rw [this, hrow w hw, ho, hy]
      simp
    rcases hk c (List.mem_cons_self _ _) with h1 | h1 | h1 | h1
    · have hw := typeSize_I c h1
      have hb : (readAt f pos 4).length = 4 := readAt_length _ _ _ (by omega)
      have hx : (d.take (_typeSize c)).length = _ := hx.trans hw
      have hset := setInt_split out pre cs c a (d.take (_typeSize c)) (d.drop (_typeSize c))
        hc hd1 ha hx (toInt32 (leNat (readAt f pos 4)))
      rw [le32_bits_toInt32_leNat _ hb] at hset
      simp only [readLoop, h1, if_true, hb, ne_eq, not_true_eq_false, if_false, hset, Run.bind_ok]
      exact step _ _ 4 hw.symm rfl (normField_I c _ h1).symm
    · have hw := typeSize_F c h1
      have hb : (readAt f pos 4).length = 4 := readAt_length _ _ _ (by omega)
      have hx : (d.take (_typeSize c)).length = _ := hx.trans hw
      have hset := setFloat_split out pre cs c a (d.take (_typeSize c)) (d.drop (_typeSize c))
        hc hd1 ha hx (leNat (readAt f pos 4))
      rw [Nat.mod_eq_of_lt (leNat_lt_of_length _ hb), le32_leNat _ hb] at hset
      simp only [readLoop, h1, tag_FI, if_true, hb, ne_eq, not_true_eq_false, if_false, hset,
        Run.bind_ok]
      exact step _ _ 4 hw.symm rfl (normField_F c _ h1).symm
    · have hw := typeSize_B c h1
      have hb : (readAt f pos 1).length = 1 := readAt_length _ _ _ (by omega)
      have hx : (d.take (_typeSize c)).length = _ := hx.trans hw
      have hset := setBool_split out pre cs c a (d.take (_typeSize c)) (d.drop (_typeSize c))
        hc hd1 ha hx (decide (leNat (readAt f pos 1) ≠ 0))
      simp only [readLoop, h1, tag_BI, tag_BF, if_true, hb, ne_eq, not_true_eq_false, if_false,
        hset, Run.bind_ok]
      apply step _ _ 1 hw.symm rfl
      rw [normField_B c _ h1]
      simp
    · have hw := typeSize_S c h1
      have hsz := hs c (List.mem_cons_self _ _) h1
      have hb : (readAt f pos c.size).length = c.size := readAt_length _ _ _ (by omega)
      have hx : (d.take (_typeSize c)).length = _ := hx.trans hw
      have hu := upToNul_length_le (readAt f pos c.size)
      by_cases h0 : c.size > 0
      · have hset := setString_split out pre cs c a (d.take (_typeSize c)) (d.drop (_typeSize c))
          hc hd1 ha hx (upToNul (readAt f pos c.size))
        rw [List.take_of_length_le (by omega), Nat.min_eq_right (by omega)] at hset
        have hcs := cString_scratch (readAt f pos c.size) (by omega)
        have hsc : scratch (readAt f pos c.size) = .ok (readAt f pos c.size ++
            List.replicate (NANO_MAX_STR_LEN - c.size) 0) := by
          simp only [scratch]; rw [if_pos (by omega), hb]
        rw [hsc] at hcs
        simp only [Run.bind_ok] at hcs
        simp only [readLoop, h1, tag_SI, tag_SF, tag_SB, if_true, if_false, h0, hsc, Run.bind_ok,
          hb, ne_eq, not_true_eq_false, hcs, hset]
        exact step _ _ c.size hw.symm rfl (normField_S c _ h1).symm
      · have hz : c.size = 0 := by omega
        have hset := setString_split out pre cs c a (d.take (_typeSize c)) (d.drop (_typeSize c))
          hc hd1 ha hx []
        simp only [readLoop, h1, tag_SI, tag_SF, tag_SB, if_true, if_false, h0, hset, Run.bind_ok]
        have := step { out with _data := some (a ++ ([] ++ List.replicate (c.size - 0) 0) ++
          d.drop (_typeSize c)) } ([] ++ List.replicate (c.size - 0) 0) 0 (by omega) rfl (by
            rw [normField_S c _ h1]; simp [readAt, hz, upToNul])
        simpa [hz] using this

end NanoDB

namespace NanoDB
open NanoTable NanoRecord

/-! ### Typed getters on a normalised row -/

theorem leNat_single (b : Byte) : leNat [b] = b.val := by simp [leNat]

theorem fieldEq_of_slices (r1 r2 : NanoRecord) (pre post : List ColumnDef) (c : ColumnDef)
    (a1 x1 b1 a2 b2 : List Byte)
    (hc1 : r1._cols = some (pre ++ c :: post)) (hc2 : r2._cols = some (pre ++ c :: post))
    (hd1 : r1._data = some (a1 ++ x1 ++ b1)) (hd2 : r2._data = some (a2 ++ normField c x1 ++ b2))
    (ha1 : a1.length = rowBytes pre) (ha2 : a2.length = rowBytes pre)
    (hx : x1.length = _typeSize c) (hs : c.type = TAG_S → c.size < NANO_MAX_STR_LEN) :
    FieldEq r1 r2 pre.length c := by
  refine ⟨fun h => ?_, fun h => ?_, fun h => ?_, fun h => ?_⟩
  · rw [normField_I c _ h] at hd2
    rw [typeSize_I c h] at hx
    exact ⟨_, getInt_split r1 pre post c a1 x1 b1 hc1 hd1 ha1 hx,
      getInt_split r2 pre post c a2 x1 b2 hc2 hd2 ha2 hx⟩
  · rw [normField_F c _ h] at hd2
    rw [typeSize_F c h] at hx
    exact ⟨_, getFloat_split r1 pre post c a1 x1 b1 hc1 hd1 ha1 hx,
      getFloat_split r2 pre post c a2 x1 b2 hc2 hd2 ha2 hx⟩
  · rw [normField_B c _ h] at hd2
    rw [typeSize_B c h] at hx
    refine ⟨_, getBool_split r1 pre post c a1 x1 b1 hc1 hd1 ha1 hx, ?_⟩
    rw [getBool_split r2 pre post c a2 _ b2 hc2 hd2 ha2 rfl]
    congr 1
    by_cases h0 : leNat x1 = 0 <;> simp [h0, leNat]
  · rw [normField_S c _ h] at hd2
    rw [typeSize_S c h] at hx
    have hl := upToNul_length_le x1
    refine ⟨_, getString_split r1 pre post c a1 x1 b1 hc1 hd1 ha1 hx (hs h), ?_⟩
    rw [getString_split r2 pre post c a2 _ b2 hc2 hd2 ha2 (by simp; omega) (hs h),
      upToNul_pad, upToNul_idem]

theorem fieldEq_normRow (r1 r2 : NanoRecord) (cols : List ColumnDef) (d : List Byte)
    (hc1 : r1._cols = some cols) (hc2 : r2._cols = some cols)
    (hd1 : r1._data = some d) (hd2 : r2._data = some (normRow cols d))
    (hlen : d.length = rowBytes cols) (hs : ShortStrings cols)
    (j : Nat) (c : ColumnDef) (hj : cols[j]? = some c) : FieldEq r1 r2 j c := by
  obtain ⟨pre, post, hsplit, hpre⟩ := split_at cols j c hj
  subst hsplit
  obtain ⟨a, x, b, hd, ha, hx, _⟩ := split_row pre c post d hlen
  subst hd
  have hn : normRow (pre ++ c :: post) (a ++ x ++ b) =
      normRow pre a ++ normField c x ++ normRow post b := by
    rw [List.append_assoc, normRow_append pre (c :: post) a (x ++ b) ha]
    have : normRow (c :: post) (x ++ b) = normField c x ++ normRow post b := by
      simp only [normRow]
      rw [List.take_left' hx, List.drop_left' hx]
    rw [this, List.append_assoc]
  rw [hn] at hd2
  rw [← hpre]
  exact fieldEq_of_slices r1 r2 pre post c a x b _ _ hc1 hc2 hd1 hd2 ha
    (by rw [normRow_length pre a ha]) hx
    (fun h => hs c (by simp) h)

theorem FieldEq.trans {r1 r2 r3 : NanoRecord} {j : Nat} {c : ColumnDef}
    (h12 : FieldEq r1 r2 j c) (h23 : FieldEq r2 r3 j c) : FieldEq r1 r3 j c := by
  refine ⟨fun h => ?_, fun h => ?_, fun h => ?_, fun h => ?_⟩
  · obtain ⟨v, h1, h2⟩ := h12.1 h
    obtain ⟨w, h3, h4⟩ := h23.1 h
    rw [h2] at h3; cases h3
    exact ⟨v, h1, h4⟩
  · obtain ⟨v, h1, h2⟩ := h12.2.1 h
    obtain ⟨w, h3, h4⟩ := h23.2.1 h
    rw [h2] at h3; cases h3
    exact ⟨v, h1, h4⟩
  · obtain ⟨v, h1, h2⟩ := h12.2.2.1 h
    obtain ⟨w, h3, h4⟩ := h23.2.2.1 h
    rw [h2] at h3; cases h3
    exact ⟨v, h1, h4⟩
  · obtain ⟨v, h1, h2⟩ := h12.2.2.2 h
    obtain ⟨w, h3, h4⟩ := h23.2.2.2 h
    rw [h2] at h3; cases h3
    exact ⟨v, h1, h4⟩

theorem FieldEq.symm {r1 r2 : NanoRecord} {j : Nat} {c : ColumnDef}
    (h12 : FieldEq r1 r2 j c) : FieldEq r2 r1 j c := by
  refine ⟨fun h => ?_, fun h => ?_, fun h => ?_, fun h => ?_⟩
  · obtain ⟨v, h1, h2⟩ := h12.1 h; exact ⟨v, h2, h1⟩
  · obtain ⟨v, h1, h2⟩ := h12.2.1 h; exact ⟨v, h2, h1⟩
  · obtain ⟨v, h1, h2⟩ := h12.2.2.1 h; exact ⟨v, h2, h1⟩
  · obtain ⟨v, h1, h2⟩ := h12.2.2.2 h; exact ⟨v, h2, h1⟩

end NanoDB

namespace NanoDB
open NanoTable NanoRecord

/-! ### Columns and slots -/

theorem idIndex_some (cols : List ColumnDef) (i : Nat) (h : idIndex cols = some i) :
    ∃ c, cols[i]? = some c ∧ c.name = ID_NAME ∧ c.type = TAG_I := by
  unfold idIndex at h
  simp only at h
  split at h
  · rename_i hlt
    cases h
    refine ⟨_, List.getElem?_eq_getElem hlt, ?_⟩
    have := @List.findIdx_getElem _ (fun c => decide (c.name = ID_NAME ∧ c.type = TAG_I)) cols hlt
    simpa using this
  · cases h

theorem colIndex_some (cols : List ColumnDef) (col : Str) (i : Nat)
    (h : colIndex cols col = some i) : ∃ c, cols[i]? = some c ∧ c.name = col := by
  unfold colIndex at h
  simp only at h
  split at h
  · rename_i hlt
    cases h
    refine ⟨_, List.getElem?_eq_getElem hlt, ?_⟩
    have := @List.findIdx_getElem _ (fun c => decide (c.name = col)) cols hlt
    simpa using this
  · cases h

theorem colOffset_split (pre post : List ColumnDef) (c : ColumnDef) :
    colOffset (pre ++ c :: post) pre.length = rowBytes pre := colOffset_append pre (c :: post)

theorem colOffset_bound (cols : List ColumnDef) (i : Nat) (c : ColumnDef)
    (h : cols[i]? = some c) : colOffset cols i + _typeSize c ≤ rowBytes cols := by
  obtain ⟨pre, post, hs, hp⟩ := split_at cols i c h
  subst hs; subst hp
  rw [colOffset_split, rowBytes_append, rowBytes_cons]
  omega

theorem colOffset_lt (cols : List ColumnDef) (i j : Nat) (c : ColumnDef)
    (h : cols[i]? = some c) (hij : i < j) : colOffset cols i + _typeSize c ≤ colOffset cols j := by
  obtain ⟨pre, post, hs, hp⟩ := split_at cols i c h
  subst hs; subst hp
  rw [colOffset_split]
  unfold colOffset
  obtain ⟨m, hm⟩ : ∃ m, j = pre.length + (m + 1) := ⟨j - pre.length - 1, by omega⟩
  subst hm
  have : List.take (pre.length + (m + 1)) (pre ++ c :: post) = pre ++ c :: List.take m post := by
    rw [List.take_append, List.take_succ_cons]
  rw [this]
  simp [rowBytes]

theorem idOffset_bound (t : NanoTable) (i : Nat) (hrs : t._recordSize = rowBytes t._cols)
    (hid : idIndex t._cols = some i) : colOffset t._cols i + 4 ≤ t._recordSize := by
  obtain ⟨c, hc, _, ht⟩ := idIndex_some _ _ hid
  have := colOffset_bound _ _ _ hc
  rw [typeSize_I c ht] at this
  omega

theorem slotPos_succ (t : NanoTable) (k : Nat) :
    slotPos t (k + 1) = slotPos t k + t._recordSize := by
  unfold slotPos; rw [Nat.add_mul]; omega

theorem slotPos_zero (t : NanoTable) : slotPos t 0 = t._headerSizeBytes := by
  simp [slotPos]

theorem slotIn_iff (t : NanoTable) (f : List Byte) (hrs : 0 < t._recordSize) (k : Nat) :
    SlotIn t f k ↔ k < slotCount t f := by
  unfold SlotIn slotCount slotPos
  rw [Nat.lt_iff_add_one_le, Nat.le_div_iff_mul_le hrs, Nat.add_mul]
  have : 0 < (k + 1) * t._recordSize := Nat.mul_pos (by omega) hrs
  rw [Nat.add_mul] at this
  omega

theorem slotCount_le (t : NanoTable) (f : List Byte) : slotCount t f ≤ f.length := by
  unfold slotCount
  calc (f.length - t._headerSizeBytes) / t._recordSize
      ≤ f.length - t._headerSizeBytes := Nat.div_le_self _ _
    _ ≤ f.length := Nat.sub_le _ _

theorem slotIn_mono (t : NanoTable) (f : List Byte) (k j : Nat) (h : SlotIn t f k)
    (hj : j ≤ k) : SlotIn t f j := by
  unfold SlotIn slotPos at *
  have : j * t._recordSize ≤ k * t._recordSize := Nat.mul_le_mul_right _ hj
  omega

end NanoDB

namespace NanoDB
open NanoTable NanoRecord

/-! ### The scans -/

theorem idRead_length (t : NanoTable) (f : List Byte) (idx k : Nat)
    (ho : colOffset t._cols idx + 4 ≤ t._recordSize) (hk : SlotIn t f k) :
    (readAt f (slotPos t k + colOffset t._cols idx) 4).length = 4 := by
  apply readAt_length
  unfold SlotIn at hk
  omega

theorem findIntLoop_sound (t : NanoTable) (f : List Byte) (idx : Nat) (val : Int) :
    ∀ (fuel k p : Nat), findIntLoop t f idx val fuel (slotPos t k) = .ok (some p) →
      ∃ k1, k ≤ k1 ∧ p = slotPos t k1 ∧ SlotIn t f k1 ∧
        (readAt f (p + colOffset t._cols idx) 4).length = 4 ∧ intAt t f idx k1 = val ∧
        ∀ j, k ≤ j → j < k1 → intAt t f idx j ≠ val := by
  intro fuel
  induction fuel with
  | zero => intro k p h; cases h
  | succ fuel ih =>
    intro k p h
    unfold findIntLoop at h
    by_cases hin : slotPos t k + t._recordSize ≤ f.length
    · simp only [hin, if_true] at h
      by_cases hlen : (readAt f (slotPos t k + colOffset t._cols idx) 4).length = 4
      · simp only [hlen, ne_eq, not_true_eq_false, if_false] at h
        by_cases hv : toInt32 (leNat (readAt f (slotPos t k + colOffset t._cols idx) 4)) = val
        · simp only [hv, if_true] at h
          cases h
          exact ⟨k, Nat.le_refl _, rfl, hin, hlen, hv, fun j h1 h2 => absurd h2 (by omega)⟩
        · simp only [hv, if_false] at h
          rw [← slotPos_succ] at h
          obtain ⟨k1, h1, h2, h3, h4, h5, h6⟩ := ih (k + 1) p h
          refine ⟨k1, by omega, h2, h3, h4, h5, fun j hj1 hj2 => ?_⟩
          by_cases hjk : j = k
          · subst hjk; exact hv
          · exact h6 j (by omega) hj2
      · simp only [hlen, ne_eq, not_false_eq_true, if_true] at h
        cases h
    · simp only [hin, if_false] at h
      cases h

theorem findIntLoop_exists (t : NanoTable) (f : List Byte) (idx : Nat) (val : Int)
    (ho : colOffset t._cols idx + 4 ≤ t._recordSize) :
    ∀ (m k fuel : Nat), m < fuel → SlotIn t f (k + m) → intAt t f idx (k + m) = val →
      ∃ k1, k ≤ k1 ∧ k1 ≤ k + m ∧
        findIntLoop t f idx val fuel (slotPos t k) = .ok (some (slotPos t k1)) ∧
        intAt t f idx k1 = val ∧ ∀ j, k ≤ j → j < k1 → intAt t f idx j ≠ val := by
  intro m
  induction m with
  | zero =>
    intro k fuel hf hin hv
    obtain ⟨fuel, rfl⟩ : ∃ n, fuel = n + 1 := ⟨fuel - 1, by omega⟩
    refine ⟨k, Nat.le_refl _, Nat.le_refl _, ?_, hv, fun j h1 h2 => absurd h2 (by omega)⟩
    have hlen := idRead_length t f idx k ho hin
    have hin' : slotPos t k + t._recordSize ≤ f.length := hin
    have hv' : toInt32 (leNat (readAt f (slotPos t k + colOffset t._cols idx) 4)) = val := hv
    unfold findIntLoop
    simp only [hin', if_true, hlen, ne_eq, not_true_eq_false, if_false, hv']
  | succ m ih =>
    intro k fuel hf hin hv
    obtain ⟨fuel, rfl⟩ : ∃ n, fuel = n + 1 := ⟨fuel - 1, by omega⟩
    have hink : SlotIn t f k := slotIn_mono t f _ k hin (by omega)
    have hlen := idRead_length t f idx k ho hink
    have hin' : slotPos t k + t._recordSize ≤ f.length := hink
    by_cases hv0 : intAt t f idx k = val
    · refine ⟨k, Nat.le_refl _, by omega, ?_, hv0, fun j h1 h2 => absurd h2 (by omega)⟩
      have hv' : toInt32 (leNat (readAt f (slotPos t k + colOffset t._cols idx) 4)) = val := hv0
      unfold findIntLoop
      simp only [hin', if_true, hlen, ne_eq, not_true_eq_false, if_false, hv']
    · have e : k + (m + 1) = (k + 1) + m := by omega
      rw [e] at hin hv
      obtain ⟨k1, h1, h2, h3, h4, h5⟩ := ih (k + 1) fuel (by omega) hin hv
      refine ⟨k1, by omega, by omega, ?_, h4, fun j hj1 hj2 => ?_⟩
      · have hv' : ¬ toInt32 (leNat (readAt f (slotPos t k + colOffset t._cols idx) 4)) = val := hv0
        unfold findIntLoop
        simp only [hin', if_true, hlen, ne_eq, not_true_eq_false, if_false, hv']
        rw [← slotPos_succ]
        exact h3
      · by_cases hjk : j = k
        · subst hjk; exact hv0
        · exact h5 j (by omega) hj2

theorem findIntLoop_none (t : NanoTable) (f : List Byte) (idx : Nat) (val : Int)
    (hrs : 0 < t._recordSize) (ho : colOffset t._cols idx + 4 ≤ t._recordSize) :
    ∀ (fuel k : Nat), slotCount t f - k < fuel →
      (∀ j, k ≤ j → SlotIn t f j → intAt t f idx j ≠ val) →
      findIntLoop t f idx val fuel (slotPos t k) = .ok none := by
  intro fuel
  induction fuel with
  | zero => intro k h; omega
  | succ fuel ih =>
    intro k hf hne
    unfold findIntLoop
    by_cases hin : slotPos t k + t._recordSize ≤ f.length
    · have hlen := idRead_length t f idx k ho hin
      have hv : ¬ toInt32 (leNat (readAt f (slotPos t k + colOffset t._cols idx) 4)) = val :=
        hne k (Nat.le_refl _) hin
      simp only [hin, if_true, hlen, ne_eq, not_true_eq_false, if_false, hv]
      rw [← slotPos_succ]
      have hk : k < slotCount t f := (slotIn_iff t f hrs k).mp hin
      exact ih (k + 1) (by omega) (fun j h1 h2 => hne j (by omega) h2)
    · simp only [hin, if_false]

theorem liveCount_le (t : NanoTable) (f : List Byte) (idx : Nat) :
    ∀ (m k : Nat), liveCount t f idx k m ≤ m := by
  intro m
  induction m with
  | zero => intro k; simp [liveCount]
  | succ m ih =>
    intro k
    have := ih (k + 1)
    simp only [liveCount]
    split <;> omega

theorem recordsLoop_eq (t : NanoTable) (f : List Byte) (i : Nat)
    (hid : idIndex t._cols = some i) (ho : colOffset t._cols i + 4 ≤ t._recordSize) :
    ∀ (m k fuel cnt : Nat), m < fuel → (∀ j, j < m → SlotIn t f (k + j)) →
      ¬ SlotIn t f (k + m) → cnt < 4294967296 →
      recordsLoop t f fuel (slotPos t k) cnt =
        .ok ((cnt + liveCount t f i k m) % 4294967296) := by
  intro m
  induction m with
  | zero =>
    intro k fuel cnt hf _ hout hcnt
    obtain ⟨fuel, rfl⟩ : ∃ n, fuel = n + 1 := ⟨fuel - 1, by omega⟩
    have hout' : ¬ (slotPos t k + t._recordSize ≤ f.length) := hout
    unfold recordsLoop
    simp only [hout', if_false, liveCount, Nat.add_zero, Nat.mod_eq_of_lt hcnt]
  | succ m ih =>
    intro k fuel cnt hf hin hout hcnt
    obtain ⟨fuel, rfl⟩ : ∃ n, fuel = n + 1 := ⟨fuel - 1, by omega⟩
    have hink : SlotIn t f k := hin 0 (by omega)
    have hin' : slotPos t k + t._recordSize ≤ f.length := hink
    have hlen := idRead_length t f i k ho hink
    have e : k + (m + 1) = (k + 1) + m := by omega
    rw [e] at hout
    have hin2 : ∀ j, j < m → SlotIn t f (k + 1 + j) := fun j hj => by
      have := hin (j + 1) (by omega)
      rwa [show k + (j + 1) = k + 1 + j by omega] at this
    have hlt : ∀ c : Nat, c % 4294967296 < 4294967296 := fun c => Nat.mod_lt _ (by decide)
    unfold recordsLoop
    simp only [hin', if_true, hid, hlen, true_and]
    by_cases hv : toInt32 (leNat (readAt f (slotPos t k + colOffset t._cols i) 4)) = 0
    · have hv' : intAt t f i k = 0 := hv
      simp only [hv, ne_eq, not_true_eq_false, if_false, liveCount, hv']
      rw [← slotPos_succ, ih (k + 1) fuel cnt (by omega) hin2 hout hcnt]
      simp
    · have hv' : intAt t f i k ≠ 0 := hv
      simp only [hv, ne_eq, not_false_eq_true, if_true, liveCount, hv']
      rw [← slotPos_succ, ih (k + 1) fuel _ (by omega) hin2 hout (hlt _)]
      congr 1
      omega

theorem nextIdLoop_eq (t : NanoTable) (f : List Byte) (i : Nat)
    (ho : colOffset t._cols i + 4 ≤ t._recordSize) :
    ∀ (m k fuel : Nat) (acc : Int), m < fuel → (∀ j, j < m → SlotIn t f (k + j)) →
      ¬ SlotIn t f (k + m) →
      nextIdLoop t f i fuel (slotPos t k) acc = .ok (maxFrom t f i k m acc) := by
  intro m
  induction m with
  | zero =>
    intro k fuel acc hf _ hout
    obtain ⟨fuel, rfl⟩ : ∃ n, fuel = n + 1 := ⟨fuel - 1, by omega⟩
    have hout' : ¬ (slotPos t k + t._recordSize ≤ f.length) := hout
    unfold nextIdLoop
    simp only [hout', if_false, maxFrom]
  | succ m ih =>
    intro k fuel acc hf hin hout
    obtain ⟨fuel, rfl⟩ : ∃ n, fuel = n + 1 := ⟨fuel - 1, by omega⟩
    have hink : SlotIn t f k := hin 0 (by omega)
    have hin' : slotPos t k + t._recordSize ≤ f.length := hink
    have hlen := idRead_length t f i k ho hink
    have e : k + (m + 1) = (k + 1) + m := by omega
    rw [e] at hout
    have hin2 : ∀ j, j < m → SlotIn t f (k + 1 + j) := fun j hj => by
      have := hin (j + 1) (by omega)
      rwa [show k + (j + 1) = k + 1 + j by omega] at this
    unfold nextIdLoop
    simp only [hin', if_true, hlen, ne_eq, not_true_eq_false, if_false, maxFrom]
    rw [← slotPos_succ, ih (k + 1) fuel _ (by omega) hin2 hout]
    rfl

end NanoDB

namespace NanoDB
open NanoTable NanoRecord

/-! ### Opened tables -/

theorem cols_ne_nil_of_idIndex (cols : List ColumnDef) (i : Nat) (h : idIndex cols = some i) :
    cols ≠ [] := by
  intro h0; subst h0; simp [idIndex] at h

theorem lazyLoad_open (t : NanoTable) (disk : Disk) (h : t._cols ≠ []) :
    lazyLoad t disk = .ok t := by
  have : ¬ (t._colCount = 0) := by
    simp only [NanoTable._colCount]
    intro h0; exact h (List.length_eq_zero.mp h0)
  simp only [lazyLoad, this, if_false]

theorem headerMissing_open (t : NanoTable) (disk : Disk) (h : t._cols ≠ []) :
    headerMissing t disk = .ok (false, t) := by
  have : ¬ (t._colCount = 0) := by
    simp only [NanoTable._colCount]
    intro h0; exact h (List.length_eq_zero.mp h0)
  simp only [headerMissing, this, if_false]

theorem findOffsetById_open (fuel : Nat) (t : NanoTable) (f : List Byte) (v : Int) (i : Nat)
    (hid : idIndex t._cols = some i) :
    _findOffsetById fuel t (some f) v =
      (findIntLoop t f i v fuel (slotPos t 0)).bind fun o => .ok (o, t) := by
  simp only [_findOffsetById, lazyLoad_open t _ (cols_ne_nil_of_idIndex _ _ hid), Run.bind_ok, hid,
    slotPos_zero]

theorem findOffsetById_nofile (fuel : Nat) (t : NanoTable) (v : Int) (h : t._cols ≠ []) :
    _findOffsetById fuel t none v = .ok (none, t) := by
  simp only [_findOffsetById, lazyLoad_open t _ h, Run.bind_ok]
  cases idIndex t._cols <;> rfl

theorem findOffsetById_noid (fuel : Nat) (t : NanoTable) (disk : Disk) (v : Int)
    (h : t._cols ≠ []) (hid : idIndex t._cols = none) :
    _findOffsetById fuel t disk v = .ok (none, t) := by
  simp only [_findOffsetById, lazyLoad_open t _ h, Run.bind_ok, hid]

theorem recordSize_pos (t : NanoTable) (i : Nat) (hrs : t._recordSize = rowBytes t._cols)
    (hid : idIndex t._cols = some i) : 0 < t._recordSize := by
  have := idOffset_bound t i hrs hid
  omega

/-- The table a call leaves has the schema the call worked with: a table with
columns is never reloaded. -/
theorem lazyLoad_idem (t : NanoTable) (disk : Disk) (t1 : NanoTable)
    (_h : lazyLoad t disk = .ok t1) (h1 : t1._cols ≠ []) : lazyLoad t1 disk = .ok t1 :=
  lazyLoad_open t1 disk h1

theorem findOffsetById_none (fuel : Nat) (t : NanoTable) (disk : Disk) (v : Int) (i : Nat)
    (hid : idIndex t._cols = some i) (hrs : t._recordSize = rowBytes t._cols)
    (hfuel : size disk < fuel)
    (hne : ∀ f, disk = some f → ∀ k, SlotIn t f k → intAt t f i k ≠ v) :
    _findOffsetById fuel t disk v = .ok (none, t) := by
  cases disk with
  | none => exact findOffsetById_nofile fuel t v (cols_ne_nil_of_idIndex _ _ hid)
  | some f =>
    rw [findOffsetById_open fuel t f v i hid,
      findIntLoop_none t f i v (recordSize_pos t i hrs hid) (idOffset_bound t i hrs hid) fuel 0
        (by have := slotCount_le t f; simp only [size] at hfuel; omega)
        (fun j _ hj => hne f rfl j hj)]
    rfl

theorem findOffsetById_first (fuel : Nat) (t : NanoTable) (f : List Byte) (v : Int) (i k : Nat)
    (hid : idIndex t._cols = some i) (hrs : t._recordSize = rowBytes t._cols)
    (hfuel : f.length < fuel) (hin : SlotIn t f k) (hv : intAt t f i k = v)
    (hfirst : ∀ j, j < k → intAt t f i j ≠ v) :
    _findOffsetById fuel t (some f) v = .ok (some (slotPos t k), t) := by
  rw [findOffsetById_open fuel t f v i hid]
  have hk : k < slotCount t f := (slotIn_iff t f (recordSize_pos t i hrs hid) k).mp hin
  have := slotCount_le t f
  obtain ⟨k1, _, h2, h3, h4, h5⟩ := findIntLoop_exists t f i v (idOffset_bound t i hrs hid) k 0 fuel
    (by omega) (by simpa using hin) (by simpa using hv)
  have : k1 = k := by
    rcases Nat.lt_or_ge k1 k with h | h
    · exact absurd h4 (hfirst k1 h)
    · omega
  subst this
  rw [h3]; rfl

/-- What a successful `_findOffsetById` tells. -/
theorem findOffsetById_sound (fuel : Nat) (t : NanoTable) (disk : Disk) (v : Int) (p : Nat)
    (t1 : NanoTable) (h : _findOffsetById fuel t disk v = .ok (some p, t1)) :
    ∃ f i k, disk = some f ∧ idIndex t1._cols = some i ∧ p = slotPos t1 k ∧ SlotIn t1 f k ∧
      (readAt f (p + colOffset t1._cols i) 4).length = 4 ∧ intAt t1 f i k = v ∧
      (∀ j, j < k → intAt t1 f i j ≠ v) ∧ lazyLoad t disk = .ok t1 := by
  unfold _findOffsetById at h
  cases hl : lazyLoad t disk with
  | ok t2 =>
    simp only [hl, Run.bind_ok] at h
    cases hi : idIndex t2._cols with
    | none => simp only [hi] at h; cases h
    | some i =>
      simp only [hi] at h
      cases disk with
      | none => simp only at h; cases h
      | some f =>
        simp only at h
        cases hf : findIntLoop t2 f i v fuel t2._headerSizeBytes with
        | ok o =>
          simp only [hf, Run.bind_ok, Run.ok.injEq, Prod.mk.injEq] at h
          obtain ⟨ho, ht⟩ := h
          subst ho; subst ht
          rw [← slotPos_zero] at hf
          obtain ⟨k, _, h2, h3, h4, h5, h6⟩ := findIntLoop_sound t2 f i v fuel 0 p hf
          exact ⟨f, i, k, rfl, hi, h2, h3, h4, h5, fun j hj => h6 j (Nat.zero_le _) hj, rfl⟩
        | ub => simp only [hf] at h; cases h
        | fuel => simp only [hf] at h; cases h
  | ub => simp only [hl] at h; cases h
  | fuel => simp only [hl] at h; cases h

end NanoDB

namespace NanoDB
open NanoTable NanoRecord

theorem writeAt_frame (f : List Byte) (off : Nat) (bs : List Byte)
    (h : off + bs.length ≤ f.length) (p : Nat) (hp : p < off ∨ off + bs.length ≤ p) :
    (writeAt f off bs)[p]? = f[p]? := by
  rw [writeAt_getElem? f off bs h]
  rcases hp with hp | hp
  · simp [hp]
  · have h1 : ¬ (p < off) := by omega
    have h2 : ¬ (p < off + bs.length) := by omega
    simp [h1, h2]

theorem update_false_of_noid (fuel : Nat) (t : NanoTable) (disk : Disk) (rec : NanoRecord)
    (hopen : t._cols ≠ []) (hid : idIndex t._cols = none) :
    update fuel t disk rec = .ok (false, t, disk) := by
  simp only [update, headerMissing_open t disk hopen, Run.bind_ok, hid]
  rfl

theorem update_false_of_zero (fuel : Nat) (t : NanoTable) (disk : Disk) (rec : NanoRecord)
    (i : Nat) (hid : idIndex t._cols = some i) (h0 : rec.getInt i = .ok 0) :
    update fuel t disk rec = .ok (false, t, disk) := by
  simp only [update, headerMissing_open t disk (cols_ne_nil_of_idIndex _ _ hid), Run.bind_ok, hid,
    h0]
  rfl

theorem update_false_of_nomatch (fuel : Nat) (t : NanoTable) (disk : Disk) (rec : NanoRecord)
    (i : Nat) (v : Int) (hid : idIndex t._cols = some i) (hv : rec.getInt i = .ok v)
    (hrs : t._recordSize = rowBytes t._cols) (hfuel : size disk < fuel)
    (hne : ∀ f, disk = some f → ∀ k, SlotIn t f k → intAt t f i k ≠ v) :
    update fuel t disk rec = .ok (false, t, disk) := by
  by_cases hz : v = 0
  · subst hz; exact update_false_of_zero fuel t disk rec i hid hv
  · simp only [update, headerMissing_open t disk (cols_ne_nil_of_idIndex _ _ hid), Run.bind_ok,
      hid, hv, findOffsetById_none fuel t disk v i hid hrs hfuel hne]
    simp [hz]

theorem drop_false (fuel : Nat) (t : NanoTable) (disk : Disk) (id : Int) (i : Nat)
    (hid : idIndex t._cols = some i) (hrs : t._recordSize = rowBytes t._cols)
    (hfuel : size disk < fuel)
    (hne : ∀ f, disk = some f → ∀ k, SlotIn t f k → intAt t f i k ≠ id) :
    drop fuel t disk id = .ok (false, t, disk) := by
  simp only [drop, findOffsetById_none fuel t disk id i hid hrs hfuel hne, Run.bind_ok]

theorem drop_true (fuel : Nat) (t : NanoTable) (f : List Byte) (id : Int) (i k : Nat)
    (hid : idIndex t._cols = some i) (hrs : t._recordSize = rowBytes t._cols)
    (hfuel : f.length < fuel) (hin : SlotIn t f k) (hv : intAt t f i k = id)
    (hfirst : ∀ j, j < k → intAt t f i j ≠ id) :
    drop fuel t (some f) id =
      .ok (true, t, some (writeAt f (slotPos t k + colOffset t._cols i) (le32 0))) := by
  simp only [drop, findOffsetById_first fuel t f id i k hid hrs hfuel hin hv hfirst, Run.bind_ok,
    hid]

theorem idField_in (t : NanoTable) (f : List Byte) (i k : Nat)
    (hid : idIndex t._cols = some i) (hrs : t._recordSize = rowBytes t._cols)
    (hin : SlotIn t f k) : slotPos t k + colOffset t._cols i + 4 ≤ f.length := by
  have := idOffset_bound t i hrs hid
  unfold SlotIn at hin
  omega

/-- What a successful `drop(id)` has done. -/
theorem drop_sound (fuel : Nat) (t : NanoTable) (disk : Disk) (id : Int) (i : Nat)
    (hid : idIndex t._cols = some i) (t1 : NanoTable) (disk1 : Disk)
    (h : drop fuel t disk id = .ok (true, t1, disk1)) :
    ∃ f k, disk = some f ∧ t1 = t ∧ SlotIn t f k ∧ intAt t f i k = id ∧
      (∀ j, j < k → intAt t f i j ≠ id) ∧
      slotPos t k + colOffset t._cols i + 4 ≤ f.length ∧
      disk1 = some (writeAt f (slotPos t k + colOffset t._cols i) (le32 0)) := by
  have hopen := cols_ne_nil_of_idIndex _ _ hid
  unfold drop at h
  cases hf : _findOffsetById fuel t disk id with
  | ok r =>
    obtain ⟨o, t2⟩ := r
    cases o with
    | none =>
      simp only [hf, Run.bind_ok, Run.ok.injEq, Prod.mk.injEq] at h
      exact absurd h.1 (by decide)
    | some p =>
      obtain ⟨f, i2, k, hd, hi2, hp, hin, hlen, hv, hfirst, hl⟩ :=
        findOffsetById_sound fuel t disk id p t2 hf
      rw [lazyLoad_open t disk hopen] at hl
      cases hl
      rw [hid] at hi2
      cases hi2
      subst hd
      simp only [hf, Run.bind_ok, hid, Run.ok.injEq, Prod.mk.injEq, true_and] at h
      have hb := readAt_length_eq f _ 4 hlen (by decide)
      rw [hp] at hb
      exact ⟨f, k, rfl, h.1.symm, hin, hv, hfirst, hb, by rw [← h.2, hp]⟩
  | ub => simp only [hf] at h; cases h
  | fuel => simp only [hf] at h; cases h

end NanoDB

namespace NanoDB
open NanoTable NanoRecord

/-! ### Counting live rows -/

theorem liveCount_congr (t : NanoTable) (f f1 : List Byte) (i : Nat) :
    ∀ (m k : Nat), (∀ j, k ≤ j → j < k + m → intAt t f i j = intAt t f1 i j) →
      liveCount t f i k m = liveCount t f1 i k m := by
  intro m
  induction m with
  | zero => intro k _; rfl
  | succ m ih =>
    intro k h
    simp only [liveCount]
    rw [h k (Nat.le_refl _) (by omega), ih (k + 1) (fun j h1 h2 => h j (by omega) (by omega))]

theorem liveCount_zeroed (t : NanoTable) (f f1 : List Byte) (i k0 : Nat)
    (h0 : intAt t f i k0 ≠ 0) (h1 : intAt t f1 i k0 = 0)
    (hrest : ∀ j, j ≠ k0 → intAt t f i j = intAt t f1 i j) :
    ∀ (m k : Nat), k ≤ k0 → k0 < k + m →
      liveCount t f i k m = liveCount t f1 i k m + 1 := by
  intro m
  induction m with
  | zero => intro k h2 h3; omega
  | succ m ih =>
    intro k h2 h3
    simp only [liveCount]
    by_cases hk : k = k0
    · subst hk
      rw [liveCount_congr t f f1 i m (k + 1) (fun j hj _ => hrest j (by omega))]
      simp only [h0, h1, ne_eq, not_false_eq_true, not_true_eq_false, if_true, if_false]
      omega
    · rw [hrest k hk, ih (k + 1) (by omega) (by omega)]
      omega

theorem readAt_of_frame (f f1 : List Byte) (a n off m : Nat)
    (hframe : ∀ p, p < a ∨ a + n ≤ p → f1[p]? = f[p]?)
    (hd : off + m ≤ a ∨ a + n ≤ off) : readAt f1 off m = readAt f off m := by
  apply List.ext_getElem?
  intro q
  rw [readAt_getElem?, readAt_getElem?]
  by_cases hq : q < m
  · simp only [hq, if_true]
    exact hframe _ (by omega)
  · simp only [hq, if_false]

theorem records_eq (fuel : Nat) (t : NanoTable) (f : List Byte) (i : Nat)
    (hid : idIndex t._cols = some i) (hrs : t._recordSize = rowBytes t._cols)
    (hfuel : f.length < fuel) :
    records fuel t (some f) =
      .ok (liveCount t f i 0 (slotCount t f) % 4294967296, t) := by
  have hpos := recordSize_pos t i hrs hid
  have h := recordsLoop_eq t f i hid (idOffset_bound t i hrs hid) (slotCount t f) 0 fuel 0
    (by have := slotCount_le t f; omega)
    (fun j hj => by rw [Nat.zero_add]; exact (slotIn_iff t f hpos j).mpr hj)
    (by rw [Nat.zero_add, slotIn_iff t f hpos]; omega) (by decide)
  rw [slotPos_zero, Nat.zero_add] at h
  simp only [records, lazyLoad_open t _ (cols_ne_nil_of_idIndex _ _ hid), Run.bind_ok, h]

theorem slotPos_disjoint (t : NanoTable) (j k o : Nat) (h : j ≠ k)
    (ho : o + 4 ≤ t._recordSize) :
    slotPos t j + o + 4 ≤ slotPos t k + o ∨ slotPos t k + o + 4 ≤ slotPos t j + o := by
  unfold slotPos
  rcases Nat.lt_or_gt_of_ne h with h1 | h1
  · left
    have : (j + 1) * t._recordSize ≤ k * t._recordSize := Nat.mul_le_mul_right _ h1
    rw [Nat.add_mul] at this
    omega
  · right
    have : (k + 1) * t._recordSize ≤ j * t._recordSize := Nat.mul_le_mul_right _ h1
    rw [Nat.add_mul] at this
    omega

end NanoDB

namespace NanoDB
open NanoTable NanoRecord

/-! ### Saving an attached record -/

theorem attached_data (t : NanoTable) (r : NanoRecord) (h : Attached t r) :
    ∃ d, r._cols = some t._cols ∧ r._data = some d ∧ d.length = t._recordSize := by
  obtain ⟨h1, h2⟩ := h
  cases hd : r._data with
  | none => rw [hd] at h2; cases h2
  | some d =>
    rw [hd] at h2
    simp only [Option.map_some', Option.some.injEq] at h2
    exact ⟨d, h1, rfl, h2⟩

theorem readAt_mid (a x b : List Byte) : readAt (a ++ x ++ b) a.length x.length = x := by
  simp [readAt]

theorem writeAt_mid (a x b y : List Byte) (h : y.length = x.length) :
    writeAt (a ++ x ++ b) a.length y = a ++ y ++ b := by
  simp [writeAt, h]

theorem getInt_attached (r : NanoRecord) (cols : List ColumnDef) (d : List Byte) (i : Nat)
    (c : ColumnDef) (hc : r._cols = some cols) (hd : r._data = some d)
    (hlen : d.length = rowBytes cols) (hi : cols[i]? = some c) (ht : c.type = TAG_I) :
    r.getInt i = .ok (toInt32 (leNat (readAt d (colOffset cols i) 4))) := by
  obtain ⟨pre, post, hsplit, hpre⟩ := split_at cols i c hi
  subst hsplit; subst hpre
  obtain ⟨a, x, b, hdx, ha, hx, _⟩ := split_row pre c post d hlen
  subst hdx
  rw [typeSize_I c ht] at hx
  rw [getInt_split r pre post c a x b hc hd ha hx, colOffset_split, ← ha]
  have := readAt_mid a x b
  rw [hx] at this
  rw [this]

theorem setInt_attached (r : NanoRecord) (cols : List ColumnDef) (d : List Byte) (i : Nat)
    (c : ColumnDef) (v : Int) (hc : r._cols = some cols) (hd : r._data = some d)
    (hlen : d.length = rowBytes cols) (hi : cols[i]? = some c) (ht : c.type = TAG_I) :
    r.setInt i v = .ok (NanoRecord.mk r._cols r._rowSize
      (some (writeAt d (colOffset cols i) (le32 (bitsOfInt32 v))))) := by
  obtain ⟨pre, post, hsplit, hpre⟩ := split_at cols i c hi
  subst hsplit; subst hpre
  obtain ⟨a, x, b, hdx, ha, hx, _⟩ := split_row pre c post d hlen
  subst hdx
  rw [typeSize_I c ht] at hx
  rw [setInt_split r pre post c a x b hc hd ha hx, colOffset_split, ← ha,
    writeAt_mid a x b _ (by rw [hx]; rfl)]

theorem normRow_int_slice (cols : List ColumnDef) (d : List Byte) (i : Nat) (c : ColumnDef)
    (hlen : d.length = rowBytes cols) (hi : cols[i]? = some c) (ht : c.type = TAG_I) :
    readAt (normRow cols d) (colOffset cols i) 4 = readAt d (colOffset cols i) 4 := by
  obtain ⟨pre, post, hsplit, hpre⟩ := split_at cols i c hi
  subst hsplit; subst hpre
  obtain ⟨a, x, b, hdx, ha, hx, _⟩ := split_row pre c post d hlen
  subst hdx
  have hn : normRow (pre ++ c :: post) (a ++ x ++ b) =
      normRow pre a ++ normField c x ++ normRow post b := by
    rw [List.append_assoc, normRow_append pre (c :: post) a (x ++ b) ha]
    have : normRow (c :: post) (x ++ b) = normField c x ++ normRow post b := by
      simp only [normRow]
      rw [List.take_left' hx, List.drop_left' hx]
    rw [this, List.append_assoc]
  rw [typeSize_I c ht] at hx
  rw [hn, normField_I c x ht, colOffset_split]
  have h1 := readAt_mid (normRow pre a) x (normRow post b)
  have h2 := readAt_mid a x b
  rw [normRow_length pre a ha, hx] at h1
  rw [ha, hx] at h2
  rw [h1, h2]

theorem nextId_eq (fuel : Nat) (t : NanoTable) (g : List Byte) (i : Nat)
    (hid : idIndex t._cols = some i) (hrs : t._recordSize = rowBytes t._cols)
    (hfuel : g.length < fuel) :
    _nextId fuel t (some g) = .ok (wrap32 (maxFrom t g i 0 (slotCount t g) 0 + 1), t) := by
  have hpos := recordSize_pos t i hrs hid
  have h := nextIdLoop_eq t g i (idOffset_bound t i hrs hid) (slotCount t g) 0 fuel 0
    (by have := slotCount_le t g; omega)
    (fun j hj => by rw [Nat.zero_add]; exact (slotIn_iff t g hpos j).mpr hj)
    (by rw [Nat.zero_add, slotIn_iff t g hpos]; omega)
  rw [slotPos_zero] at h
  simp only [_nextId, lazyLoad_open t _ (cols_ne_nil_of_idIndex _ _ hid), Run.bind_ok, hid, h]

theorem columns_of_cols (r : NanoRecord) (cols : List ColumnDef) (h : r._cols = some cols) :
    (!r.columns) = false := by
  simp [NanoRecord.columns, h]

/-- The file `_writeRecordAt` leaves when it appends an attached record. -/
theorem writeRecordAt_append (t : NanoTable) (g : List Byte) (r : NanoRecord) (d : List Byte)
    (hc : r._cols = some t._cols) (hd : r._data = some d) (hlen : d.length = rowBytes t._cols)
    (hs : ShortStrings t._cols) :
    _writeRecordAt t g g.length r = .ok (true, g ++ normRow t._cols d) := by
  have hw := writeLoop_eq r t._cols [] [] d (by simpa using hc) (by simpa using hd) rfl hlen hs
  simp only [List.length_nil] at hw
  simp only [_writeRecordAt, columns_of_cols r _ hc, Bool.false_eq_true, if_false, hw, Run.bind_ok,
    writeAt_end]

theorem save_keep (fuel : Nat) (t : NanoTable) (g : List Byte) (r : NanoRecord) (i : Nat)
    (d : List Byte) (v : Int) (hid : idIndex t._cols = some i)
    (hs : ShortStrings t._cols) (hc : r._cols = some t._cols) (hd : r._data = some d)
    (hlen : d.length = rowBytes t._cols) (hv : r.getInt i = .ok v) (hv0 : v ≠ 0) :
    save fuel t (some g) r = .ok (true, t, some (g ++ normRow t._cols d), r) := by
  simp only [save, headerMissing_open t _ (cols_ne_nil_of_idIndex _ _ hid), Run.bind_ok,
    Bool.false_eq_true, if_false, columns_of_cols r _ hc, hid, hv, hv0, Option.getD_some,
    writeRecordAt_append t g r d hc hd hlen hs]

theorem save_assign (fuel : Nat) (t : NanoTable) (g : List Byte) (r : NanoRecord) (i : Nat)
    (d : List Byte) (hid : idIndex t._cols = some i) (hrs : t._recordSize = rowBytes t._cols)
    (hs : ShortStrings t._cols) (hc : r._cols = some t._cols) (hd : r._data = some d)
    (hlen : d.length = rowBytes t._cols) (hv : r.getInt i = .ok 0) (hfuel : g.length < fuel) :
    save fuel t (some g) r = .ok (true, t,
      some (g ++ normRow t._cols (writeAt d (colOffset t._cols i)
        (le32 (bitsOfInt32 (wrap32 (maxFrom t g i 0 (slotCount t g) 0 + 1)))))),
      NanoRecord.mk r._cols r._rowSize (some (writeAt d (colOffset t._cols i)
        (le32 (bitsOfInt32 (wrap32 (maxFrom t g i 0 (slotCount t g) 0 + 1))))))) := by
  obtain ⟨c, hci, _, hct⟩ := idIndex_some _ _ hid
  have hb := colOffset_bound _ _ _ hci
  rw [typeSize_I c hct] at hb
  have hset := setInt_attached r t._cols d i c (wrap32 (maxFrom t g i 0 (slotCount t g) 0 + 1))
    hc hd hlen hci hct
  have hlen2 : (writeAt d (colOffset t._cols i)
      (le32 (bitsOfInt32 (wrap32 (maxFrom t g i 0 (slotCount t g) 0 + 1))))).length =
      rowBytes t._cols := by
    rw [writeAt_length _ _ _ (by rw [le32_length]; omega), hlen]
  have hw := writeRecordAt_append t g (NanoRecord.mk r._cols r._rowSize
    (some (writeAt d (colOffset t._cols i)
      (le32 (bitsOfInt32 (wrap32 (maxFrom t g i 0 (slotCount t g) 0 + 1))))))) _ hc rfl hlen2 hs
  simp only [save, headerMissing_open t _ (cols_ne_nil_of_idIndex _ _ hid), Run.bind_ok,
    Bool.false_eq_true, if_false, columns_of_cols r _ hc, hid, hv, if_true,
    nextId_eq fuel t g i hid hrs hfuel, hset, Option.getD_some, hw]

end NanoDB

namespace NanoDB
open NanoTable NanoRecord

/-! ### Successive saves -/

theorem maxFrom_seq (t : NanoTable) (g : List Byte) (i : Nat) :
    ∀ (m k : Nat), (∀ j, j < m → intAt t g i (k + j) = ((k + j + 1 : Nat) : Int)) →
      maxFrom t g i k m (k : Int) = ((k + m : Nat) : Int) := by
  intro m
  induction m with
  | zero => intro k _; rfl
  | succ m ih =>
    intro k h
    have h0 := h 0 (by omega)
    rw [Nat.add_zero] at h0
    have hgt : ((k + 1 : Nat) : Int) > (k : Int) := by push_cast; omega
    simp only [maxFrom]
    rw [h0]
    simp only [hgt, if_true]
    rw [ih (k + 1) (fun j hj => by
      have := h (j + 1) (by omega)
      rwa [show k + (j + 1) = k + 1 + j by omega] at this)]
    congr 1; omega

theorem slotCount_aligned (t : NanoTable) (g : List Byte) (m : Nat) (hpos : 0 < t._recordSize)
    (hlen : g.length = t._headerSizeBytes + m * t._recordSize) : slotCount t g = m := by
  unfold slotCount
  rw [hlen, Nat.add_sub_cancel_left, Nat.mul_div_cancel _ hpos]

theorem readAt_append_shift (f g : List Byte) (o n : Nat) :
    readAt (f ++ g) (f.length + o) n = readAt g o n := by
  simp [readAt, List.drop_append]

theorem intAt_append_old (t : NanoTable) (g row : List Byte) (i j : Nat)
    (ho : colOffset t._cols i + 4 ≤ t._recordSize) (hj : SlotIn t g j) :
    intAt t (g ++ row) i j = intAt t g i j := by
  unfold intAt
  rw [readAt_append_left]
  unfold SlotIn at hj
  omega

theorem intAt_append_new (t : NanoTable) (g row : List Byte) (i m : Nat)
    (hlen : g.length = t._headerSizeBytes + m * t._recordSize) :
    intAt t (g ++ row) i m = toInt32 (leNat (readAt row (colOffset t._cols i) 4)) := by
  unfold intAt
  have : slotPos t m = g.length := by rw [hlen]; rfl
  rw [this, readAt_append_shift]

theorem wrap32_small (n : Nat) (h : n < 2147483648) : wrap32 (n : Int) = (n : Int) :=
  toInt32_bitsOfInt32 _ (by omega) (by omega)

/-- The row `save` appends carries the id it has left in the record. -/
theorem written_id (cols : List ColumnDef) (d : List Byte) (i : Nat) (c : ColumnDef) (v : Int)
    (hlen : d.length = rowBytes cols) (hi : cols[i]? = some c) (ht : c.type = TAG_I) :
    toInt32 (leNat (readAt (normRow cols (writeAt d (colOffset cols i) (le32 (bitsOfInt32 v))))
      (colOffset cols i) 4)) = wrap32 v := by
  have hb := colOffset_bound _ _ _ hi
  rw [typeSize_I c ht] at hb
  have hb2 : colOffset cols i + (le32 (bitsOfInt32 v)).length ≤ d.length := by
    rw [le32_length]; omega
  rw [normRow_int_slice cols _ i c (by rw [writeAt_length _ _ _ hb2, hlen]) hi ht]
  have := readAt_writeAt_same d _ (le32 (bitsOfInt32 v)) hb2
  rw [le32_length] at this
  rw [this, leNat_le32_bits]

theorem getInt_written (r : NanoRecord) (cols : List ColumnDef) (d : List Byte) (i : Nat)
    (c : ColumnDef) (v : Int) (hc : r._cols = some cols)
    (hlen : d.length = rowBytes cols) (hi : cols[i]? = some c) (ht : c.type = TAG_I) :
    (NanoRecord.mk r._cols r._rowSize
      (some (writeAt d (colOffset cols i) (le32 (bitsOfInt32 v))))).getInt i = .ok (wrap32 v) := by
  have hb := colOffset_bound _ _ _ hi
  rw [typeSize_I c ht] at hb
  have hb2 : colOffset cols i + (le32 (bitsOfInt32 v)).length ≤ d.length := by
    rw [le32_length]; omega
  rw [getInt_attached (NanoRecord.mk r._cols r._rowSize
    (some (writeAt d (colOffset cols i) (le32 (bitsOfInt32 v))))) cols _ i c hc rfl
    (by rw [writeAt_length _ _ _ hb2, hlen]) hi ht]
  have := readAt_writeAt_same d _ (le32 (bitsOfInt32 v)) hb2
  rw [le32_length] at this
  rw [this, leNat_le32_bits]

/-- One save of a record whose id is 0 on a file whose `m` rows hold the ids
`1 .. m`. -/
theorem save_auto_step (fuel : Nat) (t : NanoTable) (i : Nat)
    (hid : idIndex t._cols = some i) (hrs : t._recordSize = rowBytes t._cols)
    (hs : ShortStrings t._cols) (g : List Byte) (m : Nat) (r : NanoRecord)
    (hlen : g.length = t._headerSizeBytes + m * t._recordSize)
    (hids : ∀ j, j < m → intAt t g i j = ((j + 1 : Nat) : Int))
    (hm : m + 1 < 2147483648) (hatt : Attached t r) (h0 : r.getInt i = .ok 0)
    (hfuel : g.length < fuel) :
    ∃ r1 row, save fuel t (some g) r = .ok (true, t, some (g ++ row), r1) ∧
      row.length = t._recordSize ∧ intAt t (g ++ row) i m = ((m + 1 : Nat) : Int) ∧
      r1.getInt i = .ok ((m + 1 : Nat) : Int) := by
  have hpos := recordSize_pos t i hrs hid
  have ho := idOffset_bound t i hrs hid
  obtain ⟨c, hci, _, hct⟩ := idIndex_some _ _ hid
  obtain ⟨d, hc, hd, hdl⟩ := attached_data t r hatt
  rw [hrs] at hdl
  have hsc := slotCount_aligned t g m hpos hlen
  have hmax : maxFrom t g i 0 m 0 = (m : Int) := by
    have := maxFrom_seq t g i m 0 (fun j hj => by
      rw [Nat.zero_add]; exact hids j hj)
    simpa using this
  have hsave := save_assign fuel t g r i d hid hrs hs hc hd hdl h0 hfuel
  rw [hsc, hmax] at hsave
  have hw : wrap32 ((m : Int) + 1) = ((m + 1 : Nat) : Int) := by
    have := wrap32_small (m + 1) (by omega)
    rwa [Nat.cast_add, Nat.cast_one] at this
  have hw2 : wrap32 (wrap32 ((m : Int) + 1)) = ((m + 1 : Nat) : Int) := by
    rw [hw]; exact wrap32_small (m + 1) (by omega)
  refine ⟨_, _, hsave, ?_, ?_, ?_⟩
  · rw [normRow_length, hrs]
    rw [writeAt_length _ _ _ (by rw [le32_length]; omega), hdl]
  · rw [intAt_append_new t g _ i m hlen, written_id t._cols d i c _ hdl hci hct, hw2]
  · rw [getInt_written r t._cols d i c _ hc hdl hci hct, hw2]

theorem saveAll_seq (fuel : Nat) (t : NanoTable) (i : Nat)
    (hid : idIndex t._cols = some i) (hrs : t._recordSize = rowBytes t._cols)
    (hs : ShortStrings t._cols) :
    ∀ (recs : List NanoRecord) (g : List Byte) (m : Nat),
      g.length = t._headerSizeBytes + m * t._recordSize →
      (∀ j, j < m → intAt t g i j = ((j + 1 : Nat) : Int)) →
      m + recs.length < 2147483648 →
      (∀ r ∈ recs, Attached t r ∧ r.getInt i = .ok 0) →
      g.length + recs.length * t._recordSize < fuel →
      ∃ out g1, saveAll fuel t (some g) recs = .ok (out, t, some g1) ∧
        out.length = recs.length ∧
        g1.length = t._headerSizeBytes + (m + recs.length) * t._recordSize ∧
        (∀ j, j < m + recs.length → intAt t g1 i j = ((j + 1 : Nat) : Int)) ∧
        ∀ n, n < recs.length →
          ∃ r1, out[n]? = some (true, r1) ∧ r1.getInt i = .ok ((m + n + 1 : Nat) : Int) := by
  intro recs
  induction recs with
  | nil =>
    intro g m hlen hids _ _ _
    exact ⟨[], g, rfl, rfl, by simpa using hlen, by simpa using hids,
      fun n hn => absurd hn (by simp)⟩
  | cons r recs ih =>
    intro g m hlen hids hm hrecs hfuel
    have hpos := recordSize_pos t i hrs hid
    have ho := idOffset_bound t i hrs hid
    obtain ⟨hatt, h0⟩ := hrecs r (List.mem_cons_self _ _)
    simp only [List.length_cons] at hm hfuel
    rw [Nat.add_mul] at hfuel
    have hsc := slotCount_aligned t g m hpos hlen
    obtain ⟨r2, row, hsave, hrow, hnew, hget⟩ := save_auto_step fuel t i hid hrs hs g m r hlen hids
      (by omega) hatt h0 (by omega)
    obtain ⟨out, g1, h1, h2, h3, h4, h5⟩ := ih (g ++ row) (m + 1)
      (by rw [List.length_append, hrow, hlen, Nat.add_mul]; omega)
      (fun j hj => by
        by_cases hjm : j = m
        · subst hjm; exact hnew
        · rw [intAt_append_old t g _ i j ho
            ((slotIn_iff t g hpos j).mpr (by rw [hsc]; omega))]
          exact hids j (by omega))
      (by omega)
      (fun r1 hr1 => hrecs r1 (List.mem_cons_of_mem _ hr1))
      (by rw [List.length_append, hrow]; omega)
    refine ⟨(true, r2) :: out, g1, ?_, ?_, ?_, ?_, ?_⟩
    · simp only [saveAll, hsave, Run.bind_ok, h1]
    · simp [h2]
    · rw [h3]; simp only [List.length_cons]; congr 2; omega
    · intro j hj
      exact h4 j (by simp only [List.length_cons] at hj; omega)
    · intro n hn
      cases n with
      | zero => exact ⟨r2, by simp, hget⟩
      | succ n =>
        obtain ⟨r1, hr1, hr2⟩ := h5 n (by simp only [List.length_cons] at hn; omega)
        refine ⟨r1, by simpa using hr1, ?_⟩
        rw [hr2]; congr 2; omega

end NanoDB

namespace NanoDB
open NanoTable NanoRecord

/-! ### Reading a row back -/

theorem save_attached (fuel : Nat) (t : NanoTable) (g : List Byte) (r : NanoRecord) (i : Nat)
    (hid : idIndex t._cols = some i) (hrs : t._recordSize = rowBytes t._cols)
    (hs : ShortStrings t._cols) (hatt : Attached t r) (hfuel : g.length < fuel) :
    ∃ r1 d1, save fuel t (some g) r = .ok (true, t, some (g ++ normRow t._cols d1), r1) ∧
      r1._cols = some t._cols ∧ r1._data = some d1 ∧ d1.length = rowBytes t._cols := by
  obtain ⟨c, hci, _, hct⟩ := idIndex_some _ _ hid
  obtain ⟨d, hc, hd, hdl⟩ := attached_data t r hatt
  rw [hrs] at hdl
  have hg := getInt_attached r t._cols d i c hc hd hdl hci hct
  by_cases hv : toInt32 (leNat (readAt d (colOffset t._cols i) 4)) = 0
  · rw [hv] at hg
    have hb := colOffset_bound _ _ _ hci
    rw [typeSize_I c hct] at hb
    refine ⟨_, _, save_assign fuel t g r i d hid hrs hs hc hd hdl hg hfuel, hc, rfl, ?_⟩
    rw [writeAt_length _ _ _ (by rw [le32_length]; omega), hdl]
  · exact ⟨r, d, save_keep fuel t g r i d _ hid hs hc hd hdl hg hv, hc, hd, hdl⟩

/-- The record `_readRecordAt` starts from: a record without schema is attached
to the schema of the table. -/
theorem out_attached (t : NanoTable) (out : NanoRecord)
    (hrs : t._recordSize = rowBytes t._cols) (hout : out._cols = none ∨ Attached t out) :
    ∃ d, (if !out.columns then NanoRecord.attach t._cols t._recordSize else out)._cols =
        some t._cols ∧
      (if !out.columns then NanoRecord.attach t._cols t._recordSize else out)._data = some d ∧
      d.length = rowBytes t._cols := by
  rcases hout with h | h
  · have : (!out.columns) = true := by simp [NanoRecord.columns, h]
    rw [if_pos this]
    exact ⟨List.replicate t._recordSize 0, rfl, rfl, by simp [hrs]⟩
  · obtain ⟨d, hc, hd, hdl⟩ := attached_data t out h
    rw [columns_of_cols out _ hc]
    simp only [Bool.false_eq_true, if_false]
    exact ⟨d, hc, hd, by rw [hdl, hrs]⟩

theorem readRecordAt_eq (t : NanoTable) (f : List Byte) (off : Nat) (out : NanoRecord)
    (hopen : t._cols ≠ []) (hrs : t._recordSize = rowBytes t._cols)
    (hk : KnownTypes t._cols) (hs : ShortStrings t._cols)
    (hout : out._cols = none ∨ Attached t out) (hoff : off + t._recordSize ≤ f.length) :
    ∃ out1, _readRecordAt t (some f) f off out = .ok (true, t, out1) ∧
      out1._cols = some t._cols ∧
      out1._data = some (normRow t._cols (readAt f off t._recordSize)) := by
  obtain ⟨d, hc, hd, hdl⟩ := out_attached t out hrs hout
  have hno : ¬ (off + t._recordSize > f.length) := by omega
  have hunf : _readRecordAt t (some f) f off out =
      (readLoop f t._cols 0 off
        (if !out.columns then NanoRecord.attach t._cols t._recordSize else out)).bind
        fun q => .ok (q.1, t, q.2) := by
    simp only [_readRecordAt, headerMissing_open t _ hopen, Run.bind_ok, Bool.false_eq_true,
      if_false, hno]
  rw [hunf]
  generalize (if !out.columns then NanoRecord.attach t._cols t._recordSize else out) = st at hc hd
  have hloop := readLoop_eq f t._cols [] [] d off st hc hd rfl hdl hk hs
    (by rw [← hrs]; exact hoff)
  rw [List.length_nil] at hloop
  rw [hloop]
  exact ⟨_, rfl, hc, by rw [hrs]; rfl⟩

theorem read_first (fuel : Nat) (t : NanoTable) (f : List Byte) (v : Int) (i k : Nat)
    (out : NanoRecord) (hid : idIndex t._cols = some i) (hrs : t._recordSize = rowBytes t._cols)
    (hk : KnownTypes t._cols) (hs : ShortStrings t._cols)
    (hout : out._cols = none ∨ Attached t out)
    (hfuel : f.length < fuel) (hin : SlotIn t f k) (hv : intAt t f i k = v)
    (hfirst : ∀ j, j < k → intAt t f i j ≠ v) :
    ∃ out1, read fuel t (some f) v out = .ok (true, t, out1) ∧ out1._cols = some t._cols ∧
      out1._data = some (normRow t._cols (readAt f (slotPos t k) t._recordSize)) := by
  obtain ⟨out1, h1, h2, h3⟩ := readRecordAt_eq t f (slotPos t k) out
    (cols_ne_nil_of_idIndex _ _ hid) hrs hk hs hout hin
  refine ⟨out1, ?_, h2, h3⟩
  simp only [NanoTable.read, findOffsetById_first fuel t f v i k hid hrs hfuel hin hv hfirst,
    Run.bind_ok, readFound, h1]

end NanoDB

namespace NanoDB
open NanoTable NanoRecord

/-! ### Lookup by a column -/

end NanoDB

namespace NanoDB
open NanoTable NanoRecord

theorem readAt_readAt (f : List Byte) (p n o w : Nat) (h : o + w ≤ n) :
    readAt (readAt f p n) o w = readAt f (p + o) w := by
  apply List.ext_getElem?
  intro q
  rw [readAt_getElem?, readAt_getElem?, readAt_getElem?]
  by_cases hq : q < w
  · have : o + q < n := by omega
    simp only [hq, this, if_true]
    congr 1; omega
  · simp only [hq, if_false]

theorem normRow_split (pre post : List ColumnDef) (c : ColumnDef) (a x b : List Byte)
    (ha : a.length = rowBytes pre) (hx : x.length = _typeSize c) :
    normRow (pre ++ c :: post) (a ++ x ++ b) =
      normRow pre a ++ normField c x ++ normRow post b := by
  rw [List.append_assoc, normRow_append pre (c :: post) a (x ++ b) ha]
  have : normRow (c :: post) (x ++ b) = normField c x ++ normRow post b := by
    simp only [normRow]
    rw [List.take_left' hx, List.drop_left' hx]
  rw [this, List.append_assoc]

/-- What `readFound` returns on an opened table. -/
theorem readFound_spec (t : NanoTable) (f : List Byte) (o : Option Nat) (out : NanoRecord)
    (hopen : t._cols ≠ []) (hrs : t._recordSize = rowBytes t._cols)
    (hk : KnownTypes t._cols) (hs : ShortStrings t._cols)
    (hout : out._cols = none ∨ Attached t out)
    (ho : ∀ p, o = some p → p + t._recordSize ≤ f.length) :
    (o = none ∧ readFound t (some f) o out = .ok (false, t, out)) ∨
    ∃ p out1, o = some p ∧ readFound t (some f) o out = .ok (true, t, out1) ∧
      out1._cols = some t._cols ∧
      out1._data = some (normRow t._cols (readAt f p t._recordSize)) := by
  cases o with
  | none => left; exact ⟨rfl, rfl⟩
  | some p =>
    right
    obtain ⟨out1, h1, h2, h3⟩ := readRecordAt_eq t f p out hopen hrs hk hs hout (ho p rfl)
    exact ⟨p, out1, rfl, by simp only [readFound, h1], h2, h3⟩

theorem findOffsetByColString_col (fuel : Nat) (t : NanoTable) (f : List Byte) (col val : Str)
    (idx : Nat) (c : ColumnDef) (hopen : t._cols ≠ []) (hci : colIndex t._cols col = some idx)
    (hc : t._cols[idx]? = some c) (ht : c.type = TAG_S) :
    _findOffsetByColString fuel t (some f) col val =
      (findStringLoop t f idx c val fuel (slotPos t 0)).bind fun o => .ok (o, t) := by
  simp only [_findOffsetByColString, lazyLoad_open t _ hopen, Run.bind_ok, slotPos_zero, hci, hc,
    ht, ne_eq, not_true_eq_false, if_false]

theorem findOffsetByColString_nocol (fuel : Nat) (t : NanoTable) (f : List Byte) (col val : Str)
    (hopen : t._cols ≠ [])
    (h : ∀ idx c, colIndex t._cols col = some idx → t._cols[idx]? = some c → c.type ≠ TAG_S) :
    _findOffsetByColString fuel t (some f) col val = .ok (none, t) := by
  cases hci : colIndex t._cols col with
  | none => simp only [_findOffsetByColString, lazyLoad_open t _ hopen, Run.bind_ok, hci]
  | some idx =>
    cases hc : t._cols[idx]? with
    | none => simp only [_findOffsetByColString, lazyLoad_open t _ hopen, Run.bind_ok, hci, hc]
    | some c =>
      have := h idx c hci hc
      simp only [_findOffsetByColString, lazyLoad_open t _ hopen, Run.bind_ok, hci, hc, this, ne_eq,
        not_false_eq_true, if_true]

theorem findOffsetByColInt_col (fuel : Nat) (t : NanoTable) (f : List Byte) (col : Str)
    (val : Int) (idx : Nat) (c : ColumnDef) (hopen : t._cols ≠ [])
    (hci : colIndex t._cols col = some idx) (hc : t._cols[idx]? = some c)
    (ht : c.type = TAG_I) :
    _findOffsetByColInt fuel t (some f) col val =
      (findIntLoop t f idx val fuel (slotPos t 0)).bind fun o => .ok (o, t) := by
  simp only [_findOffsetByColInt, lazyLoad_open t _ hopen, Run.bind_ok, slotPos_zero, hci, hc,
    ht, ne_eq, not_true_eq_false, if_false]

theorem findOffsetByColInt_nocol (fuel : Nat) (t : NanoTable) (f : List Byte) (col : Str)
    (val : Int) (hopen : t._cols ≠ [])
    (h : ∀ idx c, colIndex t._cols col = some idx → t._cols[idx]? = some c → c.type ≠ TAG_I) :
    _findOffsetByColInt fuel t (some f) col val = .ok (none, t) := by
  cases hci : colIndex t._cols col with
  | none => simp only [_findOffsetByColInt, lazyLoad_open t _ hopen, Run.bind_ok, hci]
  | some idx =>
    cases hc : t._cols[idx]? with
    | none => simp only [_findOffsetByColInt, lazyLoad_open t _ hopen, Run.bind_ok, hci, hc]
    | some c =>
      have := h idx c hci hc
      simp only [_findOffsetByColInt, lazyLoad_open t _ hopen, Run.bind_ok, hci, hc, this, ne_eq,
        not_false_eq_true, if_true]

/-- Either the name denotes a column of the wanted type, or the lookup has no
column to scan. -/
theorem typed_col_cases (cols : List ColumnDef) (col : Str) (tag : Byte) :
    (∃ idx c, colIndex cols col = some idx ∧ cols[idx]? = some c ∧ c.type = tag) ∨
    (∀ idx c, colIndex cols col = some idx → cols[idx]? = some c → c.type ≠ tag) := by
  by_cases h : ∃ idx c, colIndex cols col = some idx ∧ cols[idx]? = some c ∧ c.type = tag
  · left; exact h
  · right
    intro idx c h1 h2 h3
    exact h ⟨idx, c, h1, h2, h3⟩

end NanoDB

namespace NanoDB
open NanoTable NanoRecord

end NanoDB

namespace NanoDB
open NanoTable NanoRecord

end NanoDB

namespace NanoDB
open NanoTable NanoRecord

/-- C2: on a newly created table (the file holds the header and no row) whose
schema has an Int32 `id` column, successive calls of `save` on records whose id
field is 0 return true, the `n`-th call sets the id of its record to `n` and the
`n`-th row of the file holds the id `n`; and on any file, `save` on a record
whose id field is not 0 returns true, leaves the record as it is and appends a
row whose id field holds that id. -/
theorem auto_increment (fuel : Nat) (t : NanoTable) (f : List Byte) (recs : List NanoRecord)
    (i : Nat) (hid : idIndex t._cols = some i) (hrs : t._recordSize = rowBytes t._cols)
    (hs : ShortStrings t._cols) (hfresh : f.length = t._headerSizeBytes)
    (hrecs : ∀ r ∈ recs, Attached t r ∧ r.getInt i = .ok 0)
    (hn : recs.length < 2147483648)
    (hfuel : f.length + recs.length * t._recordSize < fuel) :
    (∃ out f1, saveAll fuel t (some f) recs = .ok (out, t, some f1) ∧
      out.length = recs.length ∧
      f1.length = f.length + recs.length * t._recordSize ∧
      ∀ n, n < recs.length →
        ∃ r1, out[n]? = some (true, r1) ∧ r1.getInt i = .ok ((n + 1 : Nat) : Int) ∧
          intAt t f1 i n = ((n + 1 : Nat) : Int)) ∧
    (∀ (g : List Byte) (r : NanoRecord) (v : Int), Attached t r → r.getInt i = .ok v → v ≠ 0 →
      ∃ row, save fuel t (some g) r = .ok (true, t, some (g ++ row), r) ∧
        row.length = t._recordSize ∧
        toInt32 (leNat (readAt (g ++ row) (g.length + colOffset t._cols i) 4)) = v) := by
  constructor
  · obtain ⟨out, f1, h1, h2, h3, h4, h5⟩ := saveAll_seq fuel t i hid hrs hs recs f 0
      (by simpa using hfresh) (fun j hj => absurd hj (by omega)) (by omega) hrecs hfuel
    refine ⟨out, f1, h1, h2, ?_, fun n hn => ?_⟩
    · rw [h3, hfresh, Nat.zero_add]
    · obtain ⟨r1, hr1, hr2⟩ := h5 n hn
      rw [Nat.zero_add] at hr2
      exact ⟨r1, hr1, hr2, h4 n (by omega)⟩
  · intro g r v hatt hv hv0
    obtain ⟨c, hci, _, hct⟩ := idIndex_some _ _ hid
    obtain ⟨d, hc, hd, hdl⟩ := attached_data t r hatt
    rw [hrs] at hdl
    refine ⟨normRow t._cols d, save_keep fuel t g r i d v hid hs hc hd hdl hv hv0, ?_, ?_⟩
    · rw [normRow_length _ _ hdl, hrs]
    · rw [readAt_append_shift, normRow_int_slice t._cols d i c hdl hci hct]
      have := getInt_attached r t._cols d i c hc hd hdl hci hct
      rw [hv] at this
      exact (Run.ok.inj this).symm

/-- Sample data for C2: `begin` creates the sample table; two records are saved
with id 0 on it, and a record with the preset id 9. -/
theorem auto_increment_witness :
    begin NanoTable.new none (some exCols) = .ok (true, exTable, some exHeader) ∧
    (∃ out f1, saveAll 29 exTable (some exHeader) [exRec 0 5, exRec 0 6] =
        .ok (out, exTable, some f1) ∧
      out.length = 2 ∧ f1.length = exHeader.length + 2 * 8 ∧
      ∀ n, n < 2 →
        ∃ r1, out[n]? = some (true, r1) ∧ r1.getInt 0 = .ok ((n + 1 : Nat) : Int) ∧
          intAt exTable f1 0 n = ((n + 1 : Nat) : Int)) ∧
    ∃ row, save 29 exTable (some exHeader) (exRec 9 5) =
        .ok (true, exTable, some (exHeader ++ row), exRec 9 5) ∧
      row.length = 8 ∧
      toInt32 (leNat (readAt (exHeader ++ row) (exHeader.length + colOffset exCols 0) 4)) = 9 := by
  have h := auto_increment 29 exTable exHeader [exRec 0 5, exRec 0 6] 0 (by decide) (by decide)
    (by decide) (by decide) (by decide) (by decide) (by decide)
  exact ⟨by decide, h.1, h.2 exHeader (exRec 9 5) 9 (by decide) (by decide) (by decide)⟩

end NanoDB

namespace NanoDB
open NanoTable NanoRecord

/-- C3: `update(record)` returns false and leaves the file as it is when the
schema of the opened table has no Int32 column named `id`, or the id field of
the record is 0, or no row slot of the file has an id field equal to the id of
the record. -/
theorem update_rejects (fuel : Nat) (t : NanoTable) (disk : Disk) (rec : NanoRecord)
    (h : (t._cols ≠ [] ∧ idIndex t._cols = none) ∨
      (∃ i, idIndex t._cols = some i ∧ rec.getInt i = .ok 0) ∨
      (∃ i v, idIndex t._cols = some i ∧ rec.getInt i = .ok v ∧
        t._recordSize = rowBytes t._cols ∧ size disk < fuel ∧
        ∀ f, disk = some f → ∀ k, SlotIn t f k → intAt t f i k ≠ v)) :
    update fuel t disk rec = .ok (false, t, disk) := by
  rcases h with ⟨h1, h2⟩ | ⟨i, h1, h2⟩ | ⟨i, v, h1, h2, h3, h4, h5⟩
  · exact update_false_of_noid fuel t disk rec h1 h2
  · exact update_false_of_zero fuel t disk rec i h1 h2
  · exact update_false_of_nomatch fuel t disk rec i v h1 h2 h3 h4 h5

theorem exTable_slot (f : List Byte) (k : Nat) (h : SlotIn exTable (exHeader ++ f) k) :
    k * 8 + 8 ≤ f.length := by
  have : slotPos exTable k = 12 + k * 8 := rfl
  unfold SlotIn at h
  rw [this] at h
  have : exTable._recordSize = 8 := rfl
  rw [this] at h
  simp [exHeader] at h
  omega

/-- Sample data for C3: a schema without id column, a record with id 0, and a
record with id 2 on a file whose only row has id 1. -/
theorem update_rejects_witness :
    update 5 { _cols := [{ name := [118], type := TAG_I, size := 0 }], _recordSize := 4 }
        (some [1, 1, 118, 73, 0, 0, 7, 0, 0, 0]) (exRec 7 1) =
      .ok (false, { _cols := [{ name := [118], type := TAG_I, size := 0 }], _recordSize := 4 },
        some [1, 1, 118, 73, 0, 0, 7, 0, 0, 0]) ∧
    update 0 exTable (some (exHeader ++ exRow 1 5)) (exRec 0 9) =
      .ok (false, exTable, some (exHeader ++ exRow 1 5)) ∧
    update 21 exTable (some (exHeader ++ exRow 1 5)) (exRec 2 9) =
      .ok (false, exTable, some (exHeader ++ exRow 1 5)) := by
  refine ⟨update_rejects _ _ _ _ (Or.inl ⟨by decide, by decide⟩),
    update_rejects _ _ _ _ (Or.inr (Or.inl ⟨0, by decide, by decide⟩)),
    update_rejects _ _ _ _ (Or.inr (Or.inr ⟨0, 2, by decide, by decide, by decide, by decide, ?_⟩))⟩
  intro f hf k hk
  cases hf
  have := exTable_slot _ k hk
  have hk0 : k = 0 := by simp [exRow, le32] at this; omega
  subst hk0
  decide

end NanoDB

namespace NanoDB
open NanoTable NanoRecord

end NanoDB

namespace NanoDB
open NanoTable NanoRecord

/-- C5, as the claim states it, fails on sample data: after two saves with the
same preset id 7, `drop(7)` returns true and `read(7)` still returns true; on a
file holding a tombstone, `drop(0)` returns true, `records()` stays 1 and
`read(0)` returns true; and on the table `begin` leaves for the schema
`id : Int32`, `s : FixedString(65535)`, whose cached row size is 3, with a file
of seven bytes after the header, `drop(33554433)` returns true and `records()`
goes from 2 to 0, the four bytes zeroed reaching into the next row slot. -/
theorem drop_tombstone_counterexample :
    ((begin NanoTable.new none (some exCols)).bind fun b =>
      (save 29 b.2.1 b.2.2 (exRec 7 5)).bind fun s1 =>
        (save 29 s1.2.1 s1.2.2.1 (exRec 7 6)).bind fun s2 =>
          (drop 29 s2.2.1 s2.2.2.1 7).bind fun d =>
            (read 29 d.2.1 d.2.2 7 NanoRecord.new).bind fun r =>
              .ok (b.1, s1.1, s2.1, d.1, r.1)) = .ok (true, true, true, true, true) ∧
    ((drop 29 exTable (some (exHeader ++ exRow 0 5 ++ exRow 7 6)) 0).bind fun d =>
      (records 29 exTable (some (exHeader ++ exRow 0 5 ++ exRow 7 6))).bind fun n0 =>
        (records 29 d.2.1 d.2.2).bind fun n1 =>
          (read 29 d.2.1 d.2.2 0 NanoRecord.new).bind fun r =>
            .ok (d.1, n0.1, n1.1, r.1)) = .ok (true, 1, 1, true) ∧
    begin NanoTable.new none (some wrapCols) = .ok (true, wrapTable, some wrapHeader) ∧
    ((drop 29 wrapTable (some (wrapHeader ++ [1, 0, 0, 2, 0, 0, 0])) 33554433).bind fun d =>
      (records 29 wrapTable (some (wrapHeader ++ [1, 0, 0, 2, 0, 0, 0]))).bind fun n0 =>
        (records 29 d.2.1 d.2.2).bind fun n1 =>
          .ok (d.1, d.2.2, n0.1, n1.1)) =
      .ok (true, some (wrapHeader ++ [0, 0, 0, 0, 0, 0, 0]), 2, 0) :=
  ⟨by decide, by decide, by decide, by decide⟩

/-- C5, amended: on a table with an Int32 `id` column whose cached row size is
the sum of the column widths, and a file shorter than `2^32` bytes, if
`drop(id)` returns true for an `id` other than 0, then `records()` is
afterwards exactly one less than before; and when no two row slots held that
id, `read(id, out)` returns false afterwards. -/
theorem drop_tombstone (fuel : Nat) (t : NanoTable) (f f1 : List Byte) (id : Int) (i : Nat)
    (out : NanoRecord) (hid : idIndex t._cols = some i)
    (hrs : t._recordSize = rowBytes t._cols) (hfuel : f.length < fuel)
    (hsize : f.length < 4294967296) (hne : id ≠ 0)
    (hdrop : drop fuel t (some f) id = .ok (true, t, some f1)) :
    (∃ n, records fuel t (some f) = .ok (n + 1, t) ∧ records fuel t (some f1) = .ok (n, t)) ∧
    ((∀ j k, SlotIn t f j → SlotIn t f k → intAt t f i j = id → intAt t f i k = id → j = k) →
      read fuel t (some f1) id out = .ok (false, t, out)) := by
  obtain ⟨f0, k, hd, _, hin, hv, _, hb, hf1⟩ := drop_sound fuel t (some f) id i hid t (some f1) hdrop
  cases hd
  cases hf1
  have hpos := recordSize_pos t i hrs hid
  have ho := idOffset_bound t i hrs hid
  have hb' : slotPos t k + colOffset t._cols i + (le32 0).length ≤ f.length := hb
  have hlen : (writeAt f (slotPos t k + colOffset t._cols i) (le32 0)).length = f.length :=
    writeAt_length _ _ _ hb'
  have hz : intAt t (writeAt f (slotPos t k + colOffset t._cols i) (le32 0)) i k = 0 := by
    unfold intAt
    have := readAt_writeAt_same f _ (le32 0) hb'
    rw [show (le32 0).length = 4 from rfl] at this
    rw [this]; decide
  have hrest : ∀ j, j ≠ k →
      intAt t f i j = intAt t (writeAt f (slotPos t k + colOffset t._cols i) (le32 0)) i j := by
    intro j hj
    unfold intAt
    rw [readAt_writeAt_other f _ (le32 0) hb' _ 4]
    have := slotPos_disjoint t j k (colOffset t._cols i) hj ho
    rw [show (le32 0).length = 4 from rfl]
    omega
  have hsc : slotCount t (writeAt f (slotPos t k + colOffset t._cols i) (le32 0)) =
      slotCount t f := by
    unfold slotCount; rw [hlen]
  have hk : k < slotCount t f := (slotIn_iff t f hpos k).mp hin
  have hcount := liveCount_zeroed t f _ i k (by rw [hv]; exact hne) hz hrest (slotCount t f) 0
    (Nat.zero_le _) (by omega)
  have hle := liveCount_le t f i (slotCount t f) 0
  have hsl := slotCount_le t f
  constructor
  · refine ⟨liveCount t (writeAt f (slotPos t k + colOffset t._cols i) (le32 0)) i 0
      (slotCount t f), ?_, ?_⟩
    · rw [records_eq fuel t f i hid hrs hfuel, Nat.mod_eq_of_lt (by omega), hcount]
    · rw [records_eq fuel t _ i hid hrs (by rw [hlen]; exact hfuel), hsc,
        Nat.mod_eq_of_lt (by omega)]
  · intro huniq
    have hnone := findOffsetById_none fuel t
      (some (writeAt f (slotPos t k + colOffset t._cols i) (le32 0))) id i hid hrs
      (by simp only [size]; rw [hlen]; exact hfuel)
      (by
        intro g hg j hj
        cases hg
        by_cases hjk : j = k
        · subst hjk; rw [hz]; exact fun h => hne h.symm
        · rw [← hrest j hjk]
          intro hje
          have hj' : SlotIn t f j := by
            unfold SlotIn at hj ⊢; rw [hlen] at hj; exact hj
          exact hjk (huniq j k hj' hin hje hv))
    simp only [NanoTable.read, hnone, Run.bind_ok, readFound]

/-- Sample data for C5: rows with ids 1 and 2, then `drop(1)`. -/
theorem drop_tombstone_witness :
    (∃ n, records 29 exTable (some (exHeader ++ exRow 1 5 ++ exRow 2 6)) = .ok (n + 1, exTable) ∧
      records 29 exTable (some (exHeader ++ exRow 0 5 ++ exRow 2 6)) = .ok (n, exTable)) ∧
    ((∀ j k, SlotIn exTable (exHeader ++ exRow 1 5 ++ exRow 2 6) j →
        SlotIn exTable (exHeader ++ exRow 1 5 ++ exRow 2 6) k →
        intAt exTable (exHeader ++ exRow 1 5 ++ exRow 2 6) 0 j = 1 →
        intAt exTable (exHeader ++ exRow 1 5 ++ exRow 2 6) 0 k = 1 → j = k) →
      read 29 exTable (some (exHeader ++ exRow 0 5 ++ exRow 2 6)) 1 NanoRecord.new =
        .ok (false, exTable, NanoRecord.new)) :=
  drop_tombstone 29 exTable (exHeader ++ exRow 1 5 ++ exRow 2 6)
    (exHeader ++ exRow 0 5 ++ exRow 2 6) 1 0 NanoRecord.new (by decide) (by decide) (by decide)
    (by decide) (by decide) (by decide)

end NanoDB

namespace NanoDB
open NanoTable NanoRecord

end NanoDB

namespace NanoDB
open NanoTable NanoRecord

/-- C7: on a table with an Int32 `id` column, `drop(id)` returns false and
leaves the file as it is when no row slot has an id field equal to `id`; when a
slot has, it returns true, the file keeps its length, the four bytes of the id
field of the first such slot are 0 afterwards and every other byte of the file
is the same as before; and whenever it returns true it has done exactly that. -/
theorem drop_frame (fuel : Nat) (t : NanoTable) (disk : Disk) (id : Int) (i : Nat)
    (hid : idIndex t._cols = some i) (hrs : t._recordSize = rowBytes t._cols)
    (hfuel : size disk < fuel) :
    ((∀ f, disk = some f → ∀ k, SlotIn t f k → intAt t f i k ≠ id) →
      drop fuel t disk id = .ok (false, t, disk)) ∧
    (∀ f k, disk = some f → SlotIn t f k → intAt t f i k = id →
      (∀ j, j < k → intAt t f i j ≠ id) →
      ∃ f1, drop fuel t disk id = .ok (true, t, some f1) ∧ f1.length = f.length ∧
        readAt f1 (slotPos t k + colOffset t._cols i) 4 = [0, 0, 0, 0] ∧
        ∀ p, p < slotPos t k + colOffset t._cols i ∨ slotPos t k + colOffset t._cols i + 4 ≤ p →
          f1[p]? = f[p]?) ∧
    (∀ t1 disk1, drop fuel t disk id = .ok (true, t1, disk1) →
      ∃ f f1 k, disk = some f ∧ disk1 = some f1 ∧ t1 = t ∧ SlotIn t f k ∧ intAt t f i k = id ∧
        (∀ j, j < k → intAt t f i j ≠ id) ∧ f1.length = f.length ∧
        readAt f1 (slotPos t k + colOffset t._cols i) 4 = [0, 0, 0, 0] ∧
        ∀ p, p < slotPos t k + colOffset t._cols i ∨ slotPos t k + colOffset t._cols i + 4 ≤ p →
          f1[p]? = f[p]?) := by
  have key : ∀ f k, disk = some f → SlotIn t f k → intAt t f i k = id →
      (∀ j, j < k → intAt t f i j ≠ id) →
      ∃ f1, drop fuel t disk id = .ok (true, t, some f1) ∧ f1.length = f.length ∧
        readAt f1 (slotPos t k + colOffset t._cols i) 4 = [0, 0, 0, 0] ∧
        ∀ p, p < slotPos t k + colOffset t._cols i ∨ slotPos t k + colOffset t._cols i + 4 ≤ p →
          f1[p]? = f[p]? := by
    intro f k hd hin hv hfirst
    subst hd
    have hb : slotPos t k + colOffset t._cols i + (le32 0).length ≤ f.length :=
      idField_in t f i k hid hrs hin
    refine ⟨_, drop_true fuel t f id i k hid hrs (by simpa [size] using hfuel) hin hv hfirst,
      writeAt_length _ _ _ hb, ?_, fun p hp => writeAt_frame _ _ _ hb p hp⟩
    have := readAt_writeAt_same f _ (le32 0) hb
    exact this
  refine ⟨drop_false fuel t disk id i hid hrs hfuel, key, ?_⟩
  intro t1 disk1 h
  obtain ⟨f, k, hd, ht, hin, hv, hfirst, _, _⟩ := drop_sound fuel t disk id i hid t1 disk1 h
  obtain ⟨f1, h1, h2, h3, h4⟩ := key f k hd hin hv hfirst
  rw [h1] at h
  simp only [Run.ok.injEq, Prod.mk.injEq, true_and] at h
  exact ⟨f, f1, k, hd, h.2.symm, ht, hin, hv, hfirst, h2, h3, h4⟩

/-- Sample data for C7: no slot holds id 3; the second slot is the first one
holding id 2. -/
theorem drop_frame_witness :
    drop 29 exTable (some (exHeader ++ exRow 1 5 ++ exRow 2 6)) 3 =
      .ok (false, exTable, some (exHeader ++ exRow 1 5 ++ exRow 2 6)) ∧
    ∃ f1, drop 29 exTable (some (exHeader ++ exRow 1 5 ++ exRow 2 6)) 2 =
        .ok (true, exTable, some f1) ∧
      f1.length = (exHeader ++ exRow 1 5 ++ exRow 2 6).length ∧
      readAt f1 (slotPos exTable 1 + colOffset exTable._cols 0) 4 = [0, 0, 0, 0] ∧
      ∀ p, p < slotPos exTable 1 + colOffset exTable._cols 0 ∨
          slotPos exTable 1 + colOffset exTable._cols 0 + 4 ≤ p →
        f1[p]? = (exHeader ++ exRow 1 5 ++ exRow 2 6)[p]? := by
  have h := drop_frame 29 exTable (some (exHeader ++ exRow 1 5 ++ exRow 2 6))
  refine ⟨(h 3 0 (by decide) (by decide) (by decide)).1 ?_,
    (h 2 0 (by decide) (by decide) (by decide)).2.1 _ 1 rfl (by decide) (by decide) ?_⟩
  · intro f hf k hk
    cases hf
    rw [List.append_assoc] at hk
    have := exTable_slot _ k hk
    have hk0 : k = 0 ∨ k = 1 := by simp [exRow, le32] at this; omega
    rcases hk0 with rfl | rfl <;> decide
  · intro j hj
    have hj0 : j = 0 := by omega
    subst hj0
    decide

end NanoDB

namespace NanoDB
open NanoTable NanoRecord

/-- C8, as the claim states it, fails for a column as wide as the scratch
buffer: on a record with one FixedString column of width 128, after
`setString` of a string of 128 bytes `getString` does not return the string: it
builds a `String` from a `char` array that holds no terminator. -/
theorem setString_getString_counterexample :
    ((NanoRecord.attach [{ name := [115], type := TAG_S, size := 128 }] 128).setString 0
      (List.replicate 128 97)).bind (fun r => r.getString 0) = Run.ub := by
  decide

/-- C8, amended: for an attached record and a FixedString column `i` of
declared width `w` below `NANO_MAX_STR_LEN`, and a string `s` without zero
byte, after `setString(i, s)` the `w` bytes of the field are the first
`min(w, length of s)` bytes of `s` followed by zero bytes, and `getString(i)`
returns the first `w` bytes of `s`, which is `s` itself when `s` is no longer
than `w`. -/
theorem setString_getString (r : NanoRecord) (cols : List ColumnDef) (d : List Byte) (i : Nat)
    (c : ColumnDef) (s : Str) (hc : r._cols = some cols) (hd : r._data = some d)
    (hlen : d.length = rowBytes cols) (hi : cols[i]? = some c) (ht : c.type = TAG_S)
    (hw : c.size < NANO_MAX_STR_LEN) (hs : ∀ b ∈ s, b ≠ 0) :
    ∃ r1 d1, r.setString i s = .ok r1 ∧ r1._cols = some cols ∧ r1._data = some d1 ∧
      peek d1 (r1.offsetOf i) c.size =
        .ok (s.take (min c.size s.length) ++ List.replicate (c.size - min c.size s.length) 0) ∧
      r1.getString i = .ok (s.take c.size) ∧
      (s.length ≤ c.size → r1.getString i = .ok s) := by
  obtain ⟨pre, post, hsplit, hpre⟩ := split_at cols i c hi
  subst hsplit
  obtain ⟨a, x, b, hdx, ha, hx, _⟩ := split_row pre c post d hlen
  subst hdx
  rw [typeSize_S c ht] at hx
  subst hpre
  have hset := setString_split r pre post c a x b hc hd ha hx s
  have htake : s.take (min c.size s.length) = s.take c.size := by
    rcases Nat.le_total c.size s.length with h | h
    · rw [Nat.min_eq_left h]
    · rw [Nat.min_eq_right h, List.take_of_length_le (Nat.le_refl _), List.take_of_length_le h]
  have hfl : (s.take c.size ++ List.replicate (c.size - min c.size s.length) 0).length =
      c.size := by
    simp
  have hget : ∀ r1 : NanoRecord, r1._cols = some (pre ++ c :: post) →
      r1._data = some (a ++ (s.take c.size ++
        List.replicate (c.size - min c.size s.length) 0) ++ b) →
      r1.getString pre.length = .ok (s.take c.size) := by
    intro r1 h1 h2
    rw [getString_split r1 pre post c a _ b h1 h2 ha hfl hw, upToNul_pad,
      upToNul_all _ (fun y hy => hs y (List.mem_of_mem_take hy))]
  have hc1 : (NanoRecord.mk r._cols r._rowSize (some (a ++ (s.take c.size ++
      List.replicate (c.size - min c.size s.length) 0) ++ b)))._cols = some (pre ++ c :: post) := hc
  refine ⟨_, _, hset, hc1, rfl, ?_, hget _ hc1 rfl, fun hle => ?_⟩
  · rw [offsetOf_split _ pre post c hc1, ← ha, htake]
    have := peek_mid a (s.take c.size ++ List.replicate (c.size - min c.size s.length) 0) b
    rw [hfl] at this
    exact this
  · rw [hget _ hc1 rfl, List.take_of_length_le hle]

/-- Sample data for C8: width 4, the strings `abcdef` and `ab`. -/
theorem setString_getString_witness :
    (∃ r1 d1, (NanoRecord.attach [{ name := [115], type := TAG_S, size := 4 }] 4).setString 0
          [97, 98, 99, 100, 101, 102] = .ok r1 ∧
        r1._cols = some [{ name := [115], type := TAG_S, size := 4 }] ∧ r1._data = some d1 ∧
        peek d1 (r1.offsetOf 0) 4 = .ok [97, 98, 99, 100] ∧
        r1.getString 0 = .ok [97, 98, 99, 100]) ∧
    (∃ r1 d1, (NanoRecord.attach [{ name := [115], type := TAG_S, size := 4 }] 4).setString 0
          [97, 98] = .ok r1 ∧
        r1._cols = some [{ name := [115], type := TAG_S, size := 4 }] ∧ r1._data = some d1 ∧
        peek d1 (r1.offsetOf 0) 4 = .ok [97, 98, 0, 0] ∧
        r1.getString 0 = .ok [97, 98]) := by
  constructor
  · obtain ⟨r1, d1, h1, h2, h3, h4, h5, _⟩ :=
      setString_getString (NanoRecord.attach [{ name := [115], type := TAG_S, size := 4 }] 4)
        [{ name := [115], type := TAG_S, size := 4 }] (List.replicate 4 0) 0
        { name := [115], type := TAG_S, size := 4 } [97, 98, 99, 100, 101, 102]
        rfl rfl (by decide) (by decide) (by decide) (by decide) (by decide)
    exact ⟨r1, d1, h1, h2, h3, h4, h5⟩
  · obtain ⟨r1, d1, h1, h2, h3, h4, _, h6⟩ :=
      setString_getString (NanoRecord.attach [{ name := [115], type := TAG_S, size := 4 }] 4)
        [{ name := [115], type := TAG_S, size := 4 }] (List.replicate 4 0) 0
        { name := [115], type := TAG_S, size := 4 } [97, 98]
        rfl rfl (by decide) (by decide) (by decide) (by decide) (by decide)
    exact ⟨r1, d1, h1, h2, h3, h4, h6 (by decide)⟩

/-- C9: when the file exists, `begin` leaves it as it is and its result does
not depend on the schema passed; when it returns true the table holds the
columns `_loadHeader` decodes from the header of the file, and the row size
computed from them.  When the file does not exist and no schema is passed (a
null pointer or zero columns), `begin` returns false and creates no file. -/
theorem begin_existing_file (t : NanoTable) (f : List Byte)
    (cols cols1 : Option (List ColumnDef)) :
    begin t (some f) cols = begin t (some f) cols1 ∧
    (∀ b t1 d1, begin t (some f) cols = .ok (b, t1, d1) →
      d1 = some f ∧ _loadHeader t (some f) = .ok (b, t1) ∧
      (b = true → ∃ cc rest, f = cc :: rest ∧ loadCols cc.val rest = .ok t1._cols ∧
        t1._recordSize = recordSizeOf t1._cols)) ∧
    begin t none none = .ok (false, t, none) ∧
    begin t none (some []) = .ok (false, t, none) := by
  refine ⟨rfl, ?_, rfl, rfl⟩
  intro b t1 d1 h
  have hb : begin t (some f) cols = (_loadHeader t (some f)).bind fun r => .ok (r.1, r.2, some f) :=
    rfl
  rw [hb] at h
  cases hl : _loadHeader t (some f) with
  | ub => rw [hl] at h; cases h
  | fuel => rw [hl] at h; cases h
  | ok r =>
    rw [hl] at h
    simp only [Run.bind_ok, Run.ok.injEq, Prod.mk.injEq] at h
    obtain ⟨h1, h2, h3⟩ := h
    refine ⟨h3.symm, by rw [← h1, ← h2], fun hbt => ?_⟩
    subst h1; subst h2
    cases f with
    | nil =>
      simp only [_loadHeader] at hl
      cases hl
      cases hbt
    | cons cc rest =>
      refine ⟨cc, rest, rfl, ?_⟩
      simp only [_loadHeader] at hl
      by_cases hcc : cc.val > NANO_MAX_COLS
      · simp only [hcc, if_true] at hl; cases hl
      · simp only [hcc, if_false] at hl
        cases hp : loadCols cc.val rest with
        | ub => rw [hp] at hl; cases hl
        | fuel => rw [hp] at hl; cases hl
        | ok cs =>
          rw [hp] at hl
          simp only [Run.bind_ok, Run.ok.injEq] at hl
          subst hl
          exact ⟨rfl, rfl⟩

/-- Sample data for C9: the file holds the header of the sample schema and one
row, the schema passed has one column. -/
theorem begin_existing_file_witness :
    begin NanoTable.new (some (exHeader ++ exRow 1 5))
        (some [{ name := [115], type := TAG_S, size := 4 }]) =
      .ok (true, exTable, some (exHeader ++ exRow 1 5)) ∧
    ∃ cc rest, exHeader ++ exRow 1 5 = cc :: rest ∧ loadCols cc.val rest = .ok exTable._cols ∧
      exTable._recordSize = recordSizeOf exTable._cols := by
  have h := (begin_existing_file NanoTable.new (exHeader ++ exRow 1 5)
    (some [{ name := [115], type := TAG_S, size := 4 }]) none).2.1 true exTable
    (some (exHeader ++ exRow 1 5)) (by decide)
  exact ⟨by decide, h.2.2 rfl⟩

/-- C10, failing input: `begin` on a file that does not exist, with a schema
of 17 columns, does not return false: it writes the header of 17 columns and
`_loadHeader` then fills 17 entries of the array `_cols`, which has
`NANO_MAX_COLS` = 16. -/
theorem begin_seventeen_columns :
    begin NanoTable.new none (some (List.replicate 17 { name := [99], type := TAG_B, size := 0 })) =
      Run.ub ∧
    _writeHeader NanoTable.new (List.replicate 17 { name := [99], type := TAG_B, size := 0 }) =
      Run.ub ∧
    (byteOf (List.replicate 17 ({ name := [99], type := TAG_B, size := 0 } : ColumnDef)).length ::
      columnsBytes (List.replicate 17 { name := [99], type := TAG_B, size := 0 })).length = 86 := by
  refine ⟨by decide, by decide, by decide⟩

end NanoDB

namespace NanoDB
open NanoTable NanoRecord

/-! ### Writing and loading a header -/

theorem byteOf_small (n : Nat) (h : n < 256) : (byteOf n).val = n := by
  simp [byteOf, Nat.mod_eq_of_lt h]

theorem leNat_le16 (s : Nat) : leNat (le16 s) = s % 65536 := by
  simp only [le16, leNat, byteOf]
  omega

theorem loadCols_step (n : Nat) (x : List Byte) (ty b0 b1 : Byte) (tail : List Byte)
    (hx : x.length < 256) :
    loadCols (n + 1) (byteOf x.length :: (x ++ ty :: b0 :: b1 :: tail)) =
      (loadCols n tail).bind fun rest =>
        .ok ({ name := upToNul x, type := ty, size := leNat [b0, b1] } :: rest) := by
  have hv : (byteOf x.length).val = x.length := byteOf_small _ hx
  have h1 : ¬ (x ++ ty :: b0 :: b1 :: tail).length < x.length + 3 := by
    simp only [List.length_append, List.length_cons]; omega
  have h2 : (x ++ ty :: b0 :: b1 :: tail).take x.length = x := List.take_left' rfl
  have h3 : (x ++ ty :: b0 :: b1 :: tail).drop x.length = ty :: b0 :: b1 :: tail :=
    List.drop_left' rfl
  have h4 : (x ++ ty :: b0 :: b1 :: tail).drop (x.length + 1) = b0 :: b1 :: tail := by
    rw [← List.drop_drop, h3]; rfl
  have h5 : (x ++ ty :: b0 :: b1 :: tail).drop (x.length + 3) = tail := by
    rw [← List.drop_drop, h3]; rfl
  simp only [loadCols, hv, h1, if_false, h2, h3, h4, h5, List.headD_cons, List.take_succ_cons,
    List.take_zero]

theorem take_min_length {α : Type} (l : List α) (n : Nat) :
    l.take (min n l.length) = l.take n := by
  rcases Nat.le_total n l.length with h | h
  · rw [Nat.min_eq_left h]
  · rw [Nat.min_eq_right h, List.take_length, List.take_of_length_le h]

theorem columnBytes_eq (c : ColumnDef) :
    columnBytes c = byteOf (c.name.take 255).length ::
      (c.name.take 255 ++ c.type :: byteOf c.size :: byteOf (c.size / 256) :: []) := by
  simp only [columnBytes, take_min_length, le16, List.length_take, List.singleton_append,
    List.cons_append, List.append_assoc, List.nil_append]

theorem loadCols_columnsBytes (cols : List ColumnDef) (rest : List Byte) :
    loadCols cols.length (columnsBytes cols ++ rest) = .ok (cols.map storedCol) := by
  induction cols with
  | nil => rfl
  | cons c cs ih =>
    have hx : (c.name.take 255).length < 256 := by
      rw [List.length_take]; omega
    have e : columnsBytes (c :: cs) ++ rest = byteOf (c.name.take 255).length ::
        (c.name.take 255 ++ c.type :: byteOf c.size :: byteOf (c.size / 256) ::
          (columnsBytes cs ++ rest)) := by
      simp only [columnsBytes, columnBytes_eq, List.cons_append, List.append_assoc,
        List.nil_append]
    rw [List.length_cons, e, loadCols_step _ _ _ _ _ _ hx, ih, Run.bind_ok]
    have hs : leNat [byteOf c.size, byteOf (c.size / 256)] = c.size % 65536 := leNat_le16 c.size
    rw [hs]
    rfl

theorem storedCol_id (c : ColumnDef) (h1 : c.name.length ≤ 255) (h2 : (0 : Byte) ∉ c.name)
    (h3 : c.size < 65536) : storedCol c = c := by
  have hn : upToNul (c.name.take 255) = c.name := by
    rw [List.take_of_length_le h1]
    exact upToNul_all _ (fun b hb h0 => h2 (h0 ▸ hb))
  simp only [storedCol, hn, Nat.mod_eq_of_lt h3]

theorem storedCols_id (cols : List ColumnDef)
    (h : ∀ c ∈ cols, c.name.length ≤ 255 ∧ (0 : Byte) ∉ c.name ∧ c.size < 65536) :
    cols.map storedCol = cols := by
  induction cols with
  | nil => rfl
  | cons c cs ih =>
    have hc := h c (List.mem_cons_self _ _)
    rw [List.map_cons, storedCol_id c hc.1 hc.2.1 hc.2.2,
      ih (fun c1 h1 => h c1 (List.mem_cons_of_mem _ h1))]

theorem loadHeader_written (t : NanoTable) (cols : List ColumnDef) (rest : List Byte)
    (hlen : cols.length ≤ NANO_MAX_COLS) :
    _loadHeader t (some (byteOf cols.length :: columnsBytes cols ++ rest)) =
      .ok (true, { _cols := cols.map storedCol, _recordSize := recordSizeOf (cols.map storedCol) }) := by
  have hlt : cols.length < 256 := by unfold NANO_MAX_COLS at hlen; omega
  have hv : (byteOf cols.length).val = cols.length := byteOf_small _ hlt
  have hn : ¬ cols.length > NANO_MAX_COLS := by omega
  simp only [_loadHeader, List.cons_append, hv, hn, if_false, loadCols_columnsBytes, Run.bind_ok]

theorem writeHeader_stored (t : NanoTable) (cols : List ColumnDef)
    (hlen : cols.length ≤ NANO_MAX_COLS) :
    _writeHeader t cols =
      .ok (true, { _cols := cols.map storedCol, _recordSize := recordSizeOf (cols.map storedCol) },
        some (byteOf cols.length :: columnsBytes cols)) := by
  have h := loadHeader_written t cols [] hlen
  rw [List.append_nil] at h
  simp only [_writeHeader, h, Run.bind_ok]

theorem headerSize_fold (cols : List ColumnDef) :
    ∀ a : Nat, cols.foldl (fun s c => s + 1 + c.name.length + 1 + 2) a =
      a + (cols.map (fun c => c.name.length + 4)).sum := by
  induction cols with
  | nil => intro a; simp
  | cons c cs ih =>
    intro a
    rw [List.foldl_cons, ih, List.map_cons, List.sum_cons]
    omega

theorem headerSize_eq (t : NanoTable) :
    t._headerSizeBytes = 1 + (t._cols.map (fun c => c.name.length + 4)).sum :=
  headerSize_fold t._cols 1

theorem columnsBytes_length (cols : List ColumnDef) :
    (columnsBytes cols).length = (cols.map (fun c => min 255 c.name.length + 4)).sum := by
  induction cols with
  | nil => rfl
  | cons c cs ih =>
    simp only [columnsBytes, List.length_append, ih, List.map_cons, List.sum_cons, columnBytes,
      le16, List.length_cons, List.length_nil, List.length_take]
    omega

theorem columnsBytes_length_short (cols : List ColumnDef)
    (h : ∀ c ∈ cols, c.name.length ≤ 255) :
    (columnsBytes cols).length = (cols.map (fun c => c.name.length + 4)).sum := by
  rw [columnsBytes_length]
  congr 1
  apply List.map_congr_left
  intro c hc
  rw [Nat.min_eq_right (h c hc)]

/-- C11, as the claim states it, fails for a column name of 256 bytes:
`_writeHeader` returns true and the table then holds the name cut to its first
255 bytes, not the name supplied. -/
theorem header_roundtrip_counterexample :
    _writeHeader NanoTable.new longNameCols =
        .ok (true,
          { _cols := [{ name := List.replicate 255 97, type := TAG_I, size := 0 }],
            _recordSize := 4 },
          some (byteOf longNameCols.length :: columnsBytes longNameCols)) ∧
      [({ name := List.replicate 255 97, type := TAG_I, size := 0 } : ColumnDef)] ≠
        longNameCols :=
  ⟨by decide, by decide⟩

/-- C11 (amended): for every schema of 1 to 16 columns whose names have at most
255 bytes, none of them zero, and whose widths fit a `uint16_t`, `_writeHeader`
(and `begin` on a file that does not exist) returns true and leaves a table
whose columns are the supplied ones, in count, order, names, type tags and
widths; the header size the table computes, 1 plus for each column the length
of its name plus 4, is the number of bytes written; and `_loadHeader` on that
file, whatever rows follow the header, gives the same table. -/
theorem header_roundtrip (t : NanoTable) (cols : List ColumnDef) (h : Storable cols) :
    ∃ t1 hdr, _writeHeader t cols = .ok (true, t1, some hdr) ∧
      begin t none (some cols) = .ok (true, t1, some hdr) ∧
      hdr = byteOf cols.length :: columnsBytes cols ∧
      t1._cols = cols ∧ t1._colCount = cols.length ∧
      t1._headerSizeBytes = hdr.length ∧
      t1._headerSizeBytes = 1 + (cols.map (fun c => c.name.length + 4)).sum ∧
      ∀ (t0 : NanoTable) (rows : List Byte), _loadHeader t0 (some (hdr ++ rows)) = .ok (true, t1) := by
  obtain ⟨h1, h16, hc⟩ := h
  have hw := writeHeader_stored t cols h16
  rw [storedCols_id cols hc] at hw
  have hne : ¬ cols.length = 0 := by omega
  have hb : begin t none (some cols) = _writeHeader t cols := by
    simp only [begin, _exists, Option.isSome_none, Bool.false_eq_true, if_false, hne]
  have hsz : (NanoTable.mk cols (recordSizeOf cols))._headerSizeBytes =
      1 + (cols.map (fun c => c.name.length + 4)).sum := headerSize_eq _
  refine ⟨_, _, hw, by rw [hb, hw], rfl, rfl, rfl, ?_, hsz, fun t0 rows => ?_⟩
  · rw [hsz, List.length_cons, columnsBytes_length_short cols (fun c h => (hc c h).1)]
    omega
  · have := loadHeader_written t0 cols rows h16
    rwa [storedCols_id cols hc] at this

/-- Sample data for C11: the sample schema `id`, `v`. -/
theorem header_roundtrip_witness :
    ∃ t1 hdr, _writeHeader NanoTable.new exCols = .ok (true, t1, some hdr) ∧
      begin NanoTable.new none (some exCols) = .ok (true, t1, some hdr) ∧
      hdr = byteOf exCols.length :: columnsBytes exCols ∧
      t1._cols = exCols ∧ t1._colCount = exCols.length ∧
      t1._headerSizeBytes = hdr.length ∧
      t1._headerSizeBytes = 1 + (exCols.map (fun c => c.name.length + 4)).sum ∧
      ∀ (t0 : NanoTable) (rows : List Byte), _loadHeader t0 (some (hdr ++ rows)) = .ok (true, t1) :=
  header_roundtrip NanoTable.new exCols (by decide)

end NanoDB

namespace NanoDB
open NanoTable NanoRecord

/-! ### Counting all rows -/

theorem recordsLoop_all (t : NanoTable) (f : List Byte) (hid : idIndex t._cols = none) :
    ∀ (m k fuel cnt : Nat), m < fuel → (∀ j, j < m → SlotIn t f (k + j)) →
      ¬ SlotIn t f (k + m) → cnt < 4294967296 →
      recordsLoop t f fuel (slotPos t k) cnt = .ok ((cnt + m) % 4294967296) := by
  intro m
  induction m with
  | zero =>
    intro k fuel cnt hf _ hout hcnt
    obtain ⟨fuel, rfl⟩ : ∃ n, fuel = n + 1 := ⟨fuel - 1, by omega⟩
    have hout' : ¬ (slotPos t k + t._recordSize ≤ f.length) := hout
    unfold recordsLoop
    simp only [hout', if_false, Nat.add_zero, Nat.mod_eq_of_lt hcnt]
  | succ m ih =>
    intro k fuel cnt hf hin hout hcnt
    obtain ⟨fuel, rfl⟩ : ∃ n, fuel = n + 1 := ⟨fuel - 1, by omega⟩
    have hin' : slotPos t k + t._recordSize ≤ f.length := hin 0 (by omega)
    have e : k + (m + 1) = (k + 1) + m := by omega
    rw [e] at hout
    have hin2 : ∀ j, j < m → SlotIn t f (k + 1 + j) := fun j hj => by
      have := hin (j + 1) (by omega)
      rwa [show k + (j + 1) = k + 1 + j by omega] at this
    unfold recordsLoop
    simp only [hin', if_true, hid]
    rw [← slotPos_succ, ih (k + 1) fuel _ (by omega) hin2 hout (Nat.mod_lt _ (by decide))]
    congr 1
    omega

theorem records_all (fuel : Nat) (t : NanoTable) (f : List Byte) (hopen : t._cols ≠ [])
    (hid : idIndex t._cols = none) (hpos : 0 < t._recordSize) (hfuel : f.length < fuel) :
    records fuel t (some f) = .ok (slotCount t f % 4294967296, t) := by
  have h := recordsLoop_all t f hid (slotCount t f) 0 fuel 0
    (by have := slotCount_le t f; omega)
    (fun j hj => by rw [Nat.zero_add]; exact (slotIn_iff t f hpos j).mpr hj)
    (by rw [Nat.zero_add, slotIn_iff t f hpos]; omega) (by decide)
  rw [slotPos_zero, Nat.zero_add] at h
  simp only [records, lazyLoad_open t _ hopen, Run.bind_ok, h]

theorem liveCount_filter (t : NanoTable) (f : List Byte) (i : Nat) :
    ∀ (m k : Nat), liveCount t f i k m =
      ((List.range' k m).filter (fun j => decide (intAt t f i j ≠ 0))).length := by
  intro m
  induction m with
  | zero => intro k; simp [liveCount]
  | succ m ih =>
    intro k
    rw [List.range'_succ, liveCount, ih (k + 1), List.filter_cons]
    by_cases h : intAt t f i k = 0
    · simp [h]
    · simp [h]; omega

/-- C12: on an opened table whose cached row size is the sum of the column
widths and is not 0, and a file shorter than 2^32 bytes, the complete row slots
are the slots `k < slotCount`; `records()` returns the number of those whose id
field is not 0 when the schema has an Int32 column named `id`, and the number of
all of them when it has none. -/
theorem records_counts (fuel : Nat) (t : NanoTable) (f : List Byte) (hopen : t._cols ≠ [])
    (hrs : t._recordSize = rowBytes t._cols) (hpos : 0 < t._recordSize)
    (hlen : f.length < 4294967296) (hfuel : f.length < fuel) :
    (∀ k, slotPos t k + t._recordSize ≤ f.length ↔ k < slotCount t f) ∧
    (∀ i, idIndex t._cols = some i →
      records fuel t (some f) =
        .ok (((List.range (slotCount t f)).filter (fun k => decide (intAt t f i k ≠ 0))).length,
          t)) ∧
    (idIndex t._cols = none → records fuel t (some f) = .ok (slotCount t f, t)) := by
  have hsc : slotCount t f < 4294967296 := by have := slotCount_le t f; omega
  refine ⟨fun k => slotIn_iff t f hpos k, fun i hid => ?_, fun hid => ?_⟩
  · rw [records_eq fuel t f i hid hrs hfuel, List.range_eq_range', ← liveCount_filter,
      Nat.mod_eq_of_lt]
    have := liveCount_le t f i (slotCount t f) 0
    omega
  · rw [records_all fuel t f hopen hid hpos hfuel, Nat.mod_eq_of_lt hsc]

/-- Sample data for C12: the sample table and a file of two rows, the first of
which has id 0. -/
theorem records_counts_witness :
    (∀ k, slotPos exTable k + exTable._recordSize ≤ (exHeader ++ exRow 0 5 ++ exRow 3 6).length ↔
      k < slotCount exTable (exHeader ++ exRow 0 5 ++ exRow 3 6)) ∧
    (∀ i, idIndex exTable._cols = some i →
      records 100 exTable (some (exHeader ++ exRow 0 5 ++ exRow 3 6)) =
        .ok (((List.range (slotCount exTable (exHeader ++ exRow 0 5 ++ exRow 3 6))).filter
          (fun k => decide (intAt exTable (exHeader ++ exRow 0 5 ++ exRow 3 6) i k ≠ 0))).length,
          exTable)) ∧
    (idIndex exTable._cols = none →
      records 100 exTable (some (exHeader ++ exRow 0 5 ++ exRow 3 6)) =
        .ok (slotCount exTable (exHeader ++ exRow 0 5 ++ exRow 3 6), exTable)) :=
  records_counts 100 exTable (exHeader ++ exRow 0 5 ++ exRow 3 6) (by decide) (by decide)
    (by decide) (by decide) (by decide)

end NanoDB

namespace NanoDB
open NanoTable NanoRecord

/-! ### The values a record holds -/

theorem decodes_split (r : NanoRecord) (pre post : List ColumnDef) (c : ColumnDef)
    (a x b : List Byte) (hc : r._cols = some (pre ++ c :: post))
    (hd : r._data = some (a ++ x ++ b)) (ha : a.length = rowBytes pre)
    (hx : x.length = _typeSize c) (hs : c.type = TAG_S → c.size < NANO_MAX_STR_LEN) :
    Decodes r pre.length c x := by
  refine ⟨fun ht => ?_, fun ht => ?_, fun ht => ?_, fun ht => ?_⟩
  · exact getInt_split r pre post c a x b hc hd ha (by rw [hx, typeSize_I c ht])
  · exact getFloat_split r pre post c a x b hc hd ha (by rw [hx, typeSize_F c ht])
  · exact getBool_split r pre post c a x b hc hd ha (by rw [hx, typeSize_B c ht])
  · exact getString_split r pre post c a x b hc hd ha (by rw [hx, typeSize_S c ht]) (hs ht)

theorem decodes_field (r : NanoRecord) (cols : List ColumnDef) (d : List Byte) (j : Nat)
    (c : ColumnDef) (hc : r._cols = some cols) (hd : r._data = some d)
    (hlen : d.length = rowBytes cols) (hj : cols[j]? = some c)
    (hs : c.type = TAG_S → c.size < NANO_MAX_STR_LEN) :
    Decodes r j c (readAt d (colOffset cols j) (_typeSize c)) := by
  obtain ⟨pre, post, hcols, hpre⟩ := split_at cols j c hj
  subst hcols
  obtain ⟨a, x, b, hdx, ha, hx, _⟩ := split_row pre c post d hlen
  subst hdx
  subst hpre
  rw [colOffset_split, ← ha, ← hx, readAt_mid]
  exact decodes_split r pre post c a x b hc hd ha hx hs

theorem decodes_of_fieldEq (r1 r2 : NanoRecord) (j : Nat) (c : ColumnDef) (x : List Byte)
    (h : FieldEq r1 r2 j c) (hd : Decodes r1 j c x) : Decodes r2 j c x := by
  obtain ⟨h1, h2, h3, h4⟩ := h
  obtain ⟨d1, d2, d3, d4⟩ := hd
  refine ⟨fun ht => ?_, fun ht => ?_, fun ht => ?_, fun ht => ?_⟩
  · obtain ⟨v, hv1, hv2⟩ := h1 ht
    rw [hv2, ← hv1, d1 ht]
  · obtain ⟨v, hv1, hv2⟩ := h2 ht
    rw [hv2, ← hv1, d2 ht]
  · obtain ⟨v, hv1, hv2⟩ := h3 ht
    rw [hv2, ← hv1, d3 ht]
  · obtain ⟨v, hv1, hv2⟩ := h4 ht
    rw [hv2, ← hv1, d4 ht]

theorem decodes_slot (t : NanoTable) (f : List Byte) (k : Nat) (out1 : NanoRecord)
    (hrs : t._recordSize = rowBytes t._cols) (hs : ShortStrings t._cols)
    (hin : SlotIn t f k) (hc : out1._cols = some t._cols)
    (hd : out1._data = some (normRow t._cols (readAt f (slotPos t k) t._recordSize)))
    (j : Nat) (c : ColumnDef) (hj : t._cols[j]? = some c) :
    Decodes out1 j c (fieldAt t f j c k) := by
  have hlen : (readAt f (slotPos t k) t._recordSize).length = rowBytes t._cols := by
    rw [readAt_length f _ _ hin, hrs]
  have hsc : c.type = TAG_S → c.size < NANO_MAX_STR_LEN := hs c (List.getElem?_mem hj)
  have h0 := decodes_field
    (NanoRecord.mk (some t._cols) t._recordSize (some (readAt f (slotPos t k) t._recordSize)))
    t._cols _ j c rfl rfl hlen hj hsc
  rw [readAt_readAt f _ _ _ _ (by rw [hrs]; exact colOffset_bound _ _ _ hj)] at h0
  exact decodes_of_fieldEq _ out1 j c _
    (fieldEq_normRow _ out1 t._cols _ rfl hc rfl hd hlen hs j c hj) h0

theorem read_nomatch (fuel : Nat) (t : NanoTable) (f : List Byte) (v : Int) (out : NanoRecord)
    (hopen : t._cols ≠ []) (hrs : t._recordSize = rowBytes t._cols) (hfuel : f.length < fuel)
    (hno : ¬ ∃ i k, idIndex t._cols = some i ∧ SlotIn t f k ∧ intAt t f i k = v) :
    read fuel t (some f) v out = .ok (false, t, out) := by
  have h : _findOffsetById fuel t (some f) v = .ok (none, t) := by
    cases hid : idIndex t._cols with
    | none => exact findOffsetById_noid fuel t _ v hopen hid
    | some i =>
      refine findOffsetById_none fuel t _ v i hid hrs hfuel ?_
      intro g hg k hk hv
      cases hg
      exact hno ⟨i, k, hid, hk, hv⟩
  simp only [NanoTable.read, h, Run.bind_ok, readFound]

theorem first_match (t : NanoTable) (f : List Byte) (i k0 : Nat) (v : Int)
    (hin : SlotIn t f k0) (hv : intAt t f i k0 = v) :
    ∃ k, SlotIn t f k ∧ intAt t f i k = v ∧ ∀ j, j < k → intAt t f i j ≠ v := by
  classical
  have hex : ∃ k, SlotIn t f k ∧ intAt t f i k = v := ⟨k0, hin, hv⟩
  refine ⟨Nat.find hex, (Nat.find_spec hex).1, (Nat.find_spec hex).2, fun j hj hjv => ?_⟩
  exact Nat.find_min hex hj ⟨slotIn_mono t f _ j (Nat.find_spec hex).1 (Nat.le_of_lt hj), hjv⟩

/-- C13, as the claim states it, fails on a schema with a column of another
type tag: `begin` accepts the schema `id : Int32`, `v : Int32`, `x` of tag `X`,
`save` on a new record returns true and writes a row of id 1, and `read(1, out)`
and `find(out, 1)` return false although slot 0 is complete and holds id 1,
`_readRecordAt` returning false at the column of tag `X`. -/
theorem read_by_id_counterexample :
    begin NanoTable.new none (some oddCols) = .ok (true, oddTable, some oddHeader) ∧
    ((save 29 oddTable (some oddHeader) NanoRecord.new).bind fun s =>
      .ok (s.1, s.2.1, s.2.2.1)) = .ok (true, oddTable, some (oddHeader ++ exRow 1 0)) ∧
    idIndex oddTable._cols = some 0 ∧
    SlotIn oddTable (oddHeader ++ exRow 1 0) 0 ∧
    intAt oddTable (oddHeader ++ exRow 1 0) 0 0 = 1 ∧
    ((read 29 oddTable (some (oddHeader ++ exRow 1 0)) 1 NanoRecord.new).bind fun r =>
      .ok (r.1, r.2.1)) = .ok (false, oddTable) ∧
    ((findById 29 oddTable (some (oddHeader ++ exRow 1 0)) NanoRecord.new 1).bind fun r =>
      .ok (r.1, r.2.1)) = .ok (false, oddTable) :=
  ⟨by decide, by decide, by decide, by decide, by decide, by decide, by decide⟩

/-- C13 (amended): on an opened table whose cached row size is the sum of the
column widths, with columns of the four types and string columns narrower than
the scratch buffer, `read(id, out)` and `find(out, id)` on a detached record or a
record of the table return true when the schema has an Int32 `id` column and
some complete row slot holds `id` in its id field, and `out` then holds, column
by column, the values of the fields of the lowest-indexed such slot `k`, at
offset `header_size + k * row_size`; in every other case they return false and
leave `out` as it was. -/
theorem read_by_id (fuel : Nat) (t : NanoTable) (f : List Byte) (v : Int) (out : NanoRecord)
    (hopen : t._cols ≠ []) (hrs : t._recordSize = rowBytes t._cols)
    (hk : KnownTypes t._cols) (hs : ShortStrings t._cols)
    (hout : out._cols = none ∨ Attached t out) (hfuel : f.length < fuel) :
    ((∃ i k, idIndex t._cols = some i ∧ SlotIn t f k ∧ intAt t f i k = v) →
      ∃ i k out1, idIndex t._cols = some i ∧ SlotIn t f k ∧ intAt t f i k = v ∧
        (∀ j, j < k → intAt t f i j ≠ v) ∧
        read fuel t (some f) v out = .ok (true, t, out1) ∧
        findById fuel t (some f) out v = .ok (true, t, out1) ∧
        ∀ j c, t._cols[j]? = some c → Decodes out1 j c (fieldAt t f j c k)) ∧
    ((¬ ∃ i k, idIndex t._cols = some i ∧ SlotIn t f k ∧ intAt t f i k = v) →
      read fuel t (some f) v out = .ok (false, t, out) ∧
      findById fuel t (some f) out v = .ok (false, t, out)) := by
  constructor
  · rintro ⟨i, k0, hid, hin0, hv0⟩
    obtain ⟨k, hin, hv, hfirst⟩ := first_match t f i k0 v hin0 hv0
    obtain ⟨out1, hread, hc, hd⟩ := read_first fuel t f v i k out hid hrs hk hs hout hfuel hin hv
      hfirst
    exact ⟨i, k, out1, hid, hin, hv, hfirst, hread, hread,
      fun j c hj => decodes_slot t f k out1 hrs hs hin hc hd j c hj⟩
  · intro hno
    have h := read_nomatch fuel t f v out hopen hrs hfuel hno
    exact ⟨h, h⟩

/-- Sample data for C13: the table with a column of each type, its file of one
row of id 7, and a detached record. -/
theorem read_by_id_witness :
    ((∃ i k, idIndex mixTable._cols = some i ∧
        SlotIn mixTable mixFile k ∧
        intAt mixTable mixFile i k = 7) →
      ∃ i k out1, idIndex mixTable._cols = some i ∧
        SlotIn mixTable mixFile k ∧
        intAt mixTable mixFile i k = 7 ∧
        (∀ j, j < k → intAt mixTable mixFile i j ≠ 7) ∧
        read 100 mixTable (some mixFile) 7 NanoRecord.new =
          .ok (true, mixTable, out1) ∧
        findById 100 mixTable (some mixFile) NanoRecord.new 7 =
          .ok (true, mixTable, out1) ∧
        ∀ j c, mixTable._cols[j]? = some c →
          Decodes out1 j c (fieldAt mixTable mixFile j c k)) ∧
    ((¬ ∃ i k, idIndex mixTable._cols = some i ∧
        SlotIn mixTable mixFile k ∧
        intAt mixTable mixFile i k = 7) →
      read 100 mixTable (some mixFile) 7 NanoRecord.new =
        .ok (false, mixTable, NanoRecord.new) ∧
      findById 100 mixTable (some mixFile) NanoRecord.new 7 =
        .ok (false, mixTable, NanoRecord.new)) :=
  read_by_id 100 mixTable mixFile 7 NanoRecord.new (by decide)
    (by decide) (by decide) (by decide) (Or.inl rfl) (by decide)

end NanoDB

namespace NanoDB
open NanoTable NanoRecord

/-! ### The cached row size -/

theorem recordSizeOf_fold (cols : List ColumnDef) :
    ∀ a : Nat, a < 65536 →
      cols.foldl (fun acc c => (acc + _typeSize c) % 65536) a = (a + rowBytes cols) % 65536 := by
  induction cols with
  | nil => intro a ha; simp [rowBytes, Nat.mod_eq_of_lt ha]
  | cons c cs ih =>
    intro a _
    rw [List.foldl_cons, ih _ (Nat.mod_lt _ (by decide))]
    simp only [rowBytes, List.map_cons, List.sum_cons]
    omega

theorem recordSizeOf_eq (cols : List ColumnDef) : recordSizeOf cols = rowBytes cols % 65536 := by
  unfold recordSizeOf
  rw [recordSizeOf_fold cols 0 (by decide), Nat.zero_add]

theorem loadHeader_true (t t1 : NanoTable) (disk : Disk)
    (h : _loadHeader t disk = .ok (true, t1)) : t1._recordSize = recordSizeOf t1._cols := by
  unfold _loadHeader at h
  cases disk with
  | none => simp at h
  | some f =>
    cases f with
    | nil => simp at h
    | cons cc f1 =>
      simp only at h
      split at h
      · cases h
      · cases hl : loadCols cc.val f1 with
        | ok cols =>
          rw [hl, Run.bind_ok] at h
          cases h
          rfl
        | ub => rw [hl] at h; cases h
        | fuel => rw [hl] at h; cases h

theorem writeHeader_true (t t1 : NanoTable) (cols : List ColumnDef) (d1 : Disk)
    (h : _writeHeader t cols = .ok (true, t1, d1)) : t1._recordSize = recordSizeOf t1._cols := by
  unfold _writeHeader at h
  simp only at h
  cases hl : _loadHeader t (some (byteOf cols.length :: columnsBytes cols)) with
  | ok r =>
    rw [hl, Run.bind_ok] at h
    obtain ⟨b, t2⟩ := r
    cases h
    exact loadHeader_true t _ _ hl
  | ub => rw [hl] at h; cases h
  | fuel => rw [hl] at h; cases h

theorem begin_true (t t1 : NanoTable) (disk d1 : Disk) (cols : Option (List ColumnDef))
    (h : begin t disk cols = .ok (true, t1, d1)) : t1._recordSize = recordSizeOf t1._cols := by
  unfold begin at h
  split at h
  · cases hl : _loadHeader t disk with
    | ok r =>
      rw [hl, Run.bind_ok] at h
      obtain ⟨b, t2⟩ := r
      cases h
      exact loadHeader_true t _ _ hl
    | ub => rw [hl] at h; cases h
    | fuel => rw [hl] at h; cases h
  · cases cols with
    | none => cases h
    | some cs =>
      simp only at h
      split at h
      · cases h
      · exact writeHeader_true t t1 cs d1 h

/-- C14, as the claim states it, fails for two string columns of width 40000:
`begin` returns true and caches the row size 14464, while the widths add up to
80000. -/
theorem row_size_counterexample :
    begin NanoTable.new none (some wideCols) =
        .ok (true, { _cols := wideCols, _recordSize := 14464 },
          some [2, 1, 97, 83, 64, 156, 1, 98, 83, 64, 156]) ∧
      rowBytes wideCols = 80000 := by
  decide

/-- C14 (amended): after a header load or a `begin` that returned true, the
cached row size is the sum of the byte widths of the columns (4 for `I`, 4 for
`F`, 1 for `B`, the declared width for `S`, 0 for any other tag) reduced modulo
65536, the range of its type `uint16_t`; it is that sum whenever the sum is
below 65536. -/
theorem row_size_cached (t t1 : NanoTable) (disk : Disk)
    (h : _loadHeader t disk = .ok (true, t1) ∨
      ∃ cols d1, begin t disk cols = .ok (true, t1, d1)) :
    t1._recordSize = rowBytes t1._cols % 65536 ∧
      (rowBytes t1._cols < 65536 → t1._recordSize = rowBytes t1._cols) := by
  have h1 : t1._recordSize = rowBytes t1._cols % 65536 := by
    rcases h with h | ⟨cols, d1, h⟩
    · rw [loadHeader_true t t1 disk h, recordSizeOf_eq]
    · rw [begin_true t t1 disk d1 cols h, recordSizeOf_eq]
  exact ⟨h1, fun hlt => by rw [h1, Nat.mod_eq_of_lt hlt]⟩

/-- Sample data for C14: `begin` on the sample schema. -/
theorem row_size_cached_witness :
    begin NanoTable.new none (some exCols) = .ok (true, exTable, some exHeader) ∧
      exTable._recordSize = rowBytes exTable._cols % 65536 ∧
      (rowBytes exTable._cols < 65536 → exTable._recordSize = rowBytes exTable._cols) :=
  ⟨by decide, row_size_cached NanoTable.new exTable none
    (Or.inr ⟨some exCols, some exHeader, by decide⟩)⟩

end NanoDB

namespace NanoDB
open NanoTable NanoRecord

/-! ### The largest id of a file -/

theorem maxFrom_ge_acc (t : NanoTable) (f : List Byte) (i : Nat) :
    ∀ (m k : Nat) (acc : Int), acc ≤ maxFrom t f i k m acc := by
  intro m
  induction m with
  | zero => intro k acc; simp [maxFrom]
  | succ m ih =>
    intro k acc
    simp only [maxFrom]
    have := ih (k + 1) (if intAt t f i k > acc then intAt t f i k else acc)
    by_cases hgt : intAt t f i k > acc
    · rw [if_pos hgt] at this ⊢; omega
    · rw [if_neg hgt] at this ⊢; omega

theorem maxFrom_ge (t : NanoTable) (f : List Byte) (i : Nat) :
    ∀ (m k : Nat) (acc : Int) (j : Nat), k ≤ j → j < k + m →
      intAt t f i j ≤ maxFrom t f i k m acc := by
  intro m
  induction m with
  | zero => intro k acc j h1 h2; omega
  | succ m ih =>
    intro k acc j h1 h2
    simp only [maxFrom]
    by_cases hjk : j = k
    · subst hjk
      have := maxFrom_ge_acc t f i m (j + 1) (if intAt t f i j > acc then intAt t f i j else acc)
      by_cases hgt : intAt t f i j > acc
      · rw [if_pos hgt] at this ⊢; omega
      · rw [if_neg hgt] at this ⊢; omega
    · exact ih (k + 1) _ j (by omega) (by omega)

theorem maxFrom_mem (t : NanoTable) (f : List Byte) (i : Nat) :
    ∀ (m k : Nat) (acc : Int), maxFrom t f i k m acc = acc ∨
      ∃ j, k ≤ j ∧ j < k + m ∧ intAt t f i j = maxFrom t f i k m acc := by
  intro m
  induction m with
  | zero => intro k acc; left; rfl
  | succ m ih =>
    intro k acc
    simp only [maxFrom]
    rcases ih (k + 1) (if intAt t f i k > acc then intAt t f i k else acc) with h | ⟨j, h1, h2, h3⟩
    · by_cases hgt : intAt t f i k > acc
      · right
        refine ⟨k, Nat.le_refl _, by omega, ?_⟩
        rw [h, if_pos hgt]
      · left
        rw [h, if_neg hgt]
    · right
      exact ⟨j, by omega, by omega, h3⟩

theorem maxFrom_lt (t : NanoTable) (f : List Byte) (i : Nat) (m k : Nat) (acc : Int)
    (hacc : acc < 2147483648) : maxFrom t f i k m acc < 2147483648 := by
  rcases maxFrom_mem t f i m k acc with h | ⟨j, _, _, h⟩
  · rw [h]; exact hacc
  · rw [← h]; exact (toInt32_range _).2

theorem wrap32_id (v : Int) (h1 : -2147483648 ≤ v) (h2 : v < 2147483648) : wrap32 v = v :=
  toInt32_bitsOfInt32 v h1 h2

theorem wrap32_wrap32 (v : Int) : wrap32 (wrap32 v) = wrap32 v :=
  wrap32_id _ (toInt32_range _).1 (toInt32_range _).2

theorem wrap32_top : wrap32 (2147483647 + 1) = -2147483648 := by decide

/-- C15, as the claim states it, fails on sample data: with one row of id -5
in the file, `save` assigns the id 1, which is not the largest id plus 1; with
two rows of ids 2147483647 and -2147483648, `save` assigns -2147483648, the id
of the second row. -/
theorem auto_id_counterexample :
    save 100 exTable (some (exHeader ++ exRow 4294967291 5)) (exRec 0 9) =
        .ok (true, exTable, some (exHeader ++ exRow 4294967291 5 ++ exRow 1 9), exRec 1 9) ∧
      intAt exTable (exHeader ++ exRow 4294967291 5) 0 0 = -5 ∧
      save 100 exTable (some (exHeader ++ exRow 2147483647 5 ++ exRow 2147483648 6))
          (exRec 0 9) =
        .ok (true, exTable,
          some (exHeader ++ exRow 2147483647 5 ++ exRow 2147483648 6 ++ exRow 2147483648 9),
          exRec 2147483648 9) ∧
      (exRec 2147483648 9).getInt 0 = .ok (-2147483648) ∧
      intAt exTable (exHeader ++ exRow 2147483647 5 ++ exRow 2147483648 6) 0 1 =
        -2147483648 :=
  ⟨by decide, by decide, by decide, by decide, by decide⟩

/-- C15 (amended): on a table with an Int32 `id` column, `save` on a record of
the table whose id field is 0 returns true, sets the id field of the record and
of the appended row to `M + 1` reduced to the `int32_t` range, where `M` is the
largest of 0 and the id fields of the complete row slots of the file; that id is
never 0, and when `M` is below 2147483647 it is `M + 1` and differs from the id
field of every row slot already in the file. -/
theorem auto_id_fresh (fuel : Nat) (t : NanoTable) (f : List Byte) (r : NanoRecord) (i : Nat)
    (hid : idIndex t._cols = some i) (hrs : t._recordSize = rowBytes t._cols)
    (hs : ShortStrings t._cols) (hatt : Attached t r) (h0 : r.getInt i = .ok 0)
    (hfuel : f.length < fuel) :
    ∃ r1 row v M, save fuel t (some f) r = .ok (true, t, some (f ++ row), r1) ∧
      r1.getInt i = .ok v ∧
      toInt32 (leNat (readAt (f ++ row) (f.length + colOffset t._cols i) 4)) = v ∧
      0 ≤ M ∧ (∀ k, SlotIn t f k → intAt t f i k ≤ M) ∧
      (M = 0 ∨ ∃ k, SlotIn t f k ∧ intAt t f i k = M) ∧
      v = wrap32 (M + 1) ∧ v ≠ 0 ∧
      (M < 2147483647 → v = M + 1 ∧ ∀ k, SlotIn t f k → intAt t f i k ≠ v) := by
  have hpos := recordSize_pos t i hrs hid
  obtain ⟨c, hci, _, hct⟩ := idIndex_some _ _ hid
  obtain ⟨d, hc, hd, hdl⟩ := attached_data t r hatt
  rw [hrs] at hdl
  have hsave := save_assign fuel t f r i d hid hrs hs hc hd hdl h0 hfuel
  have hM0 : 0 ≤ maxFrom t f i 0 (slotCount t f) 0 := maxFrom_ge_acc t f i _ 0 0
  have hMlt : maxFrom t f i 0 (slotCount t f) 0 < 2147483648 :=
    maxFrom_lt t f i _ 0 0 (by decide)
  have hge : ∀ k, SlotIn t f k → intAt t f i k ≤ maxFrom t f i 0 (slotCount t f) 0 :=
    fun k hk => maxFrom_ge t f i _ 0 0 k (Nat.zero_le _)
      (by rw [Nat.zero_add]; exact (slotIn_iff t f hpos k).mp hk)
  have hsmall : maxFrom t f i 0 (slotCount t f) 0 < 2147483647 →
      wrap32 (maxFrom t f i 0 (slotCount t f) 0 + 1) = maxFrom t f i 0 (slotCount t f) 0 + 1 :=
    fun h => wrap32_id _ (by omega) (by omega)
  refine ⟨_, _, wrap32 (maxFrom t f i 0 (slotCount t f) 0 + 1), maxFrom t f i 0 (slotCount t f) 0,
    hsave, ?_, ?_, hM0, hge, ?_, rfl, ?_, ?_⟩
  · rw [getInt_written r t._cols d i c _ hc hdl hci hct, wrap32_wrap32]
  · rw [readAt_append_shift, written_id t._cols d i c _ hdl hci hct, wrap32_wrap32]
  · rcases maxFrom_mem t f i (slotCount t f) 0 0 with h | ⟨j, _, hj, h⟩
    · left; exact h
    · right
      exact ⟨j, (slotIn_iff t f hpos j).mpr (by omega), h⟩
  · by_cases h : maxFrom t f i 0 (slotCount t f) 0 < 2147483647
    · rw [hsmall h]; omega
    · have : maxFrom t f i 0 (slotCount t f) 0 = 2147483647 := by omega
      rw [this, wrap32_top]
      decide
  · intro h
    refine ⟨hsmall h, fun k hk hv => ?_⟩
    have := hge k hk
    rw [hv, hsmall h] at this
    omega

/-- Sample data for C15: the sample table, a file with one row of id 4 and a
record of id 0. -/
theorem auto_id_fresh_witness :
    ∃ r1 row v M,
      save 100 exTable (some (exHeader ++ exRow 4 5)) (exRec 0 9) =
        .ok (true, exTable, some (exHeader ++ exRow 4 5 ++ row), r1) ∧
      r1.getInt 0 = .ok v ∧
      toInt32 (leNat (readAt (exHeader ++ exRow 4 5 ++ row)
        ((exHeader ++ exRow 4 5).length + colOffset exTable._cols 0) 4)) = v ∧
      0 ≤ M ∧ (∀ k, SlotIn exTable (exHeader ++ exRow 4 5) k →
        intAt exTable (exHeader ++ exRow 4 5) 0 k ≤ M) ∧
      (M = 0 ∨ ∃ k, SlotIn exTable (exHeader ++ exRow 4 5) k ∧
        intAt exTable (exHeader ++ exRow 4 5) 0 k = M) ∧
      v = wrap32 (M + 1) ∧ v ≠ 0 ∧
      (M < 2147483647 → v = M + 1 ∧ ∀ k, SlotIn exTable (exHeader ++ exRow 4 5) k →
        intAt exTable (exHeader ++ exRow 4 5) 0 k ≠ v) :=
  auto_id_fresh 100 exTable (exHeader ++ exRow 4 5) (exRec 0 9) 0 (by decide) (by decide)
    (by decide) (by decide) (by decide) (by decide)

end NanoDB

namespace NanoDB
open NanoTable NanoRecord

/-! ### The row a save appends -/

theorem encodes_split (r : NanoRecord) (pre post : List ColumnDef) (c : ColumnDef)
    (a y b : List Byte) (hc : r._cols = some (pre ++ c :: post))
    (hd : r._data = some (a ++ y ++ b)) (ha : a.length = rowBytes pre)
    (hy : y.length = _typeSize c) (hs : c.type = TAG_S → c.size < NANO_MAX_STR_LEN) :
    Encodes r pre.length c (normField c y) := by
  refine ⟨fun ht => ?_, fun ht => ?_, fun ht => ?_, fun ht => ?_, fun h1 h2 h3 h4 => ?_⟩
  · have hy4 : y.length = 4 := by rw [hy, typeSize_I c ht]
    exact ⟨_, getInt_split r pre post c a y b hc hd ha hy4, by
      rw [normField_I c y ht, le32_bits_toInt32_leNat y hy4]⟩
  · have hy4 : y.length = 4 := by rw [hy, typeSize_F c ht]
    exact ⟨_, getFloat_split r pre post c a y b hc hd ha hy4, by
      rw [normField_F c y ht, le32_leNat y hy4]⟩
  · have hy1 : y.length = 1 := by rw [hy, typeSize_B c ht]
    refine ⟨_, getBool_split r pre post c a y b hc hd ha hy1, ?_⟩
    rw [normField_B c y ht]
    by_cases h : leNat y = 0 <;> simp [h]
  · have hys : y.length = c.size := by rw [hy, typeSize_S c ht]
    refine ⟨_, getString_split r pre post c a y b hc hd ha hys (hs ht), ?_, normField_S c y ht⟩
    rw [← hys]
    exact upToNul_length_le y
  · exact normField_other c y h1 h2 h3 h4

theorem encodes_field (r : NanoRecord) (cols : List ColumnDef) (d : List Byte) (j : Nat)
    (c : ColumnDef) (hc : r._cols = some cols) (hd : r._data = some d)
    (hlen : d.length = rowBytes cols) (hj : cols[j]? = some c)
    (hs : c.type = TAG_S → c.size < NANO_MAX_STR_LEN) :
    Encodes r j c (readAt (normRow cols d) (colOffset cols j) (_typeSize c)) := by
  obtain ⟨pre, post, hcols, hpre⟩ := split_at cols j c hj
  subst hcols
  obtain ⟨a, y, b, hdy, ha, hy, _⟩ := split_row pre c post d hlen
  subst hdy
  subst hpre
  have h1 : (normRow pre a).length = rowBytes pre := normRow_length pre a ha
  have h2 : (normField c y).length = _typeSize c := normField_length c y hy
  rw [normRow_split pre post c a y b ha hy, colOffset_split, ← h1, ← h2, readAt_mid]
  exact encodes_split r pre post c a y b hc hd ha hy hs

theorem save_noid (fuel : Nat) (t : NanoTable) (g : List Byte) (r : NanoRecord) (d : List Byte)
    (hopen : t._cols ≠ []) (hid : idIndex t._cols = none) (hs : ShortStrings t._cols)
    (hc : r._cols = some t._cols) (hd : r._data = some d) (hlen : d.length = rowBytes t._cols) :
    save fuel t (some g) r = .ok (true, t, some (g ++ normRow t._cols d), r) := by
  simp only [save, headerMissing_open t _ hopen, Run.bind_ok, Bool.false_eq_true, if_false,
    columns_of_cols r _ hc, hid, Option.getD_some, writeRecordAt_append t g r d hc hd hlen hs]

theorem save_detached (fuel : Nat) (t : NanoTable) (disk : Disk) (r : NanoRecord)
    (hopen : t._cols ≠ []) (hr : r._cols = none) :
    save fuel t disk r = save fuel t disk (NanoRecord.attach t._cols t._recordSize) := by
  have h1 : (!r.columns) = true := by simp [columns, hr]
  have h2 : (!(NanoRecord.attach t._cols t._recordSize).columns) = false := by
    simp [columns, NanoRecord.attach]
  simp only [save, headerMissing_open t _ hopen, Run.bind_ok, Bool.false_eq_true, if_false, h1,
    h2, if_true]

theorem attached_attach (t : NanoTable) :
    Attached t (NanoRecord.attach t._cols t._recordSize) := by
  simp [Attached, NanoRecord.attach]

theorem save_row (fuel : Nat) (t : NanoTable) (g : List Byte) (r : NanoRecord)
    (hopen : t._cols ≠ []) (hrs : t._recordSize = rowBytes t._cols)
    (hs : ShortStrings t._cols) (hr : r._cols = none ∨ Attached t r) (hfuel : g.length < fuel) :
    ∃ r1 d1, save fuel t (some g) r = .ok (true, t, some (g ++ normRow t._cols d1), r1) ∧
      r1._cols = some t._cols ∧ r1._data = some d1 ∧ d1.length = rowBytes t._cols := by
  have key : ∀ r', Attached t r' →
      ∃ r1 d1, save fuel t (some g) r' = .ok (true, t, some (g ++ normRow t._cols d1), r1) ∧
        r1._cols = some t._cols ∧ r1._data = some d1 ∧ d1.length = rowBytes t._cols := by
    intro r' hatt
    cases hid : idIndex t._cols with
    | some i => exact save_attached fuel t g r' i hid hrs hs hatt hfuel
    | none =>
      obtain ⟨d, hc, hd, hdl⟩ := attached_data t r' hatt
      rw [hrs] at hdl
      exact ⟨r', d, save_noid fuel t g r' d hopen hid hs hc hd hdl, hc, hd, hdl⟩
  rcases hr with hr | hr
  · rw [save_detached fuel t _ r hopen hr]
    exact key _ (attached_attach t)
  · exact key r hr

/-- C16: on an opened table whose cached row size is the sum of the column
widths and whose string columns are narrower than the scratch buffer, `save` on
a detached record or a record of the table returns true and leaves the file as
it was followed by one row of exactly row-size bytes; in that row the field of
column `j` starts at the sum of the widths of the columns before it and is the
serialisation of the value the record holds for the column when `save` returns:
the 4 bytes of an Int32, the 4 bytes of a Float32, one byte 0 or 1 for a Bool,
the content of a FixedString (at most its width) followed by zero bytes up to
its width. -/
theorem save_appends (fuel : Nat) (t : NanoTable) (f : List Byte) (r : NanoRecord)
    (hopen : t._cols ≠ []) (hrs : t._recordSize = rowBytes t._cols)
    (hs : ShortStrings t._cols) (hr : r._cols = none ∨ Attached t r) (hfuel : f.length < fuel) :
    ∃ r1 row, save fuel t (some f) r = .ok (true, t, some (f ++ row), r1) ∧
      row.length = t._recordSize ∧
      ∀ j c, t._cols[j]? = some c →
        Encodes r1 j c (readAt row (colOffset t._cols j) (_typeSize c)) := by
  obtain ⟨r1, d1, hsave, hc, hd, hdl⟩ := save_row fuel t f r hopen hrs hs hr hfuel
  refine ⟨r1, _, hsave, ?_, fun j c hj => ?_⟩
  · rw [normRow_length _ _ hdl, hrs]
  · exact encodes_field r1 t._cols d1 j c hc hd hdl hj (hs c (List.getElem?_mem hj))

/-- Sample data for C16: the table with a column of each type, a file holding
its header, and a record of id 7. -/
theorem save_appends_witness :
    ∃ r1 row, save 100 mixTable (some (byteOf mixCols.length :: columnsBytes mixCols)) mixRec =
        .ok (true, mixTable, some (byteOf mixCols.length :: columnsBytes mixCols ++ row), r1) ∧
      row.length = mixTable._recordSize ∧
      ∀ j c, mixTable._cols[j]? = some c →
        Encodes r1 j c (readAt row (colOffset mixTable._cols j) (_typeSize c)) :=
  save_appends 100 mixTable (byteOf mixCols.length :: columnsBytes mixCols) mixRec (by decide)
    (by decide) (by decide) (Or.inr (by decide)) (by decide)

end NanoDB

namespace NanoDB
open NanoTable NanoRecord

/-! ### Access without a row buffer or past the last column -/

/-- C17: on a record without a row buffer (as the constructor and `detach`
leave it), for every index, and on any record for every index that is not below
the column count, `getInt` returns 0, `getFloat` returns 0.0 (bit pattern 0),
`getBool` returns false, `getString` returns the empty string, and `setInt`,
`setFloat`, `setBool` and `setString` leave the record as it was. -/
theorem safe_defaults (r : NanoRecord) (idx : Nat)
    (h : r = NanoRecord.new ∨ (∃ r0 : NanoRecord, r = r0.detach) ∨ r._data = none ∨
      r._colCount ≤ idx) :
    r.getInt idx = .ok 0 ∧ r.getFloat idx = .ok 0 ∧ r.getBool idx = .ok false ∧
      r.getString idx = .ok [] ∧
      (∀ v, r.setInt idx v = .ok r) ∧ (∀ v, r.setFloat idx v = .ok r) ∧
      (∀ v, r.setBool idx v = .ok r) ∧ (∀ s, r.setString idx s = .ok r) := by
  have h' : r._data = none ∨ r._colCount ≤ idx := by
    rcases h with h | ⟨r0, h⟩ | h | h
    · left; rw [h]; rfl
    · left; rw [h]; rfl
    · left; exact h
    · right; exact h
  rcases h' with h | h
  · simp only [getInt, getFloat, getBool, getString, setInt, setFloat, setBool, setString, h]
    simp
  · have hge : idx ≥ r._colCount := h
    cases hd : r._data with
    | none =>
      simp only [getInt, getFloat, getBool, getString, setInt, setFloat, setBool, setString, hd]
      simp
    | some d =>
      simp only [getInt, getFloat, getBool, getString, setInt, setFloat, setBool, setString, hd,
        hge, if_true]
      simp

/-- Sample data for C17: index 2 on a record of the sample schema, which has
two columns. -/
theorem safe_defaults_witness :
    (exRec 7 9).getInt 2 = .ok 0 ∧ (exRec 7 9).getFloat 2 = .ok 0 ∧
      (exRec 7 9).getBool 2 = .ok false ∧ (exRec 7 9).getString 2 = .ok [] ∧
      (∀ v, (exRec 7 9).setInt 2 v = .ok (exRec 7 9)) ∧
      (∀ v, (exRec 7 9).setFloat 2 v = .ok (exRec 7 9)) ∧
      (∀ v, (exRec 7 9).setBool 2 v = .ok (exRec 7 9)) ∧
      (∀ s, (exRec 7 9).setString 2 s = .ok (exRec 7 9)) :=
  safe_defaults (exRec 7 9) 2 (Or.inr (Or.inr (Or.inr (by decide))))

/-! ### Access by column name -/

/-- C18, as the claim states it, fails on sample data: on a record whose
column 0 holds 7, `getInt` of a name that matches no column returns 0 while
`getInt(0)` returns 7. -/
theorem name_getter_counterexample :
    (exRec 7 9).colIndexByName [120] = none ∧
      (exRec 7 9).getIntByName [120] = .ok 0 ∧ (exRec 7 9).getInt 0 = .ok 7 := by
  decide

/-- C18 (amended): for every record and every column name that matches no
column, the typed getters by name return the defaults, `getInt(name)` 0,
`getFloat(name)` 0.0, `getBool(name)` false, `getString(name)` and
`getCString(name)` the empty string; the proxy of `operator[]` holds index 0, so
that its conversions return what `getInt(0)`, `getFloat(0)`, `getBool(0)` and
`getString(0)` return. -/
theorem name_fallback (r : NanoRecord) (name : Str) (h : r.colIndexByName name = none) :
    r.getIntByName name = .ok 0 ∧ r.getFloatByName name = .ok 0 ∧
      r.getBoolByName name = .ok false ∧ r.getStringByName name = .ok [] ∧
      r.getCStringByName name = .ok [] ∧
      r.proxyIndex name = 0 ∧
      r.proxyInt name = r.getInt 0 ∧ r.proxyFloat name = r.getFloat 0 ∧
      r.proxyBool name = r.getBool 0 ∧ r.proxyString name = r.getString 0 := by
  simp only [getIntByName, getFloatByName, getBoolByName, getStringByName, getCStringByName,
    proxyIndex, proxyInt, proxyFloat, proxyBool, proxyString, h, and_self]

/-- Sample data for C18: a record of the sample schema and the name `x`. -/
theorem name_fallback_witness :
    (exRec 7 9).colIndexByName [120] = none ∧
      (exRec 7 9).getIntByName [120] = .ok 0 ∧ (exRec 7 9).getFloatByName [120] = .ok 0 ∧
      (exRec 7 9).getBoolByName [120] = .ok false ∧ (exRec 7 9).getStringByName [120] = .ok [] ∧
      (exRec 7 9).getCStringByName [120] = .ok [] ∧
      (exRec 7 9).proxyIndex [120] = 0 ∧
      (exRec 7 9).proxyInt [120] = (exRec 7 9).getInt 0 ∧
      (exRec 7 9).proxyFloat [120] = (exRec 7 9).getFloat 0 ∧
      (exRec 7 9).proxyBool [120] = (exRec 7 9).getBool 0 ∧
      (exRec 7 9).proxyString [120] = (exRec 7 9).getString 0 :=
  ⟨by decide, name_fallback (exRec 7 9) [120] (by decide)⟩

end NanoDB

namespace NanoDB
open NanoTable NanoRecord

/-! ### Scans that end -/

theorem slotIn_lt (t : NanoTable) (f : List Byte) (hpos : 0 < t._recordSize) (k fuel : Nat)
    (hin : slotPos t k + t._recordSize ≤ f.length) (hf : slotCount t f - k < fuel + 1) :
    slotCount t f - (k + 1) < fuel := by
  have := (slotIn_iff t f hpos k).mp hin
  omega

theorem recordsLoop_total (t : NanoTable) (f : List Byte) (hpos : 0 < t._recordSize) :
    ∀ (fuel k cnt : Nat), slotCount t f - k < fuel →
      ∃ n, recordsLoop t f fuel (slotPos t k) cnt = .ok n := by
  intro fuel
  induction fuel with
  | zero => intro k cnt h; omega
  | succ fuel ih =>
    intro k cnt h
    unfold recordsLoop
    by_cases hin : slotPos t k + t._recordSize ≤ f.length
    · have hlt := slotIn_lt t f hpos k fuel hin h
      simp only [hin, if_true]
      rw [← slotPos_succ]
      cases idIndex t._cols with
      | none => exact ih _ _ hlt
      | some i =>
        simp only
        split
        · exact ih _ _ hlt
        · exact ih _ _ hlt
    · simp only [hin, if_false]
      exact ⟨cnt, rfl⟩

theorem nextIdLoop_total (t : NanoTable) (f : List Byte) (i : Nat) (hpos : 0 < t._recordSize) :
    ∀ (fuel k : Nat) (acc : Int), slotCount t f - k < fuel →
      ∃ n, nextIdLoop t f i fuel (slotPos t k) acc = .ok n := by
  intro fuel
  induction fuel with
  | zero => intro k acc h; omega
  | succ fuel ih =>
    intro k acc h
    unfold nextIdLoop
    by_cases hin : slotPos t k + t._recordSize ≤ f.length
    · have hlt := slotIn_lt t f hpos k fuel hin h
      simp only [hin, if_true]
      rw [← slotPos_succ]
      split
      · exact ⟨acc, rfl⟩
      · exact ih _ _ hlt
    · simp only [hin, if_false]
      exact ⟨acc, rfl⟩

theorem findIntLoop_total (t : NanoTable) (f : List Byte) (i : Nat) (v : Int)
    (hpos : 0 < t._recordSize) :
    ∀ (fuel k : Nat), slotCount t f - k < fuel →
      ∃ o, findIntLoop t f i v fuel (slotPos t k) = .ok o ∧
        ∀ p, o = some p → ∃ k1, p = slotPos t k1 ∧ SlotIn t f k1 := by
  intro fuel
  induction fuel with
  | zero => intro k h; omega
  | succ fuel ih =>
    intro k h
    unfold findIntLoop
    by_cases hin : slotPos t k + t._recordSize ≤ f.length
    · have hlt := slotIn_lt t f hpos k fuel hin h
      simp only [hin, if_true]
      rw [← slotPos_succ]
      split
      · exact ⟨none, rfl, fun p hp => by cases hp⟩
      · split
        · exact ⟨some (slotPos t k), rfl, fun p hp => ⟨k, (Option.some.inj hp).symm, hin⟩⟩
        · exact ih _ hlt
    · simp only [hin, if_false]
      exact ⟨none, rfl, fun p hp => by cases hp⟩

theorem findStringLoop_total (t : NanoTable) (f : List Byte) (i : Nat) (c : ColumnDef)
    (val : Str) (hpos : 0 < t._recordSize) (hsz : c.size < NANO_MAX_STR_LEN) :
    ∀ (fuel k : Nat), slotCount t f - k < fuel →
      ∃ o, findStringLoop t f i c val fuel (slotPos t k) = .ok o ∧
        ∀ p, o = some p → ∃ k1, p = slotPos t k1 ∧ SlotIn t f k1 := by
  intro fuel
  induction fuel with
  | zero => intro k h; omega
  | succ fuel ih =>
    intro k h
    unfold findStringLoop
    by_cases hin : slotPos t k + t._recordSize ≤ f.length
    · have hlt := slotIn_lt t f hpos k fuel hin h
      have hl : (readAt f (slotPos t k + colOffset t._cols i) c.size).length < NANO_MAX_STR_LEN :=
        Nat.lt_of_le_of_lt (readAt_length_le _ _ _) hsz
      have hle : (readAt f (slotPos t k + colOffset t._cols i) c.size).length ≤ NANO_MAX_STR_LEN :=
        Nat.le_of_lt hl
      have hcs := cString_scratch _ hl
      simp only [scratch, hle, if_true, Run.bind_ok] at hcs
      simp only [hin, if_true, scratch, hle, Run.bind_ok]
      rw [← slotPos_succ]
      split
      · exact ⟨none, rfl, fun p hp => by cases hp⟩
      · rw [hcs, Run.bind_ok]
        split
        · exact ⟨some (slotPos t k), rfl, fun p hp => ⟨k, (Option.some.inj hp).symm, hin⟩⟩
        · exact ih _ hlt
    · simp only [hin, if_false]
      exact ⟨none, rfl, fun p hp => by cases hp⟩

theorem recordsLoop_stuck (t : NanoTable) (f : List Byte) (pos : Nat)
    (hrs : t._recordSize = 0) (hid : idIndex t._cols = none) (hp : pos ≤ f.length) :
    ∀ (fuel cnt : Nat), recordsLoop t f fuel pos cnt = .fuel := by
  intro fuel
  induction fuel with
  | zero => intro cnt; rfl
  | succ fuel ih =>
    intro cnt
    unfold recordsLoop
    have hin : pos + t._recordSize ≤ f.length := by rw [hrs]; exact hp
    simp only [hin, if_true, hid]
    rw [hrs, Nat.add_zero]
    exact ih _

theorem records_stuck (t : NanoTable) (f : List Byte) (hopen : t._cols ≠ [])
    (hrs : t._recordSize = 0) (hid : idIndex t._cols = none)
    (hp : t._headerSizeBytes ≤ f.length) (fuel : Nat) :
    records fuel t (some f) = .fuel := by
  simp only [records, lazyLoad_open t _ hopen, Run.bind_ok,
    recordsLoop_stuck t f _ hrs hid hp fuel 0, Run.bind]

theorem records_total (fuel : Nat) (t : NanoTable) (f : List Byte) (hopen : t._cols ≠ [])
    (hpos : 0 < t._recordSize) (hfuel : f.length < fuel) :
    ∃ n, records fuel t (some f) = .ok (n, t) := by
  obtain ⟨n, hn⟩ := recordsLoop_total t f hpos fuel 0 0
    (by have := slotCount_le t f; omega)
  rw [slotPos_zero] at hn
  exact ⟨n, by simp only [records, lazyLoad_open t _ hopen, Run.bind_ok, hn]⟩

theorem nextId_total (fuel : Nat) (t : NanoTable) (f : List Byte) (hopen : t._cols ≠ [])
    (hpos : 0 < t._recordSize) (hfuel : f.length < fuel) :
    ∃ n, _nextId fuel t (some f) = .ok (n, t) := by
  cases hid : idIndex t._cols with
  | none => exact ⟨1, by simp only [_nextId, lazyLoad_open t _ hopen, Run.bind_ok, hid]⟩
  | some i =>
    obtain ⟨n, hn⟩ := nextIdLoop_total t f i hpos fuel 0 0
      (by have := slotCount_le t f; omega)
    rw [slotPos_zero] at hn
    exact ⟨wrap32 (n + 1), by simp only [_nextId, lazyLoad_open t _ hopen, Run.bind_ok, hid, hn]⟩

theorem findOffsetById_total (fuel : Nat) (t : NanoTable) (f : List Byte) (v : Int)
    (hopen : t._cols ≠ []) (hpos : 0 < t._recordSize) (hfuel : f.length < fuel) :
    ∃ o, _findOffsetById fuel t (some f) v = .ok (o, t) ∧
      ∀ p, o = some p → ∃ k, p = slotPos t k ∧ SlotIn t f k := by
  cases hid : idIndex t._cols with
  | none =>
    exact ⟨none, findOffsetById_noid fuel t _ v hopen hid, fun p hp => by cases hp⟩
  | some i =>
    obtain ⟨o, ho, hp⟩ := findIntLoop_total t f i v hpos fuel 0
      (by have := slotCount_le t f; omega)
    exact ⟨o, by rw [findOffsetById_open fuel t f v i hid, ho, Run.bind_ok], hp⟩

theorem findOffsetByColInt_total (fuel : Nat) (t : NanoTable) (f : List Byte) (col : Str)
    (v : Int) (hopen : t._cols ≠ []) (hpos : 0 < t._recordSize) (hfuel : f.length < fuel) :
    ∃ o, _findOffsetByColInt fuel t (some f) col v = .ok (o, t) ∧
      ∀ p, o = some p → ∃ k, p = slotPos t k ∧ SlotIn t f k := by
  rcases typed_col_cases t._cols col TAG_I with ⟨idx, c, hci, hc, ht⟩ | hno
  · obtain ⟨o, ho, hp⟩ := findIntLoop_total t f idx v hpos fuel 0
      (by have := slotCount_le t f; omega)
    exact ⟨o, by rw [findOffsetByColInt_col fuel t f col v idx c hopen hci hc ht, ho, Run.bind_ok],
      hp⟩
  · exact ⟨none, findOffsetByColInt_nocol fuel t f col v hopen hno, fun p hp => by cases hp⟩

theorem findOffsetByColString_total (fuel : Nat) (t : NanoTable) (f : List Byte) (col val : Str)
    (hopen : t._cols ≠ []) (hpos : 0 < t._recordSize) (hs : ShortStrings t._cols)
    (hfuel : f.length < fuel) :
    ∃ o, _findOffsetByColString fuel t (some f) col val = .ok (o, t) ∧
      ∀ p, o = some p → ∃ k, p = slotPos t k ∧ SlotIn t f k := by
  rcases typed_col_cases t._cols col TAG_S with ⟨idx, c, hci, hc, ht⟩ | hno
  · obtain ⟨o, ho, hp⟩ := findStringLoop_total t f idx c val hpos
      (hs c (List.getElem?_mem hc) ht) fuel 0 (by have := slotCount_le t f; omega)
    exact ⟨o, by
      rw [findOffsetByColString_col fuel t f col val idx c hopen hci hc ht, ho, Run.bind_ok], hp⟩
  · exact ⟨none, findOffsetByColString_nocol fuel t f col val hopen hno, fun p hp => by cases hp⟩

end NanoDB

namespace NanoDB
open NanoTable NanoRecord

theorem recordsLoop_step (t : NanoTable) (f : List Byte) (n k cnt : Nat) :
    (SlotIn t f k → ∃ cnt1,
      recordsLoop t f (n + 1) (slotPos t k) cnt = recordsLoop t f n (slotPos t (k + 1)) cnt1) ∧
    (¬ SlotIn t f k → recordsLoop t f (n + 1) (slotPos t k) cnt = .ok cnt) := by
  constructor
  · intro hin
    have hin' : slotPos t k + t._recordSize ≤ f.length := hin
    rw [recordsLoop]
    simp only [hin', if_true]
    rw [← slotPos_succ]
    cases idIndex t._cols with
    | none => exact ⟨_, rfl⟩
    | some i =>
      simp only
      split
      · exact ⟨_, rfl⟩
      · exact ⟨_, rfl⟩
  · intro hout
    have hout' : ¬ (slotPos t k + t._recordSize ≤ f.length) := hout
    unfold recordsLoop
    simp only [hout', if_false]

theorem nextIdLoop_step (t : NanoTable) (f : List Byte) (i n k : Nat) (acc : Int) :
    (SlotIn t f k → nextIdLoop t f i (n + 1) (slotPos t k) acc = .ok acc ∨ ∃ acc1,
      nextIdLoop t f i (n + 1) (slotPos t k) acc = nextIdLoop t f i n (slotPos t (k + 1)) acc1) ∧
    (¬ SlotIn t f k → nextIdLoop t f i (n + 1) (slotPos t k) acc = .ok acc) := by
  constructor
  · intro hin
    have hin' : slotPos t k + t._recordSize ≤ f.length := hin
    rw [nextIdLoop]
    simp only [hin', if_true]
    rw [← slotPos_succ]
    split
    · left; rfl
    · right; exact ⟨_, rfl⟩
  · intro hout
    have hout' : ¬ (slotPos t k + t._recordSize ≤ f.length) := hout
    unfold nextIdLoop
    simp only [hout', if_false]

theorem findIntLoop_step (t : NanoTable) (f : List Byte) (i : Nat) (v : Int) (n k : Nat) :
    (SlotIn t f k → findIntLoop t f i v (n + 1) (slotPos t k) = .ok none ∨
      findIntLoop t f i v (n + 1) (slotPos t k) = .ok (some (slotPos t k)) ∨
      findIntLoop t f i v (n + 1) (slotPos t k) = findIntLoop t f i v n (slotPos t (k + 1))) ∧
    (¬ SlotIn t f k → findIntLoop t f i v (n + 1) (slotPos t k) = .ok none) := by
  constructor
  · intro hin
    have hin' : slotPos t k + t._recordSize ≤ f.length := hin
    rw [findIntLoop]
    simp only [hin', if_true]
    rw [← slotPos_succ]
    split
    · left; rfl
    · split
      · right; left; rfl
      · right; right; rfl
  · intro hout
    have hout' : ¬ (slotPos t k + t._recordSize ≤ f.length) := hout
    unfold findIntLoop
    simp only [hout', if_false]

theorem scratch_cases (x : List Byte) : (∃ buf, scratch x = .ok buf) ∨ scratch x = .ub := by
  unfold scratch
  split
  · left; exact ⟨_, rfl⟩
  · right; rfl

theorem cString_cases (x : List Byte) : (∃ s, cString x = .ok s) ∨ cString x = .ub := by
  unfold cString
  split
  · left; exact ⟨_, rfl⟩
  · right; rfl

theorem findStringLoop_visit (t : NanoTable) (f : List Byte) (i : Nat) (c : ColumnDef)
    (val : Str) (n k : Nat) :
    (SlotIn t f k → findStringLoop t f i c val (n + 1) (slotPos t k) = .ub ∨
      findStringLoop t f i c val (n + 1) (slotPos t k) = .ok none ∨
      findStringLoop t f i c val (n + 1) (slotPos t k) = .ok (some (slotPos t k)) ∨
      findStringLoop t f i c val (n + 1) (slotPos t k) =
        findStringLoop t f i c val n (slotPos t (k + 1))) ∧
    (¬ SlotIn t f k → findStringLoop t f i c val (n + 1) (slotPos t k) = .ok none) := by
  constructor
  · intro hin
    have hin' : slotPos t k + t._recordSize ≤ f.length := hin
    rw [findStringLoop]
    simp only [hin', if_true]
    rw [← slotPos_succ]
    rcases scratch_cases (readAt f (slotPos t k + colOffset t._cols i) c.size) with ⟨buf, hb⟩ | hb
    · rw [hb]
      simp only [Run.bind_ok]
      split
      · right; left; rfl
      · rcases cString_cases buf with ⟨s, hc⟩ | hc
        · rw [hc]
          simp only [Run.bind_ok]
          split
          · right; right; left; rfl
          · right; right; right; rfl
        · rw [hc]; left; rfl
    · rw [hb]; left; rfl
  · intro hout
    have hout' : ¬ (slotPos t k + t._recordSize ≤ f.length) := hout
    unfold findStringLoop
    simp only [hout', if_false]

end NanoDB

namespace NanoDB
open NanoTable NanoRecord

/-! ### The length of the file along a run of calls -/

theorem Run.bind_eq_ok {α β : Type} (x : Run α) (k : α → Run β) (b : β)
    (h : x.bind k = .ok b) : ∃ a, x = .ok a ∧ k a = .ok b := by
  cases x with
  | ok a => exact ⟨a, rfl, h⟩
  | ub => cases h
  | fuel => cases h

theorem nextId_table (fuel : Nat) (t : NanoTable) (disk : Disk) (n : Int) (t2 : NanoTable)
    (hopen : t._cols ≠ []) (h : _nextId fuel t disk = .ok (n, t2)) : t2 = t := by
  simp only [_nextId, lazyLoad_open t _ hopen, Run.bind_ok] at h
  cases hid : idIndex t._cols with
  | none =>
    rw [hid] at h
    cases h; rfl
  | some i =>
    rw [hid] at h
    cases disk with
    | none => cases h; rfl
    | some f =>
      obtain ⟨m, _, hm⟩ := Run.bind_eq_ok _ _ _ h
      cases hm; rfl

theorem findOffsetById_table (fuel : Nat) (t : NanoTable) (disk : Disk) (v : Int)
    (o : Option Nat) (t2 : NanoTable) (hopen : t._cols ≠ [])
    (h : _findOffsetById fuel t disk v = .ok (o, t2)) :
    t2 = t ∧ ∀ p, o = some p → ∃ f k, disk = some f ∧ p = slotPos t k ∧ SlotIn t f k := by
  have ht : t2 = t := by
    have h' := h
    simp only [_findOffsetById, lazyLoad_open t _ hopen, Run.bind_ok] at h'
    cases hid : idIndex t._cols with
    | none =>
      rw [hid] at h'
      cases h'; rfl
    | some i =>
      rw [hid] at h'
      cases disk with
      | none => cases h'; rfl
      | some f =>
        obtain ⟨m, _, hm⟩ := Run.bind_eq_ok _ _ _ h'
        cases hm; rfl
  subst ht
  refine ⟨rfl, fun p hp => ?_⟩
  subst hp
  obtain ⟨f, i, k, hd, _, hpk, hin, _⟩ := findOffsetById_sound fuel t2 disk v p t2 h
  exact ⟨f, k, hd, hpk, hin⟩

theorem writeRecordAt_cases (t : NanoTable) (g : List Byte) (off : Nat) (rec : NanoRecord)
    (b : Bool) (g2 : List Byte) (h : _writeRecordAt t g off rec = .ok (b, g2)) :
    (b = false ∧ g2 = g) ∨
      (b = true ∧ ∃ bs, bs.length = rowBytes t._cols ∧ g2 = writeAt g off bs) := by
  unfold _writeRecordAt at h
  split at h
  · cases h; left; exact ⟨rfl, rfl⟩
  · obtain ⟨bs, hbs, hk⟩ := Run.bind_eq_ok _ _ _ h
    cases hk
    right
    exact ⟨rfl, bs, writeLoop_length rec t._cols 0 bs hbs, rfl⟩

theorem save_length (fuel : Nat) (t : NanoTable) (g : List Byte) (r : NanoRecord)
    (b : Bool) (t2 : NanoTable) (d2 : Disk) (r2 : NanoRecord)
    (hopen : t._cols ≠ []) (hrs : t._recordSize = rowBytes t._cols)
    (h : save fuel t (some g) r = .ok (b, t2, d2, r2)) :
    ∃ g2, d2 = some g2 ∧ t2 = t ∧
      g2.length = g.length + (if b then t._recordSize else 0) := by
  simp only [save, headerMissing_open t _ hopen, Run.bind_ok, Bool.false_eq_true, if_false,
    Option.getD_some] at h
  obtain ⟨q, hq, h⟩ := Run.bind_eq_ok _ _ _ h
  have hq2 : q.2 = t := by
    cases hid : idIndex t._cols with
    | none =>
      rw [hid] at hq
      cases hq; rfl
    | some i =>
      rw [hid] at hq
      obtain ⟨cur, _, hq⟩ := Run.bind_eq_ok _ _ _ hq
      split at hq
      · obtain ⟨n, hn, hq⟩ := Run.bind_eq_ok _ _ _ hq
        obtain ⟨rec2, _, hq⟩ := Run.bind_eq_ok _ _ _ hq
        cases hq
        exact nextId_table fuel t _ n.1 n.2 hopen hn
      · cases hq; rfl
  obtain ⟨w, hw, h⟩ := Run.bind_eq_ok _ _ _ h
  cases h
  rw [hq2] at hw ⊢
  rcases writeRecordAt_cases t g g.length q.1 w.1 w.2 hw with ⟨hb, hg⟩ | ⟨hb, bs, hlen, hg⟩
  · exact ⟨w.2, rfl, rfl, by rw [hb, hg]; simp⟩
  · refine ⟨w.2, rfl, rfl, ?_⟩
    rw [hb, hg, writeAt_end, List.length_append, hlen, hrs]
    simp

theorem update_length (fuel : Nat) (t : NanoTable) (g : List Byte) (r : NanoRecord)
    (b : Bool) (t2 : NanoTable) (d2 : Disk)
    (hopen : t._cols ≠ []) (hrs : t._recordSize = rowBytes t._cols)
    (h : update fuel t (some g) r = .ok (b, t2, d2)) :
    ∃ g2, d2 = some g2 ∧ t2 = t ∧ g2.length = g.length := by
  simp only [update, headerMissing_open t _ hopen, Run.bind_ok, Bool.false_eq_true, if_false]
    at h
  cases hid : idIndex t._cols with
  | none =>
    rw [hid] at h
    cases h
    exact ⟨g, rfl, rfl, rfl⟩
  | some i =>
    rw [hid] at h
    obtain ⟨idv, _, h⟩ := Run.bind_eq_ok _ _ _ h
    split at h
    · cases h
      exact ⟨g, rfl, rfl, rfl⟩
    · obtain ⟨o, ho, h⟩ := Run.bind_eq_ok _ _ _ h
      obtain ⟨ht, hp⟩ := findOffsetById_table fuel t _ idv o.1 o.2 hopen ho
      cases ho1 : o.1 with
      | none =>
        rw [ho1] at h
        cases h
        exact ⟨g, rfl, ht, rfl⟩
      | some off =>
        rw [ho1] at h
        obtain ⟨w, hw, h⟩ := Run.bind_eq_ok _ _ _ h
        cases h
        obtain ⟨f, k, hf, hoff, hin⟩ := hp off ho1
        cases hf
        rw [ht] at hw
        rcases writeRecordAt_cases t g off r w.1 w.2 hw with ⟨_, hg⟩ | ⟨_, bs, hlen, hg⟩
        · exact ⟨w.2, rfl, ht, by rw [hg]⟩
        · refine ⟨w.2, rfl, ht, ?_⟩
          rw [hg, writeAt_length]
          have hin' : slotPos t k + t._recordSize ≤ g.length := hin
          rw [hlen, ← hrs, hoff]
          exact hin'

theorem drop_length (fuel : Nat) (t : NanoTable) (g : List Byte) (v : Int)
    (b : Bool) (t2 : NanoTable) (d2 : Disk)
    (hopen : t._cols ≠ []) (hrs : t._recordSize = rowBytes t._cols)
    (h : drop fuel t (some g) v = .ok (b, t2, d2)) :
    ∃ g2, d2 = some g2 ∧ t2 = t ∧ g2.length = g.length := by
  simp only [drop] at h
  obtain ⟨o, ho, h⟩ := Run.bind_eq_ok _ _ _ h
  obtain ⟨ht, hp⟩ := findOffsetById_table fuel t _ v o.1 o.2 hopen ho
  cases ho1 : o.1 with
  | none =>
    rw [ho1] at h
    cases h
    exact ⟨g, rfl, ht, rfl⟩
  | some off =>
    rw [ho1] at h
    simp only at h
    rw [ht] at h
    cases hid : idIndex t._cols with
    | none =>
      rw [hid] at h
      cases h
      exact ⟨g, rfl, rfl, rfl⟩
    | some i =>
      rw [hid] at h
      cases h
      obtain ⟨f, k, hf, hoff, hin⟩ := hp off ho1
      cases hf
      refine ⟨_, rfl, rfl, ?_⟩
      rw [writeAt_length]
      have := idField_in t g i k hid hrs hin
      rw [le32_length, hoff]
      exact this

theorem runCall_length (fuel : Nat) (t : NanoTable) (g : List Byte) (c : Call)
    (b : Bool) (t2 : NanoTable) (d2 : Disk)
    (hopen : t._cols ≠ []) (hrs : t._recordSize = rowBytes t._cols)
    (h : runCall fuel t (some g) c = .ok (b, t2, d2)) :
    ∃ g2, d2 = some g2 ∧ t2 = t ∧
      g2.length = g.length + (if c.isSave && b then t._recordSize else 0) := by
  cases c with
  | save r =>
    simp only [runCall] at h
    obtain ⟨s, hs, h⟩ := Run.bind_eq_ok _ _ _ h
    cases h
    obtain ⟨g2, h1, h2, h3⟩ := save_length fuel t g r s.1 s.2.1 s.2.2.1 s.2.2.2 hopen hrs hs
    exact ⟨g2, h1, h2, by simpa [Call.isSave] using h3⟩
  | update r =>
    obtain ⟨g2, h1, h2, h3⟩ := update_length fuel t g r b t2 d2 hopen hrs h
    exact ⟨g2, h1, h2, by simpa [Call.isSave] using h3⟩
  | drop v =>
    obtain ⟨g2, h1, h2, h3⟩ := drop_length fuel t g v b t2 d2 hopen hrs h
    exact ⟨g2, h1, h2, by simpa [Call.isSave] using h3⟩

theorem runCalls_length (fuel : Nat) (t : NanoTable)
    (hopen : t._cols ≠ []) (hrs : t._recordSize = rowBytes t._cols) :
    ∀ (cs : List Call) (g : List Byte) (n : Nat) (t2 : NanoTable) (d2 : Disk),
      runCalls fuel t (some g) cs = .ok (n, t2, d2) →
      ∃ g2, d2 = some g2 ∧ t2 = t ∧ g2.length = g.length + n * t._recordSize := by
  intro cs
  induction cs with
  | nil =>
    intro g n t2 d2 h
    simp only [runCalls] at h
    cases h
    exact ⟨g, rfl, rfl, by simp⟩
  | cons c cs ih =>
    intro g n t2 d2 h
    simp only [runCalls] at h
    obtain ⟨s, hs, h⟩ := Run.bind_eq_ok _ _ _ h
    obtain ⟨q, hq, h⟩ := Run.bind_eq_ok _ _ _ h
    cases h
    obtain ⟨g1, h1, h2, h3⟩ := runCall_length fuel t g c s.1 s.2.1 s.2.2 hopen hrs hs
    rw [h1, h2] at hq
    obtain ⟨g2, k1, k2, k3⟩ := ih g1 q.1 q.2.1 q.2.2 hq
    refine ⟨g2, k1, k2, ?_⟩
    rw [k3, h3, Nat.add_mul]
    split <;> omega

theorem slot_of_byte (t : NanoTable) (f : List Byte) (n p : Nat)
    (hlen : f.length = t._headerSizeBytes + n * t._recordSize)
    (h1 : t._headerSizeBytes ≤ p) (h2 : p < f.length) :
    ∃ k, (SlotIn t f k ∧ slotPos t k ≤ p ∧ p < slotPos t k + t._recordSize) ∧
      ∀ j, SlotIn t f j ∧ slotPos t j ≤ p ∧ p < slotPos t j + t._recordSize → j = k := by
  have hpos : 0 < t._recordSize := by
    rcases Nat.eq_zero_or_pos t._recordSize with h0 | h0
    · rw [h0, Nat.mul_zero] at hlen; omega
    · exact h0
  have hk1 : (p - t._headerSizeBytes) / t._recordSize * t._recordSize ≤ p - t._headerSizeBytes :=
    Nat.div_mul_le_self _ _
  have hk2 : p - t._headerSizeBytes <
      (p - t._headerSizeBytes) / t._recordSize * t._recordSize + t._recordSize :=
    Nat.lt_div_mul_add hpos
  have hkn : (p - t._headerSizeBytes) / t._recordSize < n := by
    apply Nat.lt_of_mul_lt_mul_right (a := t._recordSize)
    omega
  have hkn2 : ((p - t._headerSizeBytes) / t._recordSize + 1) * t._recordSize ≤
      n * t._recordSize := Nat.mul_le_mul_right _ hkn
  rw [Nat.add_mul, Nat.one_mul] at hkn2
  refine ⟨(p - t._headerSizeBytes) / t._recordSize, ⟨?_, ?_, ?_⟩, ?_⟩
  · unfold SlotIn slotPos; omega
  · unfold slotPos; omega
  · unfold slotPos; omega
  · rintro j ⟨_, hj1, hj2⟩
    unfold slotPos at hj1 hj2
    rcases Nat.lt_trichotomy j ((p - t._headerSizeBytes) / t._recordSize) with h | h | h
    · have := Nat.mul_le_mul_right t._recordSize h
      rw [Nat.succ_mul] at this
      omega
    · exact h
    · have := Nat.mul_le_mul_right t._recordSize h
      rw [Nat.succ_mul] at this
      omega

end NanoDB

namespace NanoDB
open NanoTable NanoRecord

theorem writeRecordAt_at (t : NanoTable) (g : List Byte) (off : Nat) (r : NanoRecord)
    (d : List Byte) (hc : r._cols = some t._cols) (hd : r._data = some d)
    (hlen : d.length = rowBytes t._cols) (hs : ShortStrings t._cols) :
    _writeRecordAt t g off r = .ok (true, writeAt g off (normRow t._cols d)) := by
  have hw := writeLoop_eq r t._cols [] [] d (by simpa using hc) (by simpa using hd) rfl hlen hs
  simp only [List.length_nil] at hw
  simp only [_writeRecordAt, columns_of_cols r _ hc, Bool.false_eq_true, if_false, hw, Run.bind_ok]

theorem getInt_nocols (r : NanoRecord) (i : Nat) (h : r._cols = none) : r.getInt i = .ok 0 := by
  unfold NanoRecord.getInt
  cases r._data with
  | none => rfl
  | some d =>
    have : i ≥ r._colCount := by simp [NanoRecord._colCount, h]
    simp only [this, if_true]

theorem update_total (fuel : Nat) (t : NanoTable) (g : List Byte) (r : NanoRecord)
    (hopen : t._cols ≠ []) (hrs : t._recordSize = rowBytes t._cols)
    (hs : ShortStrings t._cols) (hr : r._cols = none ∨ Attached t r) (hfuel : g.length < fuel) :
    ∃ b g1, update fuel t (some g) r = .ok (b, t, some g1) := by
  cases hid : idIndex t._cols with
  | none => exact ⟨false, g, update_false_of_noid fuel t _ r hopen hid⟩
  | some i =>
    rcases hr with hr | hr
    · exact ⟨false, g, update_false_of_zero fuel t _ r i hid (getInt_nocols r i hr)⟩
    · obtain ⟨c, hci, _, hct⟩ := idIndex_some _ _ hid
      obtain ⟨d, hc, hd, hdl⟩ := attached_data t r hr
      rw [hrs] at hdl
      have hg := getInt_attached r t._cols d i c hc hd hdl hci hct
      by_cases hv : toInt32 (leNat (readAt d (colOffset t._cols i) 4)) = 0
      · rw [hv] at hg
        exact ⟨false, g, update_false_of_zero fuel t _ r i hid hg⟩
      · obtain ⟨o, ho, _⟩ := findOffsetById_total fuel t g
          (toInt32 (leNat (readAt d (colOffset t._cols i) 4))) hopen
          (recordSize_pos t i hrs hid) hfuel
        cases o with
        | none =>
          exact ⟨false, g, by
            simp only [update, headerMissing_open t _ hopen, Run.bind_ok, Bool.false_eq_true,
              if_false, hid, hg, hv, ho]⟩
        | some off =>
          exact ⟨true, writeAt g off (normRow t._cols d), by
            simp only [update, headerMissing_open t _ hopen, Run.bind_ok, Bool.false_eq_true,
              if_false, hid, hg, hv, ho, writeRecordAt_at t g off r d hc hd hdl hs]⟩

theorem drop_total (fuel : Nat) (t : NanoTable) (g : List Byte) (v : Int)
    (hopen : t._cols ≠ []) (hrs : t._recordSize = rowBytes t._cols) (hfuel : g.length < fuel) :
    ∃ b g1, drop fuel t (some g) v = .ok (b, t, some g1) := by
  cases hid : idIndex t._cols with
  | none =>
    exact ⟨false, g, by
      simp only [drop, findOffsetById_noid fuel t _ v hopen hid, Run.bind_ok]⟩
  | some i =>
    obtain ⟨o, ho, _⟩ := findOffsetById_total fuel t g v hopen (recordSize_pos t i hrs hid) hfuel
    cases o with
    | none => exact ⟨false, g, by simp only [drop, ho, Run.bind_ok]⟩
    | some off =>
      exact ⟨true, writeAt g (off + colOffset t._cols i) (le32 0), by
        simp only [drop, ho, Run.bind_ok, hid]⟩

theorem runCall_total (fuel : Nat) (t : NanoTable) (g : List Byte) (c : Call)
    (hopen : t._cols ≠ []) (hrs : t._recordSize = rowBytes t._cols)
    (hs : ShortStrings t._cols) (hc : CallFits t c) (hfuel : g.length < fuel) :
    ∃ b g1, runCall fuel t (some g) c = .ok (b, t, some g1) := by
  cases c with
  | save r =>
    obtain ⟨r1, d1, h, _⟩ := save_row fuel t g r hopen hrs hs hc hfuel
    exact ⟨true, g ++ normRow t._cols d1, by simp only [runCall, h, Run.bind_ok]⟩
  | update r => exact update_total fuel t g r hopen hrs hs hc hfuel
  | drop v => exact drop_total fuel t g v hopen hrs hfuel

theorem runCalls_total (fuel : Nat) (t : NanoTable)
    (hopen : t._cols ≠ []) (hrs : t._recordSize = rowBytes t._cols)
    (hs : ShortStrings t._cols) :
    ∀ (cs : List Call) (g : List Byte), (∀ c ∈ cs, CallFits t c) →
      g.length + cs.length * t._recordSize < fuel →
      ∃ n g1, runCalls fuel t (some g) cs = .ok (n, t, some g1) := by
  intro cs
  induction cs with
  | nil => intro g _ _; exact ⟨0, g, rfl⟩
  | cons c cs ih =>
    intro g hfit hfuel
    rw [List.length_cons, Nat.add_mul, Nat.one_mul] at hfuel
    obtain ⟨b, g1, h1⟩ := runCall_total fuel t g c hopen hrs hs
      (hfit c (List.mem_cons_self _ _)) (by omega)
    obtain ⟨g2, e1, _, e3⟩ := runCall_length fuel t g c b t (some g1) hopen hrs h1
    cases e1
    have hle : g1.length ≤ g.length + t._recordSize := by
      rw [e3]; split <;> omega
    obtain ⟨n, g3, h2⟩ := ih g1 (fun c1 hc1 => hfit c1 (List.mem_cons_of_mem _ hc1)) (by omega)
    exact ⟨(if c.isSave && b then 1 else 0) + n, g3, by
      simp only [runCalls, h1, Run.bind_ok, h2]⟩

end NanoDB

namespace NanoDB
open NanoTable NanoRecord

theorem begin_fresh (t0 : NanoTable) (cols : List ColumnDef) (h : Storable cols) :
    begin t0 none (some cols) =
      .ok (true, { _cols := cols, _recordSize := recordSizeOf cols },
        some (byteOf cols.length :: columnsBytes cols)) ∧
    (NanoTable.mk cols (recordSizeOf cols))._headerSizeBytes =
      (byteOf cols.length :: columnsBytes cols).length := by
  obtain ⟨h1, h16, hc⟩ := h
  have hw := writeHeader_stored t0 cols h16
  rw [storedCols_id cols hc] at hw
  have hne : ¬ cols.length = 0 := by omega
  constructor
  · simp only [begin, _exists, Option.isSome_none, Bool.false_eq_true, if_false, hne, hw]
  · rw [headerSize_eq, List.length_cons, columnsBytes_length_short cols (fun c h => (hc c h).1)]
    show 1 + (cols.map (fun c => c.name.length + 4)).sum = _
    omega

/-- C19: for a table created by `begin` on a file that does not exist, from a
schema the header holds as it is and whose widths add up to less than 65536,
the file `begin` leaves has the header size; after any run of `save`, `update`
and `drop(id)` calls the table is unchanged and the file size is
`header_size + n * row_size`, `n` the number of `save` calls that returned
true, so that it is not below the size `begin` left and every byte after the
header lies in exactly one complete row slot; each single call, on any file,
adds `row_size` to the size when it is a `save` that returns true and leaves
the size as it is otherwise; and the run does return when the string columns
are narrower than the scratch buffer, every record passed is detached or a
record of the table, and the fuel exceeds the size the file can reach. -/
theorem file_size_invariant (fuel : Nat) (cols : List ColumnDef) (t : NanoTable) (f : List Byte)
    (calls : List Call) (hcols : Storable cols) (hrow : rowBytes cols < 65536)
    (hbegin : begin NanoTable.new none (some cols) = .ok (true, t, some f)) :
    f.length = t._headerSizeBytes ∧
    (∀ n t1 d1, runCalls fuel t (some f) calls = .ok (n, t1, d1) →
      ∃ f1, d1 = some f1 ∧ t1 = t ∧ f1.length = t._headerSizeBytes + n * t._recordSize ∧
        f.length ≤ f1.length ∧
        ∀ p, t._headerSizeBytes ≤ p → p < f1.length →
          ∃ k, (SlotIn t f1 k ∧ slotPos t k ≤ p ∧ p < slotPos t k + t._recordSize) ∧
            ∀ j, SlotIn t f1 j ∧ slotPos t j ≤ p ∧ p < slotPos t j + t._recordSize → j = k) ∧
    (∀ g c b t2 d2, runCall fuel t (some g) c = .ok (b, t2, d2) →
      ∃ g2, d2 = some g2 ∧ t2 = t ∧
        g2.length = g.length + (if c.isSave && b then t._recordSize else 0)) ∧
    (ShortStrings cols → (∀ c ∈ calls, CallFits t c) →
      f.length + calls.length * t._recordSize < fuel →
      ∃ n f1, runCalls fuel t (some f) calls = .ok (n, t, some f1)) := by
  obtain ⟨hb, hsz⟩ := begin_fresh NanoTable.new cols hcols
  rw [hb] at hbegin
  simp only [Run.ok.injEq, Prod.mk.injEq, Option.some.injEq, true_and] at hbegin
  obtain ⟨ht, hf⟩ := hbegin
  subst ht
  subst hf
  have hopen : (NanoTable.mk cols (recordSizeOf cols))._cols ≠ [] := by
    intro h0
    have h1 := hcols.1
    have h0' : cols = [] := h0
    rw [h0'] at h1
    simp at h1
  have hrs : (NanoTable.mk cols (recordSizeOf cols))._recordSize =
      rowBytes (NanoTable.mk cols (recordSizeOf cols))._cols := by
    show recordSizeOf cols = rowBytes cols
    rw [recordSizeOf_eq, Nat.mod_eq_of_lt hrow]
  refine ⟨hsz.symm, fun n t1 d1 hrun => ?_,
    fun g c b t2 d2 h => runCall_length fuel _ g c b t2 d2 hopen hrs h,
    fun hs hfit hfuel => runCalls_total fuel _ hopen hrs hs calls _ hfit hfuel⟩
  obtain ⟨f1, h1, h2, h3⟩ := runCalls_length fuel _ hopen hrs calls _ n t1 d1 hrun
  have hlen : f1.length = (NanoTable.mk cols (recordSizeOf cols))._headerSizeBytes +
      n * (NanoTable.mk cols (recordSizeOf cols))._recordSize := by rw [h3, hsz]
  exact ⟨f1, h1, h2, hlen, by rw [h3]; omega, fun p hp1 hp2 => slot_of_byte _ f1 n p hlen hp1 hp2⟩

/-- Sample data for C19: the sample table as `begin` creates it and a run of
two saves with an update and a drop between them, which leaves two rows. -/
theorem file_size_invariant_witness :
    runCalls 100 exTable (some exHeader) exCalls =
      .ok (2, exTable, some (exHeader ++ exRow 0 7 ++ exRow 1 9)) ∧
    exHeader.length = exTable._headerSizeBytes ∧
    (∀ n t1 d1, runCalls 100 exTable (some exHeader) exCalls = .ok (n, t1, d1) →
      ∃ f1, d1 = some f1 ∧ t1 = exTable ∧
        f1.length = exTable._headerSizeBytes + n * exTable._recordSize ∧
        exHeader.length ≤ f1.length ∧
        ∀ p, exTable._headerSizeBytes ≤ p → p < f1.length →
          ∃ k, (SlotIn exTable f1 k ∧ slotPos exTable k ≤ p ∧
              p < slotPos exTable k + exTable._recordSize) ∧
            ∀ j, SlotIn exTable f1 j ∧ slotPos exTable j ≤ p ∧
              p < slotPos exTable j + exTable._recordSize → j = k) ∧
    (∀ g c b t2 d2, runCall 100 exTable (some g) c = .ok (b, t2, d2) →
      ∃ g2, d2 = some g2 ∧ t2 = exTable ∧
        g2.length = g.length + (if c.isSave && b then exTable._recordSize else 0)) ∧
    (ShortStrings exCols → (∀ c ∈ exCalls, CallFits exTable c) →
      exHeader.length + exCalls.length * exTable._recordSize < 100 →
      ∃ n f1, runCalls 100 exTable (some exHeader) exCalls = .ok (n, exTable, some f1)) :=
  ⟨by decide, file_size_invariant 100 exCols exTable exHeader exCalls (by decide) (by decide)
    (by decide)⟩

end NanoDB

namespace NanoDB
open NanoTable NanoRecord

/-- C20, as the claim states it, fails for a schema of one string column of
width 0: `begin` accepts it, the row size is 0, and `records()` on the file
`begin` wrote returns for no amount of fuel. -/
theorem scan_counterexample :
    begin NanoTable.new none (some emptyCols) =
        .ok (true, { _cols := emptyCols, _recordSize := 0 }, some [1, 1, 97, 83, 0, 0]) ∧
      ¬ ∃ fuel r, records fuel { _cols := emptyCols, _recordSize := 0 }
        (some [1, 1, 97, 83, 0, 0]) = .ok r := by
  refine ⟨by decide, ?_⟩
  rintro ⟨fuel, r, h⟩
  rw [records_stuck _ _ (by decide) rfl (by decide) (by decide) fuel] at h
  cases h

/-- C20 (amended): on an opened table whose cached row size is not 0, for every
file content, with fuel above the file length, `records()`, `_nextId()`,
`_findOffsetById`, `_findOffsetByColInt` and, when the string columns are
narrower than the scratch buffer, `_findOffsetByColString` return; an offset
they return is the offset of a complete row slot.  Each scan starts at
`header_size`, which is the offset of slot 0; an iteration at the offset of slot
`k` stops the scan when slot `k` is not complete, and otherwise either ends the
scan (a match, or a short read) or goes on at the offset of slot `k + 1`, which
is `row_size` further. -/
theorem scan_termination (fuel : Nat) (t : NanoTable) (f : List Byte) (hopen : t._cols ≠ [])
    (hpos : 0 < t._recordSize) (hfuel : f.length < fuel) :
    ((∃ n, records fuel t (some f) = .ok (n, t)) ∧
      (∃ n, _nextId fuel t (some f) = .ok (n, t)) ∧
      (∀ v, ∃ o, _findOffsetById fuel t (some f) v = .ok (o, t) ∧
        ∀ p, o = some p → ∃ k, p = slotPos t k ∧ SlotIn t f k) ∧
      (∀ col v, ∃ o, _findOffsetByColInt fuel t (some f) col v = .ok (o, t) ∧
        ∀ p, o = some p → ∃ k, p = slotPos t k ∧ SlotIn t f k) ∧
      (ShortStrings t._cols → ∀ col val,
        ∃ o, _findOffsetByColString fuel t (some f) col val = .ok (o, t) ∧
          ∀ p, o = some p → ∃ k, p = slotPos t k ∧ SlotIn t f k)) ∧
    (slotPos t 0 = t._headerSizeBytes ∧
      (∀ k, slotPos t (k + 1) = slotPos t k + t._recordSize) ∧
      records fuel t (some f) =
        ((recordsLoop t f fuel (slotPos t 0) 0).bind fun cnt => .ok (cnt, t)) ∧
      (∀ i, idIndex t._cols = some i → _nextId fuel t (some f) =
        ((nextIdLoop t f i fuel (slotPos t 0) 0).bind fun m => .ok (wrap32 (m + 1), t))) ∧
      (∀ i v, idIndex t._cols = some i → _findOffsetById fuel t (some f) v =
        ((findIntLoop t f i v fuel (slotPos t 0)).bind fun o => .ok (o, t))) ∧
      (∀ col v idx c, colIndex t._cols col = some idx → t._cols[idx]? = some c →
        c.type = TAG_I → _findOffsetByColInt fuel t (some f) col v =
          ((findIntLoop t f idx v fuel (slotPos t 0)).bind fun o => .ok (o, t))) ∧
      (∀ col val idx c, colIndex t._cols col = some idx → t._cols[idx]? = some c →
        c.type = TAG_S → _findOffsetByColString fuel t (some f) col val =
          ((findStringLoop t f idx c val fuel (slotPos t 0)).bind fun o => .ok (o, t)))) ∧
    ((∀ n k cnt,
        (SlotIn t f k → ∃ cnt1, recordsLoop t f (n + 1) (slotPos t k) cnt =
          recordsLoop t f n (slotPos t (k + 1)) cnt1) ∧
        (¬ SlotIn t f k → recordsLoop t f (n + 1) (slotPos t k) cnt = .ok cnt)) ∧
      (∀ i n k acc,
        (SlotIn t f k → nextIdLoop t f i (n + 1) (slotPos t k) acc = .ok acc ∨ ∃ acc1,
          nextIdLoop t f i (n + 1) (slotPos t k) acc =
            nextIdLoop t f i n (slotPos t (k + 1)) acc1) ∧
        (¬ SlotIn t f k → nextIdLoop t f i (n + 1) (slotPos t k) acc = .ok acc)) ∧
      (∀ i v n k,
        (SlotIn t f k → findIntLoop t f i v (n + 1) (slotPos t k) = .ok none ∨
          findIntLoop t f i v (n + 1) (slotPos t k) = .ok (some (slotPos t k)) ∨
          findIntLoop t f i v (n + 1) (slotPos t k) =
            findIntLoop t f i v n (slotPos t (k + 1))) ∧
        (¬ SlotIn t f k → findIntLoop t f i v (n + 1) (slotPos t k) = .ok none)) ∧
      (∀ i c val n k,
        (SlotIn t f k → findStringLoop t f i c val (n + 1) (slotPos t k) = .ub ∨
          findStringLoop t f i c val (n + 1) (slotPos t k) = .ok none ∨
          findStringLoop t f i c val (n + 1) (slotPos t k) = .ok (some (slotPos t k)) ∨
          findStringLoop t f i c val (n + 1) (slotPos t k) =
            findStringLoop t f i c val n (slotPos t (k + 1))) ∧
        (¬ SlotIn t f k → findStringLoop t f i c val (n + 1) (slotPos t k) = .ok none))) := by
  refine ⟨⟨records_total fuel t f hopen hpos hfuel, nextId_total fuel t f hopen hpos hfuel,
    fun v => findOffsetById_total fuel t f v hopen hpos hfuel,
    fun col v => findOffsetByColInt_total fuel t f col v hopen hpos hfuel,
    fun hs col val => findOffsetByColString_total fuel t f col val hopen hpos hs hfuel⟩,
    ⟨slotPos_zero t, slotPos_succ t, ?_, ?_, ?_, ?_, ?_⟩,
    ⟨fun n k cnt => recordsLoop_step t f n k cnt, fun i n k acc => nextIdLoop_step t f i n k acc,
      fun i v n k => findIntLoop_step t f i v n k,
      fun i c val n k => findStringLoop_visit t f i c val n k⟩⟩
  · simp only [records, lazyLoad_open t _ hopen, Run.bind_ok, slotPos_zero]
  · intro i hid
    simp only [_nextId, lazyLoad_open t _ hopen, Run.bind_ok, hid, slotPos_zero]
  · intro i v hid
    exact findOffsetById_open fuel t f v i hid
  · intro col v idx c hci hc ht
    exact findOffsetByColInt_col fuel t f col v idx c hopen hci hc ht
  · intro col val idx c hci hc ht
    exact findOffsetByColString_col fuel t f col val idx c hopen hci hc ht

/-- Sample data for C20: the sample table and a file of two rows; the part of
the property that says the scans return. -/
theorem scan_termination_witness :
    (∃ n, records 100 exTable (some exFile) = .ok (n, exTable)) ∧
      (∃ n, _nextId 100 exTable (some exFile) = .ok (n, exTable)) ∧
      (∀ v, ∃ o, _findOffsetById 100 exTable (some exFile) v = .ok (o, exTable) ∧
        ∀ p, o = some p → ∃ k, p = slotPos exTable k ∧ SlotIn exTable exFile k) ∧
      (∀ col v, ∃ o, _findOffsetByColInt 100 exTable (some exFile) col v = .ok (o, exTable) ∧
        ∀ p, o = some p → ∃ k, p = slotPos exTable k ∧ SlotIn exTable exFile k) ∧
      (ShortStrings exTable._cols → ∀ col val,
        ∃ o, _findOffsetByColString 100 exTable (some exFile) col val = .ok (o, exTable) ∧
          ∀ p, o = some p → ∃ k, p = slotPos exTable k ∧ SlotIn exTable exFile k) :=
  (scan_termination 100 exTable exFile (by decide) (by decide) (by decide)).1

end NanoDB

namespace NanoDB
open NanoTable NanoRecord

/-! ### Field offsets -/

theorem offsetLoop_eq (cols : List ColumnDef) :
    ∀ (j off : Nat), offsetLoop cols j off = off + colOffset cols j := by
  induction cols with
  | nil => intro j off; cases j <;> simp [offsetLoop, colOffset]
  | cons c cs ih =>
    intro j off
    cases j with
    | zero => simp [offsetLoop, colOffset]
    | succ j =>
      rw [offsetLoop, ih, offsetStep_eq]
      simp only [colOffset, List.take_succ_cons, List.map_cons, List.sum_cons]
      omega

theorem offsetOf_eq (r : NanoRecord) (cols : List ColumnDef) (j : Nat)
    (hc : r._cols = some cols) : r.offsetOf j = colOffset cols j := by
  simp only [offsetOf, hc, Option.getD_some, offsetLoop_eq, Nat.zero_add]

theorem mid_frame (a x x1 b : List Byte) (h : x1.length = x.length) (p : Nat)
    (hp : p < a.length ∨ a.length + x.length ≤ p) :
    (a ++ x1 ++ b)[p]? = (a ++ x ++ b)[p]? := by
  rcases hp with hp | hp
  · rw [List.append_assoc, List.append_assoc, List.getElem?_append_left hp,
      List.getElem?_append_left hp]
  · rw [List.getElem?_append_right (by simp only [List.length_append]; omega),
      List.getElem?_append_right (by simp only [List.length_append]; omega)]
    simp only [List.length_append, h]

theorem sameOutsideField_split (r : NanoRecord) (pre post : List ColumnDef) (c : ColumnDef)
    (a x x1 b : List Byte) (hd : r._data = some (a ++ x ++ b))
    (ha : a.length = rowBytes pre) (hx : x.length = _typeSize c)
    (hx1 : x1.length = _typeSize c) :
    SameOutsideField (pre ++ c :: post) pre.length c r
      (NanoRecord.mk r._cols r._rowSize (some (a ++ x1 ++ b))) := by
  refine ⟨rfl, rfl, _, _, hd, rfl, ?_, fun p hp => ?_⟩
  · simp only [List.length_append, hx, hx1]
  · rw [colOffset_split, ← ha, ← hx] at hp
    exact mid_frame a x x1 b (by rw [hx, hx1]) p hp

theorem setInt_field (r : NanoRecord) (cols : List ColumnDef) (d : List Byte) (i : Nat)
    (c : ColumnDef) (v : Int) (hc : r._cols = some cols) (hd : r._data = some d)
    (hlen : d.length = rowBytes cols) (hi : cols[i]? = some c) (ht : c.type = TAG_I) :
    ∃ r1, r.setInt i v = .ok r1 ∧ SameOutsideField cols i c r r1 := by
  obtain ⟨pre, post, hcols, hpre⟩ := split_at cols i c hi
  subst hcols
  obtain ⟨a, x, b, hdx, ha, hx, _⟩ := split_row pre c post d hlen
  subst hdx
  subst hpre
  have hx4 : x.length = 4 := by rw [hx, typeSize_I c ht]
  exact ⟨_, setInt_split r pre post c a x b hc hd ha hx4 v,
    sameOutsideField_split r pre post c a x _ b hd ha hx (by rw [le32_length, typeSize_I c ht])⟩

theorem setFloat_field (r : NanoRecord) (cols : List ColumnDef) (d : List Byte) (i : Nat)
    (c : ColumnDef) (v : Nat) (hc : r._cols = some cols) (hd : r._data = some d)
    (hlen : d.length = rowBytes cols) (hi : cols[i]? = some c) (ht : c.type = TAG_F) :
    ∃ r1, r.setFloat i v = .ok r1 ∧ SameOutsideField cols i c r r1 := by
  obtain ⟨pre, post, hcols, hpre⟩ := split_at cols i c hi
  subst hcols
  obtain ⟨a, x, b, hdx, ha, hx, _⟩ := split_row pre c post d hlen
  subst hdx
  subst hpre
  have hx4 : x.length = 4 := by rw [hx, typeSize_F c ht]
  exact ⟨_, setFloat_split r pre post c a x b hc hd ha hx4 v,
    sameOutsideField_split r pre post c a x _ b hd ha hx (by rw [le32_length, typeSize_F c ht])⟩

theorem setBool_field (r : NanoRecord) (cols : List ColumnDef) (d : List Byte) (i : Nat)
    (c : ColumnDef) (v : Bool) (hc : r._cols = some cols) (hd : r._data = some d)
    (hlen : d.length = rowBytes cols) (hi : cols[i]? = some c) (ht : c.type = TAG_B) :
    ∃ r1, r.setBool i v = .ok r1 ∧ SameOutsideField cols i c r r1 := by
  obtain ⟨pre, post, hcols, hpre⟩ := split_at cols i c hi
  subst hcols
  obtain ⟨a, x, b, hdx, ha, hx, _⟩ := split_row pre c post d hlen
  subst hdx
  subst hpre
  have hx1 : x.length = 1 := by rw [hx, typeSize_B c ht]
  exact ⟨_, setBool_split r pre post c a x b hc hd ha hx1 v,
    sameOutsideField_split r pre post c a x _ b hd ha hx (by rw [typeSize_B c ht]; rfl)⟩

theorem setString_field (r : NanoRecord) (cols : List ColumnDef) (d : List Byte) (i : Nat)
    (c : ColumnDef) (s : Str) (hc : r._cols = some cols) (hd : r._data = some d)
    (hlen : d.length = rowBytes cols) (hi : cols[i]? = some c) (ht : c.type = TAG_S) :
    ∃ r1, r.setString i s = .ok r1 ∧ SameOutsideField cols i c r r1 := by
  obtain ⟨pre, post, hcols, hpre⟩ := split_at cols i c hi
  subst hcols
  obtain ⟨a, x, b, hdx, ha, hx, _⟩ := split_row pre c post d hlen
  subst hdx
  subst hpre
  have hxs : x.length = c.size := by rw [hx, typeSize_S c ht]
  refine ⟨_, setString_split r pre post c a x b hc hd ha hxs s,
    sameOutsideField_split r pre post c a x _ b hd ha hx ?_⟩
  rw [typeSize_S c ht]
  simp only [List.length_append, List.length_take, List.length_replicate]
  omega

end NanoDB

namespace NanoDB
open NanoTable NanoRecord

theorem peek_congr (d d1 : List Byte) (off n : Nat) (hlen : d1.length = d.length)
    (hsame : ∀ p, off ≤ p → p < off + n → d1[p]? = d[p]?) : peek d1 off n = peek d off n := by
  have h : readAt d1 off n = readAt d off n := by
    apply List.ext_getElem?
    intro q
    rw [readAt_getElem?, readAt_getElem?]
    by_cases hq : q < n
    · simp only [hq, if_true]
      exact hsame _ (by omega) (by omega)
    · simp only [hq, if_false]
  have h' : (d1.drop off).take n = (d.drop off).take n := h
  simp only [peek, hlen, h']

theorem field_apart (cols : List ColumnDef) (i j : Nat) (c cj : ColumnDef)
    (hi : cols[i]? = some c) (hj : cols[j]? = some cj) (hne : j ≠ i) (n p : Nat)
    (hn : n ≤ _typeSize cj) (h1 : colOffset cols j ≤ p) (h2 : p < colOffset cols j + n) :
    p < colOffset cols i ∨ colOffset cols i + _typeSize c ≤ p := by
  rcases Nat.lt_or_gt_of_ne hne with h | h
  · have := colOffset_lt cols j i cj hj h
    left; omega
  · have := colOffset_lt cols i j c hi h
    right; omega

theorem gettersKept_of_frame (cols : List ColumnDef) (i : Nat) (c : ColumnDef)
    (r r1 : NanoRecord) (hc : r._cols = some cols) (hi : cols[i]? = some c)
    (h : SameOutsideField cols i c r r1) : GettersKept cols i r r1 := by
  obtain ⟨hc1, _, d, d1, hd, hd1, hlen, hsame⟩ := h
  have hc1' : r1._cols = some cols := by rw [hc1, hc]
  intro j cj hne hj
  have ho : r.offsetOf j = colOffset cols j := offsetOf_eq r cols j hc
  have ho1 : r1.offsetOf j = colOffset cols j := offsetOf_eq r1 cols j hc1'
  have hcc : r1._colCount = r._colCount := by simp only [NanoRecord._colCount, hc1]
  have hp : ∀ n, n ≤ _typeSize cj →
      peek d1 (colOffset cols j) n = peek d (colOffset cols j) n := fun n hn =>
    peek_congr d d1 _ n hlen (fun p h1 h2 =>
      hsame p (field_apart cols i j c cj hi hj hne n p hn h1 h2))
  refine ⟨fun h4 => ⟨?_, ?_⟩, fun h1 => ?_, fun hs => ?_⟩
  · simp only [getInt, hd, hd1, hcc, ho, ho1, hp 4 h4]
  · simp only [getFloat, hd, hd1, hcc, ho, ho1, hp 4 h4]
  · simp only [getBool, hd, hd1, hcc, ho, ho1, hp 1 h1]
  · have hsc : r1.stringScratch d1 j = r.stringScratch d j := by
      simp only [stringScratch, hc, hc1', Option.getD_some, hj, ho, ho1, hp cj.size hs]
    exact ⟨by simp only [getString, hd, hd1, hcc, hsc],
      by simp only [getCString, hd, hd1, hcc, hsc]⟩

theorem fieldEq_of_kept (cols : List ColumnDef) (i : Nat) (r r1 : NanoRecord) (d : List Byte)
    (hc : r._cols = some cols) (hd : r._data = some d) (hlen : d.length = rowBytes cols)
    (h : GettersKept cols i r r1) (j : Nat) (cj : ColumnDef) (hne : j ≠ i)
    (hj : cols[j]? = some cj) (hs : cj.type = TAG_S → cj.size < NANO_MAX_STR_LEN) :
    FieldEq r r1 j cj := by
  obtain ⟨k4, k1, ks⟩ := h j cj hne hj
  obtain ⟨g1, g2, g3, g4⟩ := decodes_field r cols d j cj hc hd hlen hj hs
  refine ⟨fun ht => ?_, fun ht => ?_, fun ht => ?_, fun ht => ?_⟩
  · exact ⟨_, g1 ht, by rw [(k4 (by rw [typeSize_I cj ht])).1, g1 ht]⟩
  · exact ⟨_, g2 ht, by rw [(k4 (by rw [typeSize_F cj ht])).2, g2 ht]⟩
  · exact ⟨_, g3 ht, by rw [k1 (by rw [typeSize_B cj ht]), g3 ht]⟩
  · exact ⟨_, g4 ht, by rw [(ks (by rw [typeSize_S cj ht])).1, g4 ht]⟩

end NanoDB

namespace NanoDB
open NanoTable NanoRecord

theorem attached_of_frame (t : NanoTable) (i : Nat) (c : ColumnDef) (r r1 : NanoRecord)
    (hatt : Attached t r) (h : SameOutsideField t._cols i c r r1) : Attached t r1 := by
  obtain ⟨hc1, _, d, d1, hd, hd1, hlen, _⟩ := h
  obtain ⟨hc, hdl⟩ := hatt
  rw [hd] at hdl
  refine ⟨by rw [hc1, hc], ?_⟩
  rw [hd1]
  simpa [hlen] using hdl

theorem peek_field (cols : List ColumnDef) (d : List Byte) (i : Nat) (c : ColumnDef)
    (hlen : d.length = rowBytes cols) (hi : cols[i]? = some c) :
    peek d (colOffset cols i) (_typeSize c) = .ok (readAt d (colOffset cols i) (_typeSize c)) := by
  have := colOffset_bound cols i c hi
  have hle : colOffset cols i + _typeSize c ≤ d.length := by omega
  simp only [peek, hle, if_true, readAt]

/-- C21: on a table whose cached row size is the one `_loadHeader` computes and
whose column widths add up to at most 65535, the row size is the sum of the
widths and `newRecord` attaches a record of the table; on every record of the
table and every column index `i` below the column count, `offsetOf(i)` is the
sum of the widths of the columns before `i`, the offset the scans of the table
compute from `_typeSize`, and `offsetOf(i)` plus the width of column `i` is at
most the row size, the length of the row buffer; the read of the field stays
inside the buffer, the getter of the type of the column returns a value (for a
string column narrower than the scratch buffer), and the setter of the type of
the column returns a record of the table. -/
theorem offsets_inside (t : NanoTable) (r : NanoRecord) (i : Nat) (c : ColumnDef)
    (hload : t._recordSize = recordSizeOf t._cols) (hsum : rowBytes t._cols ≤ 65535)
    (hatt : Attached t r) (hi : t._cols[i]? = some c) :
    t._recordSize = rowBytes t._cols ∧
    (∀ disk rec0, newRecord t disk rec0 =
      .ok (true, t, NanoRecord.attach t._cols t._recordSize)) ∧
    Attached t (NanoRecord.attach t._cols t._recordSize) ∧
    r.offsetOf i = ((t._cols.take i).map _typeSize).sum ∧
    r.offsetOf i = colOffset t._cols i ∧
    r.offsetOf i + _typeSize c ≤ t._recordSize ∧
    (∃ d, r._data = some d ∧ d.length = t._recordSize ∧
      peek d (r.offsetOf i) (_typeSize c) = .ok (readAt d (r.offsetOf i) (_typeSize c)) ∧
      (c.type = TAG_S → r.stringScratch d i = scratch (readAt d (r.offsetOf i) c.size))) ∧
    (c.type = TAG_I → (∃ v, r.getInt i = .ok v) ∧
      ∀ v, ∃ r1, r.setInt i v = .ok r1 ∧ Attached t r1) ∧
    (c.type = TAG_F → (∃ v, r.getFloat i = .ok v) ∧
      ∀ v, ∃ r1, r.setFloat i v = .ok r1 ∧ Attached t r1) ∧
    (c.type = TAG_B → (∃ v, r.getBool i = .ok v) ∧
      ∀ v, ∃ r1, r.setBool i v = .ok r1 ∧ Attached t r1) ∧
    (c.type = TAG_S → (c.size < NANO_MAX_STR_LEN → ∃ s, r.getString i = .ok s) ∧
      ∀ s, ∃ r1, r.setString i s = .ok r1 ∧ Attached t r1) := by
  have hrs : t._recordSize = rowBytes t._cols := by
    rw [hload, recordSizeOf_eq, Nat.mod_eq_of_lt (by omega)]
  have hopen : t._cols ≠ [] := by
    intro h0
    rw [h0] at hi
    simp at hi
  obtain ⟨d, hc, hd, hdl⟩ := attached_data t r hatt
  have hdl' : d.length = rowBytes t._cols := by rw [hdl, hrs]
  have ho : r.offsetOf i = colOffset t._cols i := offsetOf_eq r t._cols i hc
  have hb := colOffset_bound t._cols i c hi
  have hpk := peek_field t._cols d i c hdl' hi
  refine ⟨hrs, fun disk rec0 => ?_, attached_attach t, ho, ho, by rw [ho, hrs]; exact hb,
    ⟨d, hd, hdl, by rw [ho]; exact hpk, fun ht => ?_⟩, fun ht => ⟨?_, fun v => ?_⟩,
    fun ht => ⟨?_, fun v => ?_⟩, fun ht => ⟨?_, fun v => ?_⟩, fun ht => ⟨fun hs => ?_, fun s => ?_⟩⟩
  · simp only [newRecord, headerMissing_open t _ hopen, Run.bind_ok, Bool.false_eq_true,
      if_false]
  · rw [typeSize_S c ht] at hpk
    simp only [stringScratch, hc, Option.getD_some, hi, ho, hpk, Run.bind_ok]
  · exact ⟨_, (decodes_field r t._cols d i c hc hd hdl' hi (fun h => by
      rw [ht] at h; exact absurd h.symm tag_SI)).1 ht⟩
  · obtain ⟨r1, h1, h2⟩ := setInt_field r t._cols d i c v hc hd hdl' hi ht
    exact ⟨r1, h1, attached_of_frame t i c r r1 hatt h2⟩
  · exact ⟨_, (decodes_field r t._cols d i c hc hd hdl' hi (fun h => by
      rw [ht] at h; exact absurd h.symm tag_SF)).2.1 ht⟩
  · obtain ⟨r1, h1, h2⟩ := setFloat_field r t._cols d i c v hc hd hdl' hi ht
    exact ⟨r1, h1, attached_of_frame t i c r r1 hatt h2⟩
  · exact ⟨_, (decodes_field r t._cols d i c hc hd hdl' hi (fun h => by
      rw [ht] at h; exact absurd h.symm tag_SB)).2.2.1 ht⟩
  · obtain ⟨r1, h1, h2⟩ := setBool_field r t._cols d i c v hc hd hdl' hi ht
    exact ⟨r1, h1, attached_of_frame t i c r r1 hatt h2⟩
  · exact ⟨_, (decodes_field r t._cols d i c hc hd hdl' hi (fun _ => hs)).2.2.2 ht⟩
  · obtain ⟨r1, h1, h2⟩ := setString_field r t._cols d i c s hc hd hdl' hi ht
    exact ⟨r1, h1, attached_of_frame t i c r r1 hatt h2⟩

/-- Sample data for C21: the string column, of index 3, of the table with a
column of each type, and the record `mixRec`. -/
theorem offsets_inside_witness :
    mixTable._recordSize = rowBytes mixTable._cols ∧
    (∀ disk rec0, newRecord mixTable disk rec0 =
      .ok (true, mixTable, NanoRecord.attach mixTable._cols mixTable._recordSize)) ∧
    Attached mixTable (NanoRecord.attach mixTable._cols mixTable._recordSize) ∧
    mixRec.offsetOf 3 = ((mixTable._cols.take 3).map _typeSize).sum ∧
    mixRec.offsetOf 3 = colOffset mixTable._cols 3 ∧
    mixRec.offsetOf 3 + _typeSize mixStr ≤ mixTable._recordSize ∧
    (∃ d, mixRec._data = some d ∧ d.length = mixTable._recordSize ∧
      peek d (mixRec.offsetOf 3) (_typeSize mixStr) =
        .ok (readAt d (mixRec.offsetOf 3) (_typeSize mixStr)) ∧
      (mixStr.type = TAG_S →
        mixRec.stringScratch d 3 = scratch (readAt d (mixRec.offsetOf 3) mixStr.size))) ∧
    (mixStr.type = TAG_I → (∃ v, mixRec.getInt 3 = .ok v) ∧
      ∀ v, ∃ r1, mixRec.setInt 3 v = .ok r1 ∧ Attached mixTable r1) ∧
    (mixStr.type = TAG_F → (∃ v, mixRec.getFloat 3 = .ok v) ∧
      ∀ v, ∃ r1, mixRec.setFloat 3 v = .ok r1 ∧ Attached mixTable r1) ∧
    (mixStr.type = TAG_B → (∃ v, mixRec.getBool 3 = .ok v) ∧
      ∀ v, ∃ r1, mixRec.setBool 3 v = .ok r1 ∧ Attached mixTable r1) ∧
    (mixStr.type = TAG_S →
      (mixStr.size < NANO_MAX_STR_LEN → ∃ s, mixRec.getString 3 = .ok s) ∧
      ∀ s, ∃ r1, mixRec.setString 3 s = .ok r1 ∧ Attached mixTable r1) :=
  offsets_inside mixTable mixRec 3 mixStr (by decide) (by decide) (by decide) (by decide)

end NanoDB

namespace NanoDB
open NanoTable NanoRecord

/-! ### What a setter leaves as it was -/

/-- C22, as the claim states it, fails on sample data: on a record of the
schema `b : Bool`, `n : Int32`, `getInt(0)` returns 0 before `setInt(1, 1)` and
256 after it, the four bytes it reads from the offset of column 0 reaching into
the field of column 1. -/
theorem setter_frame_counterexample :
    flagRec.getInt 0 = .ok 0 ∧
      flagRec.setInt 1 1 =
        .ok { _cols := some flagCols, _rowSize := 5, _data := some [0, 1, 0, 0, 0] } ∧
      NanoRecord.getInt { _cols := some flagCols, _rowSize := 5, _data := some [0, 1, 0, 0, 0] } 0 =
        .ok 256 :=
  ⟨by decide, by decide, by decide⟩

/-- C22 (amended): for a record attached to a schema, with a row buffer of the
sum of the column widths, and a column `i` of the schema, the setter of the type
of the column (`setInt` on `I`, `setFloat` on `F`, `setBool` on `B`, `setString`
on `S`) returns a record with the same schema and a buffer of the same length
that holds the same bytes outside field `i`; on every other column `j`, every
typed getter whose read stays inside field `j` returns what it returned before,
and the getter of the type of column `j` returns the value it returned before
(for a string column narrower than the scratch buffer). -/
theorem setter_frame (r : NanoRecord) (cols : List ColumnDef) (d : List Byte) (i : Nat)
    (c : ColumnDef) (hc : r._cols = some cols) (hd : r._data = some d)
    (hlen : d.length = rowBytes cols) (hi : cols[i]? = some c) :
    ((c.type = TAG_I → ∀ v, ∃ r1, r.setInt i v = .ok r1) ∧
      (c.type = TAG_F → ∀ v, ∃ r1, r.setFloat i v = .ok r1) ∧
      (c.type = TAG_B → ∀ v, ∃ r1, r.setBool i v = .ok r1) ∧
      (c.type = TAG_S → ∀ s, ∃ r1, r.setString i s = .ok r1)) ∧
    ∀ r1, ((c.type = TAG_I ∧ ∃ v, r.setInt i v = .ok r1) ∨
        (c.type = TAG_F ∧ ∃ v, r.setFloat i v = .ok r1) ∨
        (c.type = TAG_B ∧ ∃ v, r.setBool i v = .ok r1) ∨
        (c.type = TAG_S ∧ ∃ s, r.setString i s = .ok r1)) →
      SameOutsideField cols i c r r1 ∧ GettersKept cols i r r1 ∧
      ∀ j cj, j ≠ i → cols[j]? = some cj → (cj.type = TAG_S → cj.size < NANO_MAX_STR_LEN) →
        FieldEq r r1 j cj := by
  refine ⟨⟨fun ht v => ?_, fun ht v => ?_, fun ht v => ?_, fun ht s => ?_⟩, fun r1 h => ?_⟩
  · obtain ⟨r1, h1, _⟩ := setInt_field r cols d i c v hc hd hlen hi ht
    exact ⟨r1, h1⟩
  · obtain ⟨r1, h1, _⟩ := setFloat_field r cols d i c v hc hd hlen hi ht
    exact ⟨r1, h1⟩
  · obtain ⟨r1, h1, _⟩ := setBool_field r cols d i c v hc hd hlen hi ht
    exact ⟨r1, h1⟩
  · obtain ⟨r1, h1, _⟩ := setString_field r cols d i c s hc hd hlen hi ht
    exact ⟨r1, h1⟩
  · have hf : SameOutsideField cols i c r r1 := by
      rcases h with ⟨ht, v, hv⟩ | ⟨ht, v, hv⟩ | ⟨ht, v, hv⟩ | ⟨ht, s, hv⟩
      · obtain ⟨r2, h1, h2⟩ := setInt_field r cols d i c v hc hd hlen hi ht
        rw [hv] at h1
        cases h1
        exact h2
      · obtain ⟨r2, h1, h2⟩ := setFloat_field r cols d i c v hc hd hlen hi ht
        rw [hv] at h1
        cases h1
        exact h2
      · obtain ⟨r2, h1, h2⟩ := setBool_field r cols d i c v hc hd hlen hi ht
        rw [hv] at h1
        cases h1
        exact h2
      · obtain ⟨r2, h1, h2⟩ := setString_field r cols d i c s hc hd hlen hi ht
        rw [hv] at h1
        cases h1
        exact h2
    have hk := gettersKept_of_frame cols i c r r1 hc hi hf
    exact ⟨hf, hk, fun j cj hne hj hs => fieldEq_of_kept cols i r r1 d hc hd hlen hk j cj hne hj hs⟩

/-- Sample data for C22: `setString` on the string column, of index 3, of the
record `mixRec`. -/
theorem setter_frame_witness :
    mixRec.setString 3 [111, 107] =
      .ok { _cols := some mixCols, _rowSize := 13,
            _data := some (le32 7 ++ le32 1065353216 ++ [1] ++ [111, 107, 0, 0]) } ∧
    ((mixStr.type = TAG_I → ∀ v, ∃ r1, mixRec.setInt 3 v = .ok r1) ∧
      (mixStr.type = TAG_F → ∀ v, ∃ r1, mixRec.setFloat 3 v = .ok r1) ∧
      (mixStr.type = TAG_B → ∀ v, ∃ r1, mixRec.setBool 3 v = .ok r1) ∧
      (mixStr.type = TAG_S → ∀ s, ∃ r1, mixRec.setString 3 s = .ok r1)) ∧
    ∀ r1, ((mixStr.type = TAG_I ∧ ∃ v, mixRec.setInt 3 v = .ok r1) ∨
        (mixStr.type = TAG_F ∧ ∃ v, mixRec.setFloat 3 v = .ok r1) ∨
        (mixStr.type = TAG_B ∧ ∃ v, mixRec.setBool 3 v = .ok r1) ∨
        (mixStr.type = TAG_S ∧ ∃ s, mixRec.setString 3 s = .ok r1)) →
      SameOutsideField mixCols 3 mixStr mixRec r1 ∧ GettersKept mixCols 3 mixRec r1 ∧
      ∀ j cj, j ≠ 3 → mixCols[j]? = some cj → (cj.type = TAG_S → cj.size < NANO_MAX_STR_LEN) →
        FieldEq mixRec r1 j cj :=
  ⟨by decide, setter_frame mixRec mixCols
    (le32 7 ++ le32 1065353216 ++ [1] ++ [104, 105, 0, 0]) 3 mixStr rfl rfl (by decide)
    (by decide)⟩

end NanoDB
